import Mathlib

/-!
Verification of chatllm.cpp: context shifting and KV-cache compaction.

A shallow embedding of the parts of `src/chat.h`, `src/layers.cpp`,
`src/tokenizer.h`, `src/basics.h`, `src/models/mistral.cpp`,
`src/models/baichuan.cpp` and `src/models/llama.cpp` that the claims are about:

* `BaseModel::shift_memory` (the `n_past` / `n_past_offset` bookkeeping),
* `fill_pos_vector`,
* `KVCacheAttention::before_forward` (compaction of the K and V caches when a
  shift is pending), `save_to_cache`, `get_k_from_cache`, `get_v_from_cache`,
  and the cache effect of `BaseAttention::forward`,
* the scaling calls of `CoreAttention::cross_attention_after_pe` and
  `calc_attn_scores`,
* `Phi3SUSelfAttention::get_inv_freq`, the log-length table of
  `QWenSelfAttention`,
* the shift block, the cache store and the prefill mask of
  `GLMSelfAttention::forward`,
* `_vocab::is_token_of_type`, `_vocab::find_bpe_rank`, the default terminate
  token id, the constructor of `mistral::ConditionalGeneration` with the
  constructors it runs first,
* `llama::v2::Tokenizer::encode` and the history encoders of Baichuan-7B and
  Llama-3, over an arbitrary base `encode`,
* `ordering`, with `std::sort` embedded as an insertion sort,
* the streaming text assembler `TextStreamer`, whose bodies are not among the
  sources and which is modelled from the spec.

Floating-point scalars appear only as symbols (which scalar is applied where),
never as numbers.

C++ `int` values are embedded as `Int`: signed overflow is undefined behaviour
in C++, so the executions the language defines are exactly those in which every
result is the mathematical one and lies in the range of `int`.  Where a claim
depends on an `int` sum, its theorem states that condition (`in_int`,
`BaseModel.shift_in_range`).  A `CHATLLM_CHECK` that fails throws; a method
that can throw returns its outcome together with the object state it leaves
behind.
-/

namespace chatllm

/-! ## Definitions -/

/-- Fatal errors raised through `CHATLLM_CHECK`.  `kept_exceeds_history` is the
failure of `CHATLLM_CHECK(n_past >= keep) << "length of kept should not exceeds
history"` in `BaseModel::shift_memory`; `sliding_window_unsupported` is the
failure of the check on `config.sliding_window` in the constructor of
`mistral::ConditionalGeneration`; `failed_to_init_ggml_context` is the failure
of `CHATLLM_CHECK(gctx_) << "failed to init ggml context"` in the constructor of
`GGMLContext`; `base_construction_failed` stands for a failure inside a
constructor that is declared outside the sources. -/
inductive Fatal where
  | kept_exceeds_history
  | sliding_window_unsupported
  | failed_to_init_ggml_context
  | base_construction_failed
  deriving DecidableEq, Repr

deriving instance DecidableEq for Except

/-- The two counters of `BaseModel` that `shift_memory` reads and writes. -/
structure BaseModel where
  n_past : Int
  n_past_offset : Int
  deriving DecidableEq, Repr

/-- The counters as the constructor `BaseModel::BaseModel` initialises them:
`n_past(0), n_past_offset(0)`. -/
def BaseModel.init : BaseModel :=
  { n_past := 0, n_past_offset := 0 }

/-- The method `BaseModel::shift_memory(int keep)`.  The check runs first and
throws before any field is assigned, so on failure the object is returned as it
was; otherwise `n_past_offset += n_past - keep; n_past = keep;`.  The sums are
the mathematical ones: this is the code on the calls whose `int` arithmetic does
not overflow (`BaseModel.shift_in_range`); the comparison and the assignment of
`keep` involve no arithmetic. -/
def BaseModel.shift_memory (m : BaseModel) (keep : Int) : Except Fatal Unit × BaseModel :=
  if m.n_past ≥ keep then
    (Except.ok (),
      { n_past := keep, n_past_offset := m.n_past_offset + (m.n_past - keep) })
  else
    (Except.error Fatal.kept_exceeds_history, m)

/-- A run of `shift_memory` calls, one per element of `keeps`, stopping at the
first call that throws. -/
def BaseModel.shift_memory_seq (m : BaseModel) : List Int → Except Fatal Unit × BaseModel
  | [] => (Except.ok (), m)
  | keep :: rest =>
    match m.shift_memory keep with
    | (Except.ok _, m1) => BaseModel.shift_memory_seq m1 rest
    | (Except.error e, m1) => (Except.error e, m1)

/-- The least value of a C++ `int` (32 bits). -/
def INT_MIN : Int := -2147483648

/-- The greatest value of a C++ `int` (32 bits). -/
def INT_MAX : Int := 2147483647

/-- The value an `int` holds: between `INT_MIN` and `INT_MAX`. -/
def in_int (x : Int) : Prop := INT_MIN ≤ x ∧ x ≤ INT_MAX

instance (x : Int) : Decidable (in_int x) := by
  unfold in_int; infer_instance

/-- The 32-bit two's-complement value of a mathematical result: what an `int`
holds after an addition or subtraction that left the range. -/
def wrap_int (x : Int) : Int := Int.bmod x 4294967296

/-- The call `shift_memory(keep)` on the state `m` stays within `int`: the
counters and `keep` are `int` values and neither `n_past - keep` nor
`n_past_offset + (n_past - keep)` overflows.  Signed overflow is undefined in
C++; on these calls `BaseModel.shift_memory` computes what the code computes. -/
def BaseModel.shift_in_range (m : BaseModel) (keep : Int) : Prop :=
  in_int m.n_past ∧ in_int m.n_past_offset ∧ in_int keep ∧
  in_int (m.n_past - keep) ∧ in_int (m.n_past_offset + (m.n_past - keep))

instance (m : BaseModel) (keep : Int) : Decidable (m.shift_in_range keep) := by
  unfold BaseModel.shift_in_range; infer_instance

/-- Every call of a run of `shift_memory` calls stays within `int`, each at the
state the calls before it left. -/
def BaseModel.shift_seq_in_range (m : BaseModel) : List Int → Prop
  | [] => in_int m.n_past ∧ in_int m.n_past_offset
  | keep :: rest => m.shift_in_range keep ∧ (m.shift_memory keep).2.shift_seq_in_range rest

instance BaseModel.shift_seq_in_range_decidable :
    ∀ (keeps : List Int) (m : BaseModel), Decidable (m.shift_seq_in_range keeps)
  | [], m => by unfold BaseModel.shift_seq_in_range; infer_instance
  | keep :: rest, m =>
    have := BaseModel.shift_seq_in_range_decidable rest (m.shift_memory keep).2
    by unfold BaseModel.shift_seq_in_range; infer_instance

/-- The loop of `fill_pos_vector(pos, n_past, qlen)`: `p[i] = n_past + i` for
`0 <= i < qlen`, and `pos->ne[0] = qlen`.  The result is the logical content of
`pos`, its first `ne[0]` entries. -/
def fill_pos_vector (n_past qlen : Int) : List Int :=
  (List.range qlen.toNat).map (fun (i : Nat) => n_past + (i : Int))

/-- A ggml tensor as the cache code sees it: the flat buffer of elements behind
`data`, and the size of one element in bytes (`ggml_element_size`). -/
structure Tensor (α : Type) where
  data : List α
  elsize : Nat
  deriving DecidableEq, Repr

/-- A view of at most two dimensions into a tensor: `ne0` elements per row,
`ne1` rows, a row stride of `nb1` bytes and a start `offset` in bytes, as the
arguments of `ggml_view_1d` and `ggml_view_2d` give them. -/
structure View where
  ne0 : Nat
  ne1 : Nat
  nb1 : Nat
  offset : Nat
  deriving DecidableEq, Repr

/-- The call `ggml_view_1d(ctx, t, ne0, offset)`: one row of `ne0` elements that
starts `offset` bytes into `t`. -/
def ggml_view_1d {α : Type} (t : Tensor α) (ne0 offset : Nat) : View :=
  { ne0 := ne0, ne1 := 1, nb1 := ne0 * t.elsize, offset := offset }

/-- The call `ggml_view_2d(ctx, t, ne0, ne1, nb1, offset)`. -/
def ggml_view_2d {α : Type} (_t : Tensor α) (ne0 ne1 nb1 offset : Nat) : View :=
  { ne0 := ne0, ne1 := ne1, nb1 := nb1, offset := offset }

/-- Index, in elements of size `es`, of element `(i0, i1)` of a view: its byte
address `offset + i1 * nb1 + i0 * es` divided by the element size. -/
def View.index (v : View) (es i0 i1 : Nat) : Nat :=
  (v.offset + i1 * v.nb1 + i0 * es) / es

/-- One element of a copy: `buf[dst(i0, i1)] = buf[src(i0, i1)]`, read from the
buffer as it is at that moment. -/
def cpy_elem {α : Type} (es : Nat) (src dst : View) (i1 : Nat) (buf : List α) (i0 : Nat) : List α :=
  match buf[src.index es i0 i1]? with
  | some x => buf.set (dst.index es i0 i1) x
  | none => buf

/-- One row of a copy, elements in ascending order. -/
def cpy_row {α : Type} (es : Nat) (src dst : View) (buf : List α) (i1 : Nat) : List α :=
  (List.range src.ne0).foldl (cpy_elem es src dst i1) buf

/-- The node `ggml_cpy(ctx, src, dst)` for two views of equal shape into the same
tensor `t`, as executed on the graph: rows in ascending order, and within a row
the elements in ascending order, each read from the buffer as earlier element
copies left it (source and destination may overlap). -/
def ggml_cpy {α : Type} (t : Tensor α) (src dst : View) : Tensor α :=
  { t with data := (List.range src.ne1).foldl (cpy_row t.elsize src dst) t.data }

/-- The member `shift_pending` of an attention layer: `shift` positions are to be
dropped from a cache that held `total` positions. -/
structure ShiftPending where
  shift : Int
  total : Int
  deriving DecidableEq, Repr

/-- Modelled from the spec: `ShiftPending::clear`, declared in `layers.h`, which
is not among the sources.  The descriptor is "consumed and cleared"; a
descriptor is pending exactly when `shift > 0` (the test `before_forward`
makes), so clearing resets `shift`. -/
def ShiftPending.clear (sp : ShiftPending) : ShiftPending :=
  { sp with shift := 0 }

/-- The members of `KVCacheAttention` that `before_forward`, `save_to_cache`,
`get_k_from_cache` and `get_v_from_cache` use.  The sizes `num_kv_heads`,
`k_hidden_size`, `v_hidden_size` and `cache_length` are set by the constructor
(declared in `layers.h`) and never change; `pos` is the position vector of
`CoreAttention`. -/
structure KVCacheAttention (α : Type) where
  num_kv_heads : Nat
  k_hidden_size : Nat
  v_hidden_size : Nat
  cache_length : Nat
  k_cache : Tensor α
  v_cache : Tensor α
  shift_pending : ShiftPending
  pos : List Int
  deriving DecidableEq, Repr

/-- The method `CoreAttention::before_forward`: `fill_pos_vector(pos, n_past, qlen)`. -/
def CoreAttention.before_forward {α : Type} (a : KVCacheAttention α) (n_past qlen : Int) :
    KVCacheAttention α :=
  { a with pos := fill_pos_vector n_past qlen }

/-- The method `KVCacheAttention::before_forward(ctx, n_past, qlen)`.  The two
`ggml_cpy` nodes are appended to the graph in this order (K, then V) and run in
that order; `shift_pending.clear()` is reached whenever `shift > 0`, whether or
not anything was copied. -/
def KVCacheAttention.before_forward {α : Type} (a : KVCacheAttention α) (n_past qlen : Int) :
    KVCacheAttention α :=
  let a := CoreAttention.before_forward a n_past qlen
  if a.shift_pending.shift > 0 then
    let remain := a.shift_pending.total - a.shift_pending.shift
    let a :=
      if remain > 0 then
        let k_cache_remain := ggml_view_1d a.k_cache (remain.toNat * a.k_hidden_size)
          (a.k_cache.elsize * a.k_hidden_size * a.shift_pending.shift.toNat)
        let k_cache_1d := ggml_view_1d a.k_cache (remain.toNat * a.k_hidden_size) 0
        let v_cache_remain := ggml_view_2d a.v_cache remain.toNat a.v_hidden_size
          (a.cache_length * a.v_cache.elsize) (a.shift_pending.shift.toNat * a.v_cache.elsize)
        let v_cache_2d := ggml_view_2d a.v_cache remain.toNat a.v_hidden_size
          (a.cache_length * a.v_cache.elsize) 0
        { a with
          k_cache := ggml_cpy a.k_cache k_cache_remain k_cache_1d
          v_cache := ggml_cpy a.v_cache v_cache_remain v_cache_2d }
      else a
    { a with shift_pending := a.shift_pending.clear }
  else a

/-- The K-cache entry for position `i`, channel `c`: the rows of K are stored
one after the other, `k_hidden_size` elements each (the layout `save_to_cache`
writes and `get_k_from_cache` reads). -/
def KVCacheAttention.k_at {α : Type} (a : KVCacheAttention α) (i c : Nat) : Option α :=
  a.k_cache.data[i * a.k_hidden_size + c]?

/-- The V-cache entry for channel `c`, position `i`: V is stored transposed,
`v_hidden_size` rows of `cache_length` positions each (the layout
`save_to_cache` writes and `get_v_from_cache` reads). -/
def KVCacheAttention.v_at {α : Type} (a : KVCacheAttention α) (c i : Nat) : Option α :=
  a.v_cache.data[c * a.cache_length + i]?

/-- The caches as the constructor allocates them: `k_hidden_size * cache_length`
and `v_hidden_size * cache_length` elements, of a positive element size. -/
def KVCacheAttention.wf {α : Type} (a : KVCacheAttention α) : Prop :=
  0 < a.k_cache.elsize ∧ 0 < a.v_cache.elsize ∧
  a.k_cache.data.length = a.k_hidden_size * a.cache_length ∧
  a.v_cache.data.length = a.v_hidden_size * a.cache_length

instance {α : Type} (a : KVCacheAttention α) : Decidable a.wf := by
  unfold KVCacheAttention.wf; infer_instance

/-- A small layer for concrete checks: two channels, a cache of four positions,
K row `i` holding `10 * i + c` and V row `c` holding `100 * c + i`. -/
def demoLayer (sp : ShiftPending) : KVCacheAttention Nat :=
  { num_kv_heads := 1, k_hidden_size := 2, v_hidden_size := 2, cache_length := 4
    k_cache := { data := [0, 1, 10, 11, 20, 21, 30, 31], elsize := 2 }
    v_cache := { data := [0, 1, 2, 3, 100, 101, 102, 103], elsize := 2 }
    shift_pending := sp, pos := [] }


/-- A tensor handed to the cache code from outside (the new keys `k`, the new
values `v`), given by its logical content: `data` lists the elements in logical
order, element `(i0, i1)` at `i1 * ne0 + i0`; `contiguous` is the answer of
`ggml_is_contiguous`, that is, whether the memory order is the logical order. -/
structure Input (β : Type) where
  data : List β
  ne0 : Nat
  contiguous : Bool
  deriving DecidableEq, Repr

/-- Element `(i0, i1)` of `ggml_transpose(ctx, x)`: element `(i1, i0)` of `x`. -/
def ggml_transpose {β : Type} (x : Input β) (i0 i1 : Nat) : Option β :=
  x.data[i0 * x.ne0 + i1]?

/-- The elements of an input tensor read as one row in logical order.  This is
what `ggml_view_1d(ctx, k, n, 0)` reads when `k` is contiguous, and it is the
order in which `ggml_cpy` takes the elements of `k` itself. -/
def Input.flat {β : Type} (x : Input β) (i0 _i1 : Nat) : Option β :=
  x.data[i0]?

/-- The call `ggml_reshape_3d(ctx, view, ne0, ne1, ne2)` on a one-row view: the
same cells in the same order, `ne0 * ne1 * ne2` of them.  `ggml_cpy` pairs the
elements of source and destination in logical order, so the row is kept flat. -/
def ggml_reshape_3d (v : View) (ne0 ne1 ne2 : Nat) : View :=
  { v with ne0 := ne0 * ne1 * ne2 }

/-- One element of a copy from another tensor: `buf[dst(i0, i1)] = src(i0, i1)`,
converted to the element type of the destination by `cvt`. -/
def cpy_from_elem {α β : Type} (cvt : β → α) (src : Nat → Nat → Option β) (es : Nat)
    (dst : View) (i1 : Nat) (buf : List α) (i0 : Nat) : List α :=
  match src i0 i1 with
  | some x => buf.set (dst.index es i0 i1) (cvt x)
  | none => buf

/-- One row of a copy from another tensor. -/
def cpy_from_row {α β : Type} (cvt : β → α) (src : Nat → Nat → Option β) (es : Nat)
    (dst : View) (buf : List α) (i1 : Nat) : List α :=
  (List.range dst.ne0).foldl (cpy_from_elem cvt src es dst i1) buf

/-- The node `ggml_cpy(ctx, src, dst)` when `src` is another tensor of the same
shape as the view `dst` of `t`: every element of `src` is converted to the
element type of `t` (`cvt`; the identity when the types agree) and stored. -/
def ggml_cpy_from {α β : Type} (cvt : β → α) (src : Nat → Nat → Option β) (t : Tensor α)
    (dst : View) : Tensor α :=
  { t with data := (List.range dst.ne1).foldl (cpy_from_row cvt src t.elsize dst) t.data }

/-- The method `KVCacheAttention::save_to_cache(ctx, n_past, qlen, k, v)`, for
non-negative `n_past` and `qlen`.  `v` has `qlen` rows of `v_hidden_size`
elements, `k` has `qlen` rows of `k_hidden_size` elements.  The V copy is
appended to the graph first, then the K copy, whose views depend on
`ggml_is_contiguous(k)`. -/
def KVCacheAttention.save_to_cache {α β : Type} (cvt : β → α) (a : KVCacheAttention α)
    (n_past qlen : Nat) (k v : Input β) : KVCacheAttention α :=
  let Vcur := ggml_transpose v
  let v_cache_view := ggml_view_2d a.v_cache qlen a.v_hidden_size
    (a.cache_length * a.v_cache.elsize) (n_past * a.v_cache.elsize)
  let a := { a with v_cache := ggml_cpy_from cvt Vcur a.v_cache v_cache_view }
  if k.contiguous then
    let k_cache_view := ggml_view_1d a.k_cache (qlen * a.k_hidden_size)
      (a.k_cache.elsize * a.k_hidden_size * n_past)
    let k_view := k.flat
    { a with k_cache := ggml_cpy_from cvt k_view a.k_cache k_cache_view }
  else
    let head_size := a.k_hidden_size / a.num_kv_heads
    let k_view := k.flat
    let k_cache_view := ggml_view_1d a.k_cache (qlen * a.k_hidden_size)
      (a.k_cache.elsize * a.k_hidden_size * n_past)
    let k_cache_view := ggml_reshape_3d k_cache_view head_size a.num_kv_heads qlen
    { a with k_cache := ggml_cpy_from cvt k_view a.k_cache k_cache_view }

/-- The shape of the arguments of `save_to_cache`: `k` holds `qlen` rows of
`k_hidden_size` elements, `v` holds `qlen` rows of `v_hidden_size` elements, and
when `k` is not contiguous the reshape of its destination to
`[head_size, num_kv_heads, qlen]` is exact (`ggml_reshape_3d` asserts that the
element counts agree). -/
def KVCacheAttention.fits {α β : Type} (a : KVCacheAttention α) (qlen : Nat) (k v : Input β) :
    Prop :=
  k.data.length = qlen * a.k_hidden_size ∧
  v.ne0 = a.v_hidden_size ∧
  v.data.length = qlen * a.v_hidden_size ∧
  (k.contiguous = false →
    a.k_hidden_size / a.num_kv_heads * a.num_kv_heads = a.k_hidden_size)

instance {α β : Type} (a : KVCacheAttention α) (qlen : Nat) (k v : Input β) :
    Decidable (a.fits qlen k v) := by
  unfold KVCacheAttention.fits; infer_instance

/-- Token-by-token processing: one `save_to_cache` call with `qlen = 1` per
element of `rows` (the key row and the value row of one token), at positions
`n_past`, `n_past + 1`, and so on. -/
def KVCacheAttention.save_each {α β : Type} (cvt : β → α) (a : KVCacheAttention α)
    (n_past : Nat) : List (Input β × Input β) → KVCacheAttention α
  | [] => a
  | r :: rest =>
    KVCacheAttention.save_each cvt (a.save_to_cache cvt n_past 1 r.1 r.2) (n_past + 1) rest

/-- The position vectors of token-by-token processing, one after the other:
`fill_pos_vector(pos, n_past + j, 1)` for the `j`-th of `n` tokens. -/
def fill_pos_vector_each (n_past : Int) (n : Nat) : List Int :=
  ((List.range n).map (fun (j : Nat) => fill_pos_vector (n_past + (j : Int)) 1)).flatten

/-- A three-dimensional read-only view: its shape and the cell of the underlying
buffer behind each element. -/
structure View3 where
  ne0 : Nat
  ne1 : Nat
  ne2 : Nat
  cell : Nat → Nat → Nat → Nat

/-- The method `KVCacheAttention::get_k_from_cache`: the first
`(n_past + qlen) * k_hidden_size` elements of the K cache, reshaped to
`[head_size, num_kv_heads, n_past + qlen]` and permuted `(0, 2, 1, 3)`, so that
element `(d, pos, h)` of the result is element `(d, h, pos)` of the reshaped
row. -/
def KVCacheAttention.get_k_from_cache {α : Type} (a : KVCacheAttention α) (n_past qlen : Nat) :
    View3 :=
  let head_size := a.k_hidden_size / a.num_kv_heads
  { ne0 := head_size, ne1 := n_past + qlen, ne2 := a.num_kv_heads
    cell := fun d pos h => d + h * head_size + pos * (head_size * a.num_kv_heads) }

/-- The method `KVCacheAttention::get_v_from_cache`: the view
`ggml_view_3d(v_cache, n_past + qlen, head_size, num_kv_heads, cache_length * es,
cache_length * es * head_size, 0)`. -/
def KVCacheAttention.get_v_from_cache {α : Type} (a : KVCacheAttention α) (n_past qlen : Nat) :
    View3 :=
  let head_size := a.v_hidden_size / a.num_kv_heads
  { ne0 := n_past + qlen, ne1 := head_size, ne2 := a.num_kv_heads
    cell := fun i d h =>
      (0 + h * (a.cache_length * a.v_cache.elsize * head_size)
        + d * (a.cache_length * a.v_cache.elsize) + i * a.v_cache.elsize) / a.v_cache.elsize }

/-- The effect on the layer of `BaseAttention::forward(ctx, hidden_states, n_past)`
for `qlen` new tokens: `before_forward(ctx, n_past, qlen)`, then, through
`cross_attention` and `cross_attention_after_pe`, `save_to_cache(ctx, n_past,
qlen, key_layer, v)`.  `k` stands for the key rows after the positional
embedding, `v` for the value rows.  No `CHATLLM_CHECK` lies on this path.  The
definition is the code for `n_past + qlen <= cache_length`, where every view lies
inside its cache; beyond that the code hands views that leave the buffer to
ggml, which is not among the sources, and the value given here says nothing
about it. -/
def BaseAttention.forward {α β : Type} (cvt : β → α) (a : KVCacheAttention α)
    (n_past qlen : Nat) (k v : Input β) : Except Fatal (KVCacheAttention α) :=
  let a := a.before_forward n_past qlen
  Except.ok (a.save_to_cache cvt n_past qlen k v)

/-- New keys and values for concrete checks: `qlen` rows of two channels, K row
`t` holding `1000 + 10 * t + c` and V row `t` holding `2000 + 10 * t + c`. -/
def demoKeys (qlen : Nat) (contiguous : Bool) : Input Nat :=
  { data := (List.range (qlen * 2)).map (fun j => 1000 + 10 * (j / 2) + j % 2)
    ne0 := 2, contiguous := contiguous }

/-- See `demoKeys`. -/
def demoValues (qlen : Nat) : Input Nat :=
  { data := (List.range (qlen * 2)).map (fun j => 2000 + 10 * (j / 2) + j % 2)
    ne0 := 2, contiguous := true }

/-- The scalar of a `ggml_scale` call on the attention path: either the member
`attn_scaling_factor`, or `1.f / sqrtf((float)head_size)`. -/
inductive Scale (F : Type) where
  | by_factor (f : F)
  | by_inv_sqrt (head_size : Int)
  deriving DecidableEq, Repr

/-- The tensor a `ggml_scale` call is applied to. -/
inductive ScaledTensor where
  | query_layer
  | attn_scores
  deriving DecidableEq, Repr

/-- One `ggml_scale` call: what is scaled, and by what. -/
structure ScaleOp (F : Type) where
  target : ScaledTensor
  scale : Scale F
  deriving DecidableEq, Repr

/-- The members of `CoreAttention` that decide the scaling of the scores.
`attn_scaling_factor` is a `float`; of its type only the comparison with zero is
used. -/
structure CoreAttention (F : Type) where
  num_attention_heads : Int
  attn_scaling : Bool
  attn_scaling_factor : F
  deriving DecidableEq, Repr

/-- The local `head_size = hidden_size / num_attention_heads` (C++ `int`
division). -/
def CoreAttention.head_size {F : Type} (c : CoreAttention F) (hidden_size : Int) : Int :=
  Int.tdiv hidden_size c.num_attention_heads

/-- The `ggml_scale` calls of `CoreAttention::calc_attn_scores`, in order: with
`attn_scaling` the scores are scaled by `attn_scaling_factor` if that is positive
and by `1 / sqrt(head_size)` otherwise; without it they are not scaled. -/
def CoreAttention.calc_attn_scores {F : Type} [LT F] [Zero F]
    [DecidableRel (fun (x y : F) => x < y)] (c : CoreAttention F) (hidden_size : Int) :
    List (ScaleOp F) :=
  if c.attn_scaling then
    if c.attn_scaling_factor > 0 then
      [{ target := ScaledTensor.attn_scores, scale := Scale.by_factor c.attn_scaling_factor }]
    else
      [{ target := ScaledTensor.attn_scores, scale := Scale.by_inv_sqrt (c.head_size hidden_size) }]
  else []

/-- The `ggml_scale` calls of `CoreAttention::cross_attention_after_pe`, in order:
without `attn_scaling` the query is scaled by `1 / sqrt(head_size)`; then
`calc_attn_scores` is called. -/
def CoreAttention.cross_attention_after_pe {F : Type} [LT F] [Zero F]
    [DecidableRel (fun (x y : F) => x < y)] (c : CoreAttention F) (hidden_size : Int) :
    List (ScaleOp F) :=
  (if !c.attn_scaling then
    [{ target := ScaledTensor.query_layer, scale := Scale.by_inv_sqrt (c.head_size hidden_size) }]
   else []) ++ c.calc_attn_scores hidden_size

/-- The two frequency tables of `Phi3SUSelfAttention`; `get_inv_freq` returns
the `data()` of one of them. -/
inductive InvFreqTable where
  | inv_freq_short
  | inv_freq_long
  deriving DecidableEq, Repr

/-- The members of `Phi3SUSelfAttention` that `get_inv_freq` reads. -/
structure Phi3SUSelfAttention where
  max_length : Int
  original_max_position_embeddings : Int
  deriving DecidableEq, Repr

/-- The method `Phi3SUSelfAttention::get_inv_freq(int pos)`:
`max_length > original_max_position_embeddings ? inv_freq_long.data() :
inv_freq_short.data()`.  The choice by `pos` is commented out in the source
("This does not work."). -/
def Phi3SUSelfAttention.get_inv_freq (s : Phi3SUSelfAttention) (_pos : Int) : InvFreqTable :=
  if s.max_length > s.original_max_position_embeddings then InvFreqTable.inv_freq_long
  else InvFreqTable.inv_freq_short

/-- An entry of `logn_list`: `1.0f`, or `logf(float(i)) / logf((float)seq_length)`. -/
inductive LognScale where
  | one
  | log_ratio (i seq_length : Int)
  deriving DecidableEq, Repr

/-- The members of `QWenSelfAttention` that the log-length scaling uses.
`logn_list` has `max_length` entries. -/
structure QWenSelfAttention where
  max_length : Int
  seq_length : Int
  use_logn_attn : Bool
  logn_list : List LognScale
  deriving DecidableEq, Repr

/-- The method `QWenSelfAttention::config`, as far as the log-length scaling goes:
it stores `seq_length` and `use_logn_attn`, and with `use_logn_attn` fills
`p[i] = i > seq_length ? logf(float(i)) / logf((float)seq_length) : 1.0f` for
`0 <= i < max_length`. -/
def QWenSelfAttention.config (s : QWenSelfAttention) (seq_length : Int) (use_logn_attn : Bool) :
    QWenSelfAttention :=
  { s with
    seq_length := seq_length
    use_logn_attn := use_logn_attn
    logn_list :=
      if use_logn_attn then
        (List.range s.max_length.toNat).map (fun (i : Nat) =>
          if (i : Int) > seq_length then LognScale.log_ratio (i : Int) seq_length
          else LognScale.one)
      else s.logn_list }

/-- The view `ggml_view_1d(ggctx, logn_list, qlen, p0 * ggml_element_size(logn_list))`:
the `qlen` entries from index `p0`, or `none` when the view does not lie inside
the table. -/
def QWenSelfAttention.scale_view (s : QWenSelfAttention) (qlen : Nat) (p0 : Int) :
    Option (List LognScale) :=
  if 0 ≤ p0 ∧ p0.toNat + qlen ≤ s.logn_list.length then
    some ((s.logn_list.drop p0.toNat).take qlen)
  else none

/-- The log-length step of `QWenSelfAttention::apply_pos_embedding_q`, after the
rotary embedding: the factor each of the `qlen` query rows is multiplied by.
`past` is the position vector.  With `use_logn_attn` the code reads
`last_n = p[qlen - 1]`, and if `last_n > seq_length` it scales row `t` by entry
`t` of the view of `logn_list` at `p[0]` (`ggml_compute_forward_mat_scale`);
otherwise no row is scaled, which is the factor `1.0f`.  The result is `none`
when a read falls outside `past` or outside `logn_list`. -/
def QWenSelfAttention.apply_pos_embedding_q (s : QWenSelfAttention) (qlen : Nat)
    (past : List Int) : Option (List LognScale) :=
  if s.use_logn_attn then
    match qlen with
    | 0 => none
    | q + 1 =>
      match past[q]? with
      | none => none
      | some last_n =>
        if last_n > s.seq_length then
          match past[0]? with
          | none => none
          | some p0 => s.scale_view (q + 1) p0
        else some (List.replicate (q + 1) LognScale.one)
  else some (List.replicate qlen LognScale.one)

/-- The enumeration `tokenizer::token_type`. -/
inductive token_type where
  | UNDEFINED
  | NORMAL
  | UNKNOWN
  | CONTROL
  | USER_DEFINED
  | UNUSED
  | BYTE
  deriving DecidableEq, Repr

/-- The record `_vocab::token_score`; the `float` score plays no part in the
functions embedded here and is left out. -/
structure token_score where
  tok : String
  type : token_type
  deriving DecidableEq, Repr

/-- The members of `tokenizer::_vocab` used below: `id_to_token` and the merge
ranks `bpe_ranks`, a map from pairs of strings to ranks, kept as the list of its
entries in key order. -/
structure _vocab where
  id_to_token : List token_score
  bpe_ranks : List ((String × String) × Int)
  deriving DecidableEq, Repr

/-- The conversion `(int)n` of a `size_t` to a 32-bit `int`: the value modulo
`2^32`, read as a signed number. -/
def to_int (n : Nat) : Int :=
  Int.bmod (n : Int) (2 ^ 32)

/-- The method `_vocab::is_token_of_type(id, t)`.  The result is `none` if the
access `id_to_token[id]` falls outside the vector. -/
def _vocab.is_token_of_type (v : _vocab) (id : Int) (t : token_type) : Option Bool :=
  if (id < 0) ∨ (id ≥ to_int v.id_to_token.length) then some false
  else (v.id_to_token[id.toNat]?).map (fun e => decide (t = e.type))

/-- The method `_vocab::is_normal_token`. -/
def _vocab.is_normal_token (v : _vocab) (id : Int) : Option Bool :=
  v.is_token_of_type id token_type.NORMAL

/-- The method `_vocab::is_control_token`. -/
def _vocab.is_control_token (v : _vocab) (id : Int) : Option Bool :=
  v.is_token_of_type id token_type.CONTROL

/-- The constant `mistral::SLIDING_WINDOW_LEN`. -/
def mistral.SLIDING_WINDOW_LEN : Int := 4096

/-- The field of `mistral::Config` that the constructor checks. -/
structure mistral.Config where
  sliding_window : Int
  deriving DecidableEq, Repr

/-- The constructor `GGMLContext(ggml_init_params params)`:
`gctx_(ggml_init(params))`, then `CHATLLM_CHECK(gctx_)`.  The parameter `gctx_`
says whether `ggml_init`, a function of the ggml library, returned a context
(`true`) or a null pointer (`false`). -/
def GGMLContext.construct (gctx_ : Bool) : Except Fatal Unit :=
  if gctx_ then Except.ok () else Except.error Fatal.failed_to_init_ggml_context

/-- The constructor `llama::v2::GenericConditionalGeneration(config, type,
num_key_value_heads, max_length, tensors_per_layer)`: the base class
`BaseModelForConditionalGeneration` is constructed first; then the body builds
the weight context, `w_ctx_.gctx = GGMLContext(...)`, and after it the
`Model` that holds the layers; the remaining statements are assignments.  The
constructors of `BaseModelForConditionalGeneration` and of `Model` are declared
outside the sources: `base` and `transformer` say whether each of them returns
(`true`) or throws. -/
def llama.v2.GenericConditionalGeneration.construct (base gctx_ transformer : Bool) :
    Except Fatal Unit :=
  if base then
    match GGMLContext.construct gctx_ with
    | Except.error e => Except.error e
    | Except.ok _ =>
      if transformer then Except.ok () else Except.error Fatal.base_construction_failed
  else Except.error Fatal.base_construction_failed

/-- The constructor `mistral::ConditionalGeneration(config, type)`: the base class
`llama::v2::GenericConditionalGeneration` is constructed first, with what
`base`, `gctx_` and `transformer` say of its parts; then the body runs
`CHATLLM_CHECK((config.sliding_window <= 0) || (config.sliding_window ==
SLIDING_WINDOW_LEN))`, and the assignments that follow the check cannot fail. -/
def mistral.ConditionalGeneration.construct (config : mistral.Config)
    (base gctx_ transformer : Bool) : Except Fatal Unit :=
  match llama.v2.GenericConditionalGeneration.construct base gctx_ transformer with
  | Except.error e => Except.error e
  | Except.ok _ =>
    if (config.sliding_window ≤ 0) ∨ (config.sliding_window = mistral.SLIDING_WINDOW_LEN) then
      Except.ok ()
    else Except.error Fatal.sliding_window_unsupported

/-- One step of a scan over UTF-8 bytes.  The state is the number of
continuation bytes still owed to the character being read, or `none` once the
bytes have gone wrong. -/
def utf8_step (pending : Option Nat) (b : Nat) : Option Nat :=
  match pending with
  | none => none
  | some 0 =>
    if b < 0x80 then some 0
    else if 0xC0 ≤ b ∧ b < 0xE0 then some 1
    else if 0xE0 ≤ b ∧ b < 0xF0 then some 2
    else if 0xF0 ≤ b ∧ b < 0xF8 then some 3
    else none
  | some (n + 1) => if 0x80 ≤ b ∧ b < 0xC0 then some n else none

/-- The scan of a byte string from a character boundary. -/
def utf8_scan (bytes : List Nat) : Option Nat :=
  bytes.foldl utf8_step (some 0)

/-- Modelled from the spec: the test "the tail ends on a complete UTF-8 scalar
boundary" of the streaming assembler, for which the code has
`get_end_of_valid_utf8` (declared in `tokenizer.h`, its body is not among the
sources).  A byte string ends on such a boundary when it is a run of complete
characters: every lead byte is followed by the continuation bytes it announces. -/
def utf8_complete (bytes : List Nat) : Bool :=
  decide (utf8_scan bytes = some 0)

/-- Modelled from the spec: decoding an id sequence concatenates the byte strings
of its tokens; `piece` gives the bytes of one token (the tokenizer is not among
the sources). -/
def decode (piece : Int → List Nat) (ids : List Int) : List Nat :=
  (ids.map piece).flatten

/-- The state of `TextStreamer` (declared in `chat.h`): the id cache and the number
of bytes already flushed.  The spec calls them the full id cache and
`flushed_len`; the member `is_prompt_` is not described by the spec and is left
out. -/
structure TextStreamer where
  token_cache_ : List Int
  print_len_ : Nat
  deriving DecidableEq, Repr

/-- The streamer as its constructor leaves it: empty cache, `print_len_(0)`. -/
def TextStreamer.init : TextStreamer :=
  { token_cache_ := [], print_len_ := 0 }

/-- Modelled from the spec: `TextStreamer::put`, whose body (in `chat.cpp`) is not
among the sources.  "On each new id: decode the entire cached sequence; if the
tail starting at `flushed_len` ends on a complete UTF-8 scalar boundary, flush
the new suffix and advance `flushed_len`; otherwise hold back."  The result is
the new state and the bytes flushed by this call. -/
def TextStreamer.put (piece : Int → List Nat) (st : TextStreamer) (output_ids : List Int) :
    TextStreamer × List Nat :=
  let cache := st.token_cache_ ++ output_ids
  let text := decode piece cache
  if utf8_complete (text.drop st.print_len_) then
    ({ token_cache_ := cache, print_len_ := text.length }, text.drop st.print_len_)
  else
    ({ token_cache_ := cache, print_len_ := st.print_len_ }, [])

/-- Modelled from the spec: `TextStreamer::end`, whose body is not among the
sources.  "On stream end: flush all remaining bytes unconditionally."  The result
is the bytes flushed. -/
def TextStreamer.end_ (piece : Int → List Nat) (st : TextStreamer) : List Nat :=
  (decode piece st.token_cache_).drop st.print_len_

/-- A stream of ids fed through `put`, one id per call: the final state and all
bytes flushed by the calls. -/
def TextStreamer.feed (piece : Int → List Nat) : TextStreamer → List Int → TextStreamer × List Nat
  | st, [] => (st, [])
  | st, id :: rest =>
    ((TextStreamer.feed piece (st.put piece [id]).1 rest).1,
      (st.put piece [id]).2 ++ (TextStreamer.feed piece (st.put piece [id]).1 rest).2)

/-- Token bytes for concrete checks: ids 1 and 2 are the two bytes of one
two-byte character (`0xC3 0xA9`), every other id is the letter `a`. -/
def demoPiece (id : Int) : List Nat :=
  if id = 1 then [0xC3] else if id = 2 then [0xA9] else [0x61]

/-- The method `_vocab::find_bpe_rank(token_left, token_right)`: the rank stored
under the key `(token_left, token_right)`, or `-1` when `bpe_ranks.find` returns
`end()`.  The method is `const`: it returns a rank and leaves the map alone. -/
def _vocab.find_bpe_rank (v : _vocab) (token_left token_right : String) : Int :=
  match v.bpe_ranks.lookup (token_left, token_right) with
  | none => -1
  | some rank => rank

/-- The method `BaseTokenizer::get_terminate_token_id`: `return -1000;`. -/
def BaseTokenizer.get_terminate_token_id : Int := -1000

/-- The value the constructor `BaseModel::BaseModel` gives the member
`terminate_token_id`: `terminate_token_id(-1000)`. -/
def BaseModel.terminate_token_id : Int := -1000

/-- The members of `llama::v2::Tokenizer` (inherited from `BaseTokenizer`) that
the encoders read. -/
structure llama.v2.Tokenizer where
  sys_prompt : String
  bos_token_id : Int
  eos_token_id : Int
  pad_token_id : Int
  deriving DecidableEq, Repr

/-- The method `llama::v2::Tokenizer::encode(text, ids, add_bos, add_eos)`.
`base` stands for `BaseTokenizer::encode(text, ids)`, whose body is not among the
sources: it takes the vector `ids` and returns it as the call leaves it. -/
def llama.v2.Tokenizer.encode (base : String → List Int → List Int) (tok : llama.v2.Tokenizer)
    (text : String) (ids : List Int) (add_bos add_eos : Bool) : List Int :=
  let ids := if add_bos then ids ++ [tok.bos_token_id] else ids
  let ids := base text ids
  if add_eos then ids ++ [tok.eos_token_id] else ids

/-- The override `llama::v2::Tokenizer::encode(text, ids)`:
`encode(text, ids, false, false)`. -/
def llama.v2.Tokenizer.encode_2 (base : String → List Int → List Int) (tok : llama.v2.Tokenizer)
    (text : String) (ids : List Int) : List Int :=
  tok.encode base text ids false false

/-- The class `_7b::Tokenizer` of `baichuan.cpp`: a llama tokenizer with the two
role tokens. -/
structure _7b.Tokenizer extends llama.v2.Tokenizer where
  user_token_id : Int
  assistant_token_id : Int
  deriving DecidableEq, Repr

/-- The method `_7b::ChatHistoryEncoder::append_user`.  `get_system_prompt()`
returns `sys_prompt`. -/
def _7b.ChatHistoryEncoder.append_user (base : String → List Int → List Int)
    (tok : _7b.Tokenizer) (round_idx : Int) (user : String) (ids : List Int) : List Int :=
  let ids :=
    if (round_idx = 0) ∧ (tok.sys_prompt.length > 0) then
      tok.toTokenizer.encode base tok.sys_prompt ids false false
    else ids
  let ids := ids ++ [tok.user_token_id]
  let ids := tok.toTokenizer.encode base user ids false false
  ids ++ [tok.assistant_token_id]

/-- The method `_7b::ChatHistoryEncoder::append_pair`.  Its last statement is
`tok->encode(user, ids, false, false);`: the text encoded after the assistant
token is `user`, and the parameter `ai` is not used. -/
def _7b.ChatHistoryEncoder.append_pair (base : String → List Int → List Int)
    (tok : _7b.Tokenizer) (round_idx : Int) (user _ai : String) (ids : List Int) : List Int :=
  let ids :=
    if (round_idx = 0) ∧ (tok.sys_prompt.length > 0) then
      tok.toTokenizer.encode base tok.sys_prompt ids false false
    else ids
  let ids := ids ++ [tok.user_token_id]
  let ids := tok.toTokenizer.encode base user ids false false
  let ids := ids ++ [tok.assistant_token_id]
  tok.toTokenizer.encode base user ids false false

/-- The members of `llama::v3::Tokenizer` that the encoder reads. -/
structure llama.v3.Tokenizer where
  sys_prompt : String
  bos_token_id : Int
  start_header_id : Int
  end_header_id : Int
  eot_id : Int
  nl_token_id : Int
  deriving DecidableEq, Repr

/-- The method `llama::v3::Tokenizer::is_special_id`. -/
def llama.v3.Tokenizer.is_special_id (tok : llama.v3.Tokenizer) (id : Int) : Bool :=
  (id == tok.start_header_id) || (id == tok.end_header_id) || (id == tok.eot_id)

/-- The method `llama::v3::Tokenizer::encode_header`.  `base` stands for the
inherited `encode(text, ids)` of `BaseTokenizer`. -/
def llama.v3.Tokenizer.encode_header (base : String → List Int → List Int)
    (tok : llama.v3.Tokenizer) (text : String) (ids : List Int) : List Int :=
  let ids := ids ++ [tok.start_header_id]
  let ids := base text ids
  let ids := ids ++ [tok.end_header_id]
  let ids := ids ++ [tok.nl_token_id]
  ids ++ [tok.nl_token_id]

/-- The method `llama::v3::Tokenizer::encode_content`. -/
def llama.v3.Tokenizer.encode_content (base : String → List Int → List Int)
    (tok : llama.v3.Tokenizer) (text : String) (ids : List Int) : List Int :=
  let ids := base text ids
  ids ++ [tok.eot_id]

/-- The method `llama::v3::Tokenizer::get_terminate_token_id`: `return eot_id;`. -/
def llama.v3.Tokenizer.get_terminate_token_id (tok : llama.v3.Tokenizer) : Int :=
  tok.eot_id

/-- The method `llama::v3::ChatHistoryEncoder::append_user`. -/
def llama.v3.ChatHistoryEncoder.append_user (base : String → List Int → List Int)
    (tok : llama.v3.Tokenizer) (round_idx : Int) (user : String) (ids : List Int) : List Int :=
  let ids :=
    if round_idx = 0 then
      let ids := ids ++ [tok.bos_token_id]
      if tok.sys_prompt.length > 0 then
        let ids := tok.encode_header base "system" ids
        tok.encode_content base tok.sys_prompt ids
      else ids
    else ids
  let ids := tok.encode_header base "user" ids
  let ids := tok.encode_content base user ids
  tok.encode_header base "assistant" ids

/-- The method `llama::v3::ChatHistoryEncoder::append_pair`. -/
def llama.v3.ChatHistoryEncoder.append_pair (base : String → List Int → List Int)
    (tok : llama.v3.Tokenizer) (round_idx : Int) (user ai : String) (ids : List Int) : List Int :=
  let ids := llama.v3.ChatHistoryEncoder.append_user base tok round_idx user ids
  let ids := base ai ids
  ids ++ [tok.eot_id]

/-- A base encoder for concrete checks: one id per character, its code point,
appended to `ids`. -/
def demoEncode (text : String) (ids : List Int) : List Int :=
  ids ++ text.toList.map (fun (c : Char) => (c.toNat : Int))

/-- The call `std::sort(first, last, comp)`, for a comparator `comp` that is a
strict weak ordering, which the standard requires (the call is undefined
otherwise).  The standard fixes the result up to the order of equivalent
elements: a rearrangement of the range in which no element is followed by one
that `comp` puts before it.  The embedding takes one such algorithm, insertion
sort by "not `comp b a`", which leaves equivalent elements in their order; the
library may order them differently, and the theorems below hold of every
rearrangement the standard allows. -/
def std_sort {α : Type} (comp : α → α → Bool) (l : List α) : List α :=
  l.insertionSort (fun a b => comp b a = false)

/-- The function `ordering(lst, order, descending)` of `basics.h`: `order` is
resized to `lst.size()`, filled with `order[i] = i`, and sorted by
`descending ? lst[a] > lst[b] : lst[a] < lst[b]`.  The indices are kept with
their bound while they are sorted; the result is `order`. -/
def ordering {T : Type} [LT T] [DecidableRel (fun (x y : T) => x < y)] (lst : List T)
    (descending : Bool) : List Nat :=
  (std_sort
    (fun (a b : Fin lst.length) =>
      if descending then decide (lst.get a > lst.get b) else decide (lst.get a < lst.get b))
    (List.finRange lst.length)).map Fin.val

/-- The call `ggml_view_3d(ctx, t, ne0, ne1, ne2, nb1, nb2, offset)`: element
`(i0, i1, i2)` lies at byte `offset + i2 * nb2 + i1 * nb1 + i0 * es` of `t`. -/
def ggml_view_3d {α : Type} (t : Tensor α) (ne0 ne1 ne2 nb1 nb2 offset : Nat) : View3 :=
  { ne0 := ne0, ne1 := ne1, ne2 := ne2
    cell := fun i0 i1 i2 => (offset + i2 * nb2 + i1 * nb1 + i0 * t.elsize) / t.elsize }

/-- One element of a copy between two three-dimensional views of one buffer. -/
def cpy3_elem {α : Type} (src dst : View3) (i2 i1 : Nat) (buf : List α) (i0 : Nat) : List α :=
  match buf[src.cell i0 i1 i2]? with
  | some x => buf.set (dst.cell i0 i1 i2) x
  | none => buf

/-- One row of such a copy. -/
def cpy3_row {α : Type} (src dst : View3) (i2 : Nat) (buf : List α) (i1 : Nat) : List α :=
  (List.range src.ne0).foldl (cpy3_elem src dst i2 i1) buf

/-- One plane of such a copy. -/
def cpy3_plane {α : Type} (src dst : View3) (buf : List α) (i2 : Nat) : List α :=
  (List.range src.ne1).foldl (cpy3_row src dst i2) buf

/-- The node `ggml_cpy(ctx, src, dst)` for two three-dimensional views of equal
shape into the same tensor: planes, rows and elements in ascending order, each
element read from the buffer as earlier element copies left it. -/
def ggml_cpy_3d {α : Type} (t : Tensor α) (src dst : View3) : Tensor α :=
  { t with data := (List.range src.ne2).foldl (cpy3_plane src dst) t.data }

/-- One element of a copy from another tensor into a three-dimensional view. -/
def cpy3_from_elem {α β : Type} (cvt : β → α) (src : Nat → Nat → Nat → Option β) (dst : View3)
    (i2 i1 : Nat) (buf : List α) (i0 : Nat) : List α :=
  match src i0 i1 i2 with
  | some x => buf.set (dst.cell i0 i1 i2) (cvt x)
  | none => buf

/-- The node `ggml_cpy(ctx, src, dst)` when `src` is another tensor of the shape of
the three-dimensional view `dst`; `src` gives its elements by their logical
index. -/
def ggml_cpy_3d_from {α β : Type} (cvt : β → α) (src : Nat → Nat → Nat → Option β)
    (t : Tensor α) (dst : View3) : Tensor α :=
  { t with
    data := (List.range dst.ne2).foldl (fun buf i2 =>
      (List.range dst.ne1).foldl (fun buf1 i1 =>
        (List.range dst.ne0).foldl (cpy3_from_elem cvt src dst i2 i1) buf1) buf) t.data }

/-- The members of `GLMSelfAttention` that its `forward` uses for the caches.
`k_nb1`, `k_nb2`, `v_nb1`, `v_nb2` are the strides `k_cache->nb[1]`,
`k_cache->nb[2]`, `v_cache->nb[1]`, `v_cache->nb[2]` in bytes, fixed when the
constructor (declared in `layers.h`) allocates the caches. -/
structure GLMSelfAttention (α : Type) where
  num_attention_heads : Nat
  k_cache : Tensor α
  k_nb1 : Nat
  k_nb2 : Nat
  v_cache : Tensor α
  v_nb1 : Nat
  v_nb2 : Nat
  shift_pending : ShiftPending
  pos : List Int
  deriving DecidableEq, Repr

/-- The shift block of `GLMSelfAttention::forward` (the `if (shift_pending.shift >
0)` statement), for the local `head_size`. -/
def GLMSelfAttention.forward_shift {α : Type} (a : GLMSelfAttention α) (head_size : Nat) :
    GLMSelfAttention α :=
  if a.shift_pending.shift > 0 then
    let remain := a.shift_pending.total - a.shift_pending.shift
    let a :=
      if remain > 0 then
        let k_cache_remain := ggml_view_3d a.k_cache head_size remain.toNat a.num_attention_heads
          a.k_nb1 a.k_nb2 (a.shift_pending.shift.toNat * head_size * a.k_cache.elsize)
        let k_cache_dst := ggml_view_3d a.k_cache head_size remain.toNat a.num_attention_heads
          a.k_nb1 a.k_nb2 0
        let v_cache_remain := ggml_view_3d a.v_cache remain.toNat head_size a.num_attention_heads
          a.v_nb1 a.v_nb2 (a.shift_pending.shift.toNat * a.v_cache.elsize)
        let v_cache_dst := ggml_view_3d a.v_cache remain.toNat head_size a.num_attention_heads
          a.v_nb1 a.v_nb2 0
        { a with
          k_cache := ggml_cpy_3d a.k_cache k_cache_remain k_cache_dst
          v_cache := ggml_cpy_3d a.v_cache v_cache_remain v_cache_dst }
      else a
    { a with shift_pending := a.shift_pending.clear }
  else a

/-- The statements of `GLMSelfAttention::forward` under "store key & value to
cache": `key_layer` (`[heads, qlen, head_size]`) is copied to the view of
`k_cache` at `n_past * head_size` elements, `value_layer` (`[heads, head_size,
qlen]`) to the view of `v_cache` at `n_past` elements. -/
def GLMSelfAttention.forward_store {α β : Type} (cvt : β → α) (a : GLMSelfAttention α)
    (head_size n_past qlen : Nat) (key_layer value_layer : Nat → Nat → Nat → Option β) :
    GLMSelfAttention α :=
  let k_cache_view := ggml_view_3d a.k_cache head_size qlen a.num_attention_heads
    a.k_nb1 a.k_nb2 (n_past * head_size * a.k_cache.elsize)
  let a := { a with k_cache := ggml_cpy_3d_from cvt key_layer a.k_cache k_cache_view }
  let v_cache_view := ggml_view_3d a.v_cache qlen head_size a.num_attention_heads
    a.v_nb1 a.v_nb2 (n_past * a.v_cache.elsize)
  { a with v_cache := ggml_cpy_3d_from cvt value_layer a.v_cache v_cache_view }

/-- The effect on the layer of `GLMSelfAttention::forward(ctx, hidden_states,
n_past)` for a hidden state of `hidden_size` channels and `qlen` tokens:
`fill_pos_vector`, the shift block, then the store of the new keys and values.
`key_layer` and `value_layer` stand for the permuted views of the projection
`qkv`. -/
def GLMSelfAttention.forward {α β : Type} (cvt : β → α) (a : GLMSelfAttention α)
    (hidden_size n_past qlen : Nat) (key_layer value_layer : Nat → Nat → Nat → Option β) :
    GLMSelfAttention α :=
  let head_size := hidden_size / a.num_attention_heads
  let a := { a with pos := fill_pos_vector (n_past : Int) (qlen : Int) }
  let a := a.forward_shift head_size
  a.forward_store cvt head_size n_past qlen key_layer value_layer

/-- The K entry of head `h`, position `i`, channel `d`, through the strides of
`k_cache`. -/
def GLMSelfAttention.k_entry {α : Type} (a : GLMSelfAttention α) (h i d : Nat) : Option α :=
  a.k_cache.data[(h * a.k_nb2 + i * a.k_nb1 + d * a.k_cache.elsize) / a.k_cache.elsize]?

/-- The V entry of head `h`, channel `d`, position `i`, through the strides of
`v_cache`. -/
def GLMSelfAttention.v_entry {α : Type} (a : GLMSelfAttention α) (h d i : Nat) : Option α :=
  a.v_cache.data[(h * a.v_nb2 + d * a.v_nb1 + i * a.v_cache.elsize) / a.v_cache.elsize]?

/-- The caches of `GLMSelfAttention` in the per-head layout: K is
`[heads][n_ctx][head_size]`, V is `[heads][head_size][n_ctx]`, both contiguous,
of a positive element size. -/
def GLMSelfAttention.wf {α : Type} (a : GLMSelfAttention α) (head_size n_ctx : Nat) : Prop :=
  0 < a.k_cache.elsize ∧ 0 < a.v_cache.elsize ∧
  a.k_nb1 = head_size * a.k_cache.elsize ∧
  a.k_nb2 = n_ctx * head_size * a.k_cache.elsize ∧
  a.v_nb1 = n_ctx * a.v_cache.elsize ∧
  a.v_nb2 = head_size * n_ctx * a.v_cache.elsize ∧
  a.k_cache.data.length = a.num_attention_heads * (n_ctx * head_size) ∧
  a.v_cache.data.length = a.num_attention_heads * head_size * n_ctx

instance {α : Type} (a : GLMSelfAttention α) (head_size n_ctx : Nat) :
    Decidable (a.wf head_size n_ctx) := by
  unfold GLMSelfAttention.wf; infer_instance

/-- A small GLM layer for concrete checks: two heads, `head_size = 2`, three
positions per head; the entry of head `h`, position `i`, channel `d` is
`100 * h + 10 * i + d` in both caches. -/
def demoGLM (sp : ShiftPending) : GLMSelfAttention Nat :=
  { num_attention_heads := 2
    k_cache := { data := [0, 1, 10, 11, 20, 21, 100, 101, 110, 111, 120, 121], elsize := 2 }
    k_nb1 := 4, k_nb2 := 12
    v_cache := { data := [0, 10, 20, 1, 11, 21, 100, 110, 120, 101, 111, 121], elsize := 2 }
    v_nb1 := 6, v_nb2 := 12
    shift_pending := sp, pos := [] }

/-- The mask block of `GLMSelfAttention::forward` (the `if (n_past == 0)`
statement), for `qlen >= 1`: the tensor `inf`, every element `-INFINITY`
(`neg_inf`), is copied to the view of `attn_scores` of shape `[1, qlen - 1,
heads]` with strides `qlen` and `qlen * qlen` elements that starts at element
`qlen - 1`. -/
def GLMSelfAttention.mask_scores {α : Type} (neg_inf : α) (num_attention_heads : Nat)
    (n_past : Int) (qlen : Nat) (attn_scores : Tensor α) : Tensor α :=
  if n_past = 0 then
    let masked_attn_scores := ggml_view_3d attn_scores 1 (qlen - 1) num_attention_heads
      (qlen * attn_scores.elsize) (qlen * qlen * attn_scores.elsize)
      ((qlen - 1) * attn_scores.elsize)
    ggml_cpy_3d_from (fun (x : α) => x) (fun _ _ _ => some neg_inf) attn_scores
      masked_attn_scores
  else attn_scores

/-! ## Lemmas on the element-wise copy -/

theorem View.index_1d {α : Type} (t : Tensor α) (ne0 b i0 : Nat) (hes : 0 < t.elsize) :
    (ggml_view_1d t ne0 (t.elsize * b)).index t.elsize i0 0 = b + i0 := by
  simp only [View.index, ggml_view_1d, Nat.zero_mul, Nat.add_zero]
  rw [Nat.mul_comm i0, ← Nat.mul_add]
  exact Nat.mul_div_cancel_left _ hes

theorem View.index_2d {α : Type} (t : Tensor α) (ne0 ne1 len b i0 i1 : Nat) (hes : 0 < t.elsize) :
    (ggml_view_2d t ne0 ne1 (len * t.elsize) (b * t.elsize)).index t.elsize i0 i1
      = i1 * len + b + i0 := by
  simp only [View.index, ggml_view_2d]
  have h : b * t.elsize + i1 * (len * t.elsize) + i0 * t.elsize
      = t.elsize * (i1 * len + b + i0) := by ring
  rw [h]
  exact Nat.mul_div_cancel_left _ hes

/-- A row copied in ascending order from `s ..` down to `d ..` with `d ≤ s`
behaves like a move: the first `n` cells from `d` receive the old cells from `s`,
every other cell keeps its value. -/
theorem cpy_fold_spec {α : Type} (es : Nat) (src dst : View) (i1 s d : Nat)
    (hs : ∀ i0, src.index es i0 i1 = s + i0) (hd : ∀ i0, dst.index es i0 i1 = d + i0)
    (hds : d ≤ s) (buf : List α) :
    ∀ n, s + n ≤ buf.length →
      ((List.range n).foldl (cpy_elem es src dst i1) buf).length = buf.length ∧
      ∀ k, ((List.range n).foldl (cpy_elem es src dst i1) buf)[k]?
        = if d ≤ k ∧ k < d + n then buf[s + (k - d)]? else buf[k]? := by
  intro n
  induction n with
  | zero =>
    intro _
    refine ⟨rfl, fun k => ?_⟩
    have : ¬ (d ≤ k ∧ k < d + 0) := by omega
    rw [if_neg this, List.range_zero, List.foldl_nil]
  | succ n ih =>
    intro hlen
    obtain ⟨hl, hk⟩ := ih (by omega)
    rw [List.range_succ, List.foldl_append, List.foldl_cons, List.foldl_nil]
    generalize (List.range n).foldl (cpy_elem es src dst i1) buf = r at hl hk
    have hread : r[s + n]? = buf[s + n]? := by
      rw [hk (s + n)]
      have : ¬ (d ≤ s + n ∧ s + n < d + n) := by omega
      rw [if_neg this]
    have hlt : s + n < buf.length := by omega
    have hsome : r[s + n]? = some (buf[s + n]) := by
      rw [hread]; exact List.getElem?_eq_getElem hlt
    unfold cpy_elem
    rw [hs n, hd n, hsome]
    refine ⟨by simp [hl], fun k => ?_⟩
    rw [List.getElem?_set]
    by_cases hkn : d + n = k
    · subst hkn
      have h1 : d + n < r.length := by omega
      have h2 : d ≤ d + n ∧ d + n < d + (n + 1) := by omega
      have h3 : s + (d + n - d) = s + n := by omega
      rw [if_pos rfl, if_pos h1, if_pos h2, h3, List.getElem?_eq_getElem hlt]
    · rw [if_neg hkn, hk k]
      by_cases hin : d ≤ k ∧ k < d + n
      · have : d ≤ k ∧ k < d + (n + 1) := by omega
        rw [if_pos hin, if_pos this]
      · have : ¬ (d ≤ k ∧ k < d + (n + 1)) := by omega
        rw [if_neg hin, if_neg this]

/-- A copy between two one-row views that start at element `b` and at the origin:
the first `n` cells receive the old cells `b .. b + n`, the rest is unchanged. -/
theorem ggml_cpy_1d_spec {α : Type} (t : Tensor α) (n b : Nat) (hes : 0 < t.elsize)
    (hb : b + n ≤ t.data.length) :
    (ggml_cpy t (ggml_view_1d t n (t.elsize * b)) (ggml_view_1d t n 0)).data.length
        = t.data.length ∧
    ∀ k, (ggml_cpy t (ggml_view_1d t n (t.elsize * b)) (ggml_view_1d t n 0)).data[k]?
        = if k < n then t.data[b + k]? else t.data[k]? := by
  have hs : ∀ i0, (ggml_view_1d t n (t.elsize * b)).index t.elsize i0 0 = b + i0 :=
    fun i0 => View.index_1d t n b i0 hes
  have hd : ∀ i0, (ggml_view_1d t n 0).index t.elsize i0 0 = 0 + i0 := by
    intro i0
    have h := View.index_1d t n 0 i0 hes
    rwa [Nat.mul_zero] at h
  obtain ⟨h1, h2⟩ := cpy_fold_spec t.elsize _ _ 0 b 0 hs hd (Nat.zero_le b) t.data n hb
  have hfold : (ggml_cpy t (ggml_view_1d t n (t.elsize * b)) (ggml_view_1d t n 0)).data
      = (List.range n).foldl
          (cpy_elem t.elsize (ggml_view_1d t n (t.elsize * b)) (ggml_view_1d t n 0) 0) t.data := by
    unfold ggml_cpy
    have h1 : (ggml_view_1d t n (t.elsize * b)).ne1 = 1 := rfl
    rw [h1, List.range_succ, List.range_zero, List.nil_append, List.foldl_cons, List.foldl_nil]
    rfl
  rw [hfold]
  refine ⟨h1, fun k => ?_⟩
  rw [h2 k]
  by_cases hk : k < n
  · have : 0 ≤ k ∧ k < 0 + n := by omega
    rw [if_pos this, if_pos hk, Nat.sub_zero]
  · have : ¬ (0 ≤ k ∧ k < 0 + n) := by omega
    rw [if_neg this, if_neg hk]

/-- A copy between two views of `rows` rows of stride `len`, from column `b` to
column `0`, `n` columns wide with `b + n ≤ len`: in every row the first `n` cells
receive the old cells `b .. b + n` of that row, and every cell outside those
destinations is unchanged. -/
theorem ggml_cpy_2d_spec {α : Type} (t : Tensor α) (n rows len b : Nat) (hes : 0 < t.elsize)
    (hbn : b + n ≤ len) (hlen : rows * len ≤ t.data.length) :
    (ggml_cpy t (ggml_view_2d t n rows (len * t.elsize) (b * t.elsize))
        (ggml_view_2d t n rows (len * t.elsize) 0)).data.length = t.data.length ∧
    (∀ c i, c < rows → i < n →
      (ggml_cpy t (ggml_view_2d t n rows (len * t.elsize) (b * t.elsize))
        (ggml_view_2d t n rows (len * t.elsize) 0)).data[c * len + i]?
        = t.data[c * len + b + i]?) ∧
    (∀ k, (∀ c, c < rows → k < c * len ∨ c * len + n ≤ k) →
      (ggml_cpy t (ggml_view_2d t n rows (len * t.elsize) (b * t.elsize))
        (ggml_view_2d t n rows (len * t.elsize) 0)).data[k]? = t.data[k]?) := by
  generalize hsrc : ggml_view_2d t n rows (len * t.elsize) (b * t.elsize) = src
  generalize hdst : ggml_view_2d t n rows (len * t.elsize) 0 = dst
  have hs : ∀ i1 i0, src.index t.elsize i0 i1 = (i1 * len + b) + i0 := by
    intro i1 i0; rw [← hsrc]; exact View.index_2d t n rows len b i0 i1 hes
  have hd : ∀ i1 i0, dst.index t.elsize i0 i1 = i1 * len + i0 := by
    intro i1 i0
    have h := View.index_2d t n rows len 0 i0 i1 hes
    rw [Nat.zero_mul, hdst] at h
    rw [h]; omega
  have hne0 : src.ne0 = n := by rw [← hsrc]; rfl
  have hne1 : src.ne1 = rows := by rw [← hsrc]; rfl
  have key : ∀ m, m ≤ rows →
      ((List.range m).foldl (cpy_row t.elsize src dst) t.data).length = t.data.length ∧
      (∀ c i, c < m → i < n →
        ((List.range m).foldl (cpy_row t.elsize src dst) t.data)[c * len + i]?
          = t.data[c * len + b + i]?) ∧
      (∀ k, (∀ c, c < m → k < c * len ∨ c * len + n ≤ k) →
        ((List.range m).foldl (cpy_row t.elsize src dst) t.data)[k]? = t.data[k]?) := by
    intro m
    induction m with
    | zero =>
      intro _
      refine ⟨rfl, fun c i hc _ => absurd hc (Nat.not_lt_zero c), fun k _ => rfl⟩
    | succ m ih =>
      intro hm
      obtain ⟨hl, hrow, hframe⟩ := ih (by omega)
      rw [List.range_succ, List.foldl_append, List.foldl_cons, List.foldl_nil]
      generalize (List.range m).foldl (cpy_row t.elsize src dst) t.data = r at hl hrow hframe
      have hmul : (m + 1) * len ≤ rows * len := Nat.mul_le_mul_right len hm
      have hsucc : (m + 1) * len = m * len + len := Nat.succ_mul m len
      have hbound : (m * len + b) + n ≤ r.length := by omega
      obtain ⟨g1, g2⟩ := cpy_fold_spec t.elsize src dst m (m * len + b) (m * len)
        (hs m) (hd m) (Nat.le_add_right _ _) r n hbound
      have hrowdef : cpy_row t.elsize src dst r m
          = (List.range n).foldl (cpy_elem t.elsize src dst m) r := by
        unfold cpy_row; rw [hne0]
      rw [hrowdef]
      refine ⟨by rw [g1, hl], ?_, ?_⟩
      · intro c i hc hi
        rw [g2]
        by_cases hcm : c = m
        · subst hcm
          have hin : c * len ≤ c * len + i ∧ c * len + i < c * len + n := by omega
          rw [if_pos hin]
          have hidx : c * len + b + (c * len + i - c * len) = c * len + b + i := by omega
          rw [hidx]
          apply hframe
          intro c2 hc2
          have h1 : (c2 + 1) * len ≤ c * len := Nat.mul_le_mul_right len hc2
          have h2 : (c2 + 1) * len = c2 * len + len := Nat.succ_mul c2 len
          omega
        · have hlt : c < m := by omega
          have h1 : (c + 1) * len ≤ m * len := Nat.mul_le_mul_right len hlt
          have h2 : (c + 1) * len = c * len + len := Nat.succ_mul c len
          have hout : ¬ (m * len ≤ c * len + i ∧ c * len + i < m * len + n) := by omega
          rw [if_neg hout]
          exact hrow c i hlt hi
      · intro k hk
        rw [g2]
        have hout : ¬ (m * len ≤ k ∧ k < m * len + n) := by
          have := hk m (Nat.lt_succ_self m); omega
        rw [if_neg hout]
        exact hframe k (fun c hc => hk c (Nat.lt_succ_of_lt hc))
  have hfold : (ggml_cpy t src dst).data
      = (List.range rows).foldl (cpy_row t.elsize src dst) t.data := by
    simp [ggml_cpy, hne1]
  rw [hfold]
  exact key rows (Nat.le_refl rows)

/-! ## Lemmas on `before_forward` -/

/-- With a descriptor `{shift, total}`, `0 < shift < total`, both copies are made
and the descriptor is cleared. -/
theorem KVCacheAttention.before_forward_pending {α : Type} (a : KVCacheAttention α)
    (n_past qlen : Int) (shift total : Nat)
    (hsp : a.shift_pending = { shift := shift, total := total })
    (hshift : 0 < shift) (hremain : shift < total) :
    a.before_forward n_past qlen =
      { a with
        pos := fill_pos_vector n_past qlen
        k_cache := ggml_cpy a.k_cache
          (ggml_view_1d a.k_cache ((total - shift) * a.k_hidden_size)
            (a.k_cache.elsize * (a.k_hidden_size * shift)))
          (ggml_view_1d a.k_cache ((total - shift) * a.k_hidden_size) 0)
        v_cache := ggml_cpy a.v_cache
          (ggml_view_2d a.v_cache (total - shift) a.v_hidden_size
            (a.cache_length * a.v_cache.elsize) (shift * a.v_cache.elsize))
          (ggml_view_2d a.v_cache (total - shift) a.v_hidden_size
            (a.cache_length * a.v_cache.elsize) 0)
        shift_pending := ShiftPending.clear { shift := shift, total := total } } := by
  have h1 : ((shift : Int) > 0) := by omega
  have h2 : ((total : Int) - (shift : Int) > 0) := by omega
  have h3 : ((total : Int) - (shift : Int)).toNat = total - shift := by omega
  have h4 : ((shift : Int)).toNat = shift := by omega
  simp only [KVCacheAttention.before_forward, CoreAttention.before_forward, hsp, h1, h2, h3, h4,
    if_true, Nat.mul_assoc]

/-- Compaction of K: the entry now at `(i, c)`, `i < total - shift`, is the entry
that was at `(i + shift, c)`, and that entry exists. -/
theorem KVCacheAttention.before_forward_k_at {α : Type} (a : KVCacheAttention α)
    (n_past qlen : Int) (shift total : Nat) (hwf : a.wf)
    (hsp : a.shift_pending = { shift := shift, total := total })
    (hshift : 0 < shift) (hremain : shift < total) (htotal : total ≤ a.cache_length)
    (i c : Nat) (hi : i < total - shift) (hc : c < a.k_hidden_size) :
    (a.before_forward n_past qlen).k_at i c = a.k_at (i + shift) c ∧
    ∃ x, a.k_at (i + shift) c = some x := by
  obtain ⟨hes, _, hklen, _⟩ := hwf
  have e1 : (total - shift) * a.k_hidden_size + a.k_hidden_size * shift
      = total * a.k_hidden_size := by
    rw [Nat.mul_comm a.k_hidden_size shift, ← Nat.add_mul]
    congr 1; omega
  have e2 : total * a.k_hidden_size ≤ a.k_hidden_size * a.cache_length := by
    rw [Nat.mul_comm a.k_hidden_size]; exact Nat.mul_le_mul_right _ htotal
  have e3 : (i + 1) * a.k_hidden_size ≤ (total - shift) * a.k_hidden_size :=
    Nat.mul_le_mul_right _ hi
  have e4 : (i + 1) * a.k_hidden_size = i * a.k_hidden_size + a.k_hidden_size :=
    Nat.succ_mul _ _
  have e5 : (i + shift) * a.k_hidden_size = i * a.k_hidden_size + a.k_hidden_size * shift := by
    rw [Nat.add_mul, Nat.mul_comm shift]
  have hb : a.k_hidden_size * shift + (total - shift) * a.k_hidden_size
      ≤ a.k_cache.data.length := by omega
  obtain ⟨_, hcopy⟩ := ggml_cpy_1d_spec a.k_cache ((total - shift) * a.k_hidden_size)
    (a.k_hidden_size * shift) hes hb
  have hidx : a.k_hidden_size * shift + (i * a.k_hidden_size + c)
      = (i + shift) * a.k_hidden_size + c := by omega
  have hin : i * a.k_hidden_size + c < (total - shift) * a.k_hidden_size := by omega
  constructor
  · rw [KVCacheAttention.before_forward_pending a n_past qlen shift total hsp hshift hremain]
    show (ggml_cpy a.k_cache _ _).data[i * a.k_hidden_size + c]? = a.k_cache.data[_]?
    rw [hcopy, if_pos hin, hidx]
  · have hlt : (i + shift) * a.k_hidden_size + c < a.k_cache.data.length := by omega
    exact ⟨a.k_cache.data[(i + shift) * a.k_hidden_size + c], List.getElem?_eq_getElem hlt⟩

/-- Compaction of V: in every row `c` the entry now at column `i`,
`i < total - shift`, is the entry that was at column `i + shift`, and that entry
exists. -/
theorem KVCacheAttention.before_forward_v_at {α : Type} (a : KVCacheAttention α)
    (n_past qlen : Int) (shift total : Nat) (hwf : a.wf)
    (hsp : a.shift_pending = { shift := shift, total := total })
    (hshift : 0 < shift) (hremain : shift < total) (htotal : total ≤ a.cache_length)
    (c i : Nat) (hc : c < a.v_hidden_size) (hi : i < total - shift) :
    (a.before_forward n_past qlen).v_at c i = a.v_at c (i + shift) ∧
    ∃ x, a.v_at c (i + shift) = some x := by
  obtain ⟨_, hes, _, hvlen⟩ := hwf
  have hbn : shift + (total - shift) ≤ a.cache_length := by omega
  obtain ⟨_, hcopy, _⟩ := ggml_cpy_2d_spec a.v_cache (total - shift) a.v_hidden_size
    a.cache_length shift hes hbn (Nat.le_of_eq hvlen.symm)
  have e1 : (c + 1) * a.cache_length ≤ a.v_hidden_size * a.cache_length :=
    Nat.mul_le_mul_right _ hc
  have e2 : (c + 1) * a.cache_length = c * a.cache_length + a.cache_length := Nat.succ_mul _ _
  constructor
  · rw [KVCacheAttention.before_forward_pending a n_past qlen shift total hsp hshift hremain]
    show (ggml_cpy a.v_cache _ _).data[c * a.cache_length + i]? = a.v_cache.data[_]?
    rw [hcopy c i hc hi]
    congr 1; omega
  · have hlt : c * a.cache_length + (i + shift) < a.v_cache.data.length := by omega
    exact ⟨a.v_cache.data[c * a.cache_length + (i + shift)], List.getElem?_eq_getElem hlt⟩

/-! ## Lemmas on `shift_memory` -/

theorem BaseModel.shift_memory_ok (m : BaseModel) (keep : Int) (h : m.n_past ≥ keep) :
    m.shift_memory keep
      = (Except.ok (), { n_past := keep, n_past_offset := m.n_past_offset + (m.n_past - keep) }) := by
  unfold BaseModel.shift_memory
  rw [if_pos h]

theorem BaseModel.shift_memory_error (m : BaseModel) (keep : Int) (h : ¬ m.n_past ≥ keep) :
    m.shift_memory keep = (Except.error Fatal.kept_exceeds_history, m) := by
  unfold BaseModel.shift_memory
  rw [if_neg h]

/-- A sequence of one call is that call. -/
theorem BaseModel.shift_memory_seq_singleton (m : BaseModel) (keep : Int) :
    m.shift_memory_seq [keep] = m.shift_memory keep := by
  by_cases h : m.n_past ≥ keep
  · simp [BaseModel.shift_memory_seq, BaseModel.shift_memory_ok m keep h]
  · simp [BaseModel.shift_memory_seq, BaseModel.shift_memory_error m keep h]

/-- An `int` value is its own two's-complement value. -/
theorem wrap_int_of_in_int (x : Int) (h : in_int x) : wrap_int x = x := by
  obtain ⟨h1, h2⟩ := h
  unfold INT_MIN at h1
  unfold INT_MAX at h2
  unfold wrap_int Int.bmod
  simp only []
  split <;> omega

/-! ## The claims -/

/-- C1: for every model state with `n_past >= keep`, on which the `int`
arithmetic of the call does not overflow, `shift_memory(keep)` succeeds, reduces
`n_past` by `excess = n_past - keep` (so `n_past` becomes `keep`) and increases
`n_past_offset` by exactly that excess; the new counters are `int` values, the
ones the two's-complement arithmetic of the machine yields. -/
theorem shift_memory_moves_excess (m : BaseModel) (keep : Int) (h : m.n_past ≥ keep)
    (hr : m.shift_in_range keep) :
    (m.shift_memory keep).1 = Except.ok () ∧
    (m.shift_memory keep).2.n_past = m.n_past - (m.n_past - keep) ∧
    (m.shift_memory keep).2.n_past = keep ∧
    (m.shift_memory keep).2.n_past_offset = m.n_past_offset + (m.n_past - keep) ∧
    in_int (m.shift_memory keep).2.n_past ∧
    in_int (m.shift_memory keep).2.n_past_offset ∧
    wrap_int (m.n_past_offset + wrap_int (m.n_past - keep))
      = (m.shift_memory keep).2.n_past_offset := by
  obtain ⟨_, _, hk, he, ho⟩ := hr
  rw [BaseModel.shift_memory_ok m keep h]
  refine ⟨rfl, ?_, rfl, rfl, hk, ho, ?_⟩
  · show keep = m.n_past - (m.n_past - keep)
    omega
  · show wrap_int (m.n_past_offset + wrap_int (m.n_past - keep))
      = m.n_past_offset + (m.n_past - keep)
    rw [wrap_int_of_in_int _ he, wrap_int_of_in_int _ ho]

/-- Witness for C1: a state with `n_past = 10`, `n_past_offset = 3`, and `keep = 4`. -/
theorem shift_memory_moves_excess_witness :
    ({ n_past := 10, n_past_offset := 3 } : BaseModel).n_past ≥ 4 ∧
    ({ n_past := 10, n_past_offset := 3 } : BaseModel).shift_in_range 4 ∧
    (({ n_past := 10, n_past_offset := 3 } : BaseModel).shift_memory 4).2.n_past = 4 ∧
    (({ n_past := 10, n_past_offset := 3 } : BaseModel).shift_memory 4).2.n_past_offset
      = 3 + (10 - 4) :=
  ⟨by decide, by decide,
   (shift_memory_moves_excess { n_past := 10, n_past_offset := 3 } 4 (by decide)
     (by decide)).2.2.1,
   (shift_memory_moves_excess { n_past := 10, n_past_offset := 3 } 4 (by decide)
     (by decide)).2.2.2.1⟩

/-- C4: `shift_memory` preserves the absolute position `n_past + n_past_offset`
and never decreases `n_past_offset`: for every successful call (last
conjunct), and along every sequence of successful calls from every state, as
long as the `int` arithmetic of the calls does not overflow; from the
constructor state (`n_past = 0`, `n_past_offset = 0`) the sum therefore stays 0
and the offset stays non-negative.  The counters reached are `int` values. -/
theorem shift_memory_preserves_position (m : BaseModel) (keeps : List Int)
    (h : (m.shift_memory_seq keeps).1 = Except.ok ())
    (hr : m.shift_seq_in_range keeps) :
    (m.shift_memory_seq keeps).2.n_past + (m.shift_memory_seq keeps).2.n_past_offset
      = m.n_past + m.n_past_offset ∧
    m.n_past_offset ≤ (m.shift_memory_seq keeps).2.n_past_offset ∧
    (m = BaseModel.init →
      (m.shift_memory_seq keeps).2.n_past + (m.shift_memory_seq keeps).2.n_past_offset = 0 ∧
      0 ≤ (m.shift_memory_seq keeps).2.n_past_offset) ∧
    (∀ keep, (m.shift_memory keep).1 = Except.ok () → m.shift_in_range keep →
      (m.shift_memory keep).2.n_past + (m.shift_memory keep).2.n_past_offset
        = m.n_past + m.n_past_offset ∧
      m.n_past_offset ≤ (m.shift_memory keep).2.n_past_offset ∧
      in_int (m.shift_memory keep).2.n_past ∧
      in_int (m.shift_memory keep).2.n_past_offset) ∧
    in_int (m.shift_memory_seq keeps).2.n_past ∧
    in_int (m.shift_memory_seq keeps).2.n_past_offset := by
  have main : ∀ (keeps : List Int) (m : BaseModel),
      (m.shift_memory_seq keeps).1 = Except.ok () → m.shift_seq_in_range keeps →
      (m.shift_memory_seq keeps).2.n_past + (m.shift_memory_seq keeps).2.n_past_offset
        = m.n_past + m.n_past_offset ∧
      m.n_past_offset ≤ (m.shift_memory_seq keeps).2.n_past_offset ∧
      in_int (m.shift_memory_seq keeps).2.n_past ∧
      in_int (m.shift_memory_seq keeps).2.n_past_offset := by
    intro keeps
    induction keeps with
    | nil => intro m _ hr; exact ⟨rfl, Int.le_refl _, hr.1, hr.2⟩
    | cons keep rest ih =>
      intro m hok hr
      by_cases hk : m.n_past ≥ keep
      · have hstep : m.shift_memory_seq (keep :: rest)
            = BaseModel.shift_memory_seq
                { n_past := keep, n_past_offset := m.n_past_offset + (m.n_past - keep) } rest := by
          simp [BaseModel.shift_memory_seq, BaseModel.shift_memory_ok m keep hk]
        have hrest : BaseModel.shift_seq_in_range
            { n_past := keep, n_past_offset := m.n_past_offset + (m.n_past - keep) } rest := by
          have h2 := hr.2
          rw [BaseModel.shift_memory_ok m keep hk] at h2
          exact h2
        rw [hstep] at hok ⊢
        obtain ⟨h1, h2, h3, h4⟩ := ih _ hok hrest
        simp only at h1 h2
        exact ⟨by omega, by omega, h3, h4⟩
      · have hstep : m.shift_memory_seq (keep :: rest)
            = (Except.error Fatal.kept_exceeds_history, m) := by
          simp [BaseModel.shift_memory_seq, BaseModel.shift_memory_error m keep hk]
        rw [hstep] at hok
        simp at hok
  obtain ⟨h1, h2, h3, h4⟩ := main keeps m h hr
  refine ⟨h1, h2, fun hinit => ?_, fun keep hok hrk => ?_, h3, h4⟩
  · subst hinit
    have e1 : BaseModel.init.n_past = 0 := rfl
    have e2 : BaseModel.init.n_past_offset = 0 := rfl
    rw [e1, e2] at h1
    rw [e2] at h2
    exact ⟨by omega, h2⟩
  · have hone := main [keep] m
    rw [BaseModel.shift_memory_seq_singleton] at hone
    refine hone hok ⟨hrk, ?_⟩
    have hk : m.n_past ≥ keep := by
      by_cases hk : m.n_past ≥ keep
      · exact hk
      · rw [BaseModel.shift_memory_error m keep hk] at hok
        simp at hok
    rw [BaseModel.shift_memory_ok m keep hk]
    exact ⟨hrk.2.2.1, hrk.2.2.2.2⟩

/-- Witness for C4: from `n_past = 10`, `n_past_offset = 0`, the shifts
`keep = 6` and then `keep = 4`. -/
theorem shift_memory_preserves_position_witness :
    (({ n_past := 10, n_past_offset := 0 } : BaseModel).shift_memory_seq [6, 4]).1
      = Except.ok () ∧
    ({ n_past := 10, n_past_offset := 0 } : BaseModel).shift_seq_in_range [6, 4] ∧
    (({ n_past := 10, n_past_offset := 0 } : BaseModel).shift_memory_seq [6, 4]).2.n_past
      + (({ n_past := 10, n_past_offset := 0 } : BaseModel).shift_memory_seq [6, 4]).2.n_past_offset
      = 10 + 0 ∧
    (0 : Int) ≤
      (({ n_past := 10, n_past_offset := 0 } : BaseModel).shift_memory_seq [6, 4]).2.n_past_offset :=
  ⟨by decide, by decide,
   (shift_memory_preserves_position { n_past := 10, n_past_offset := 0 } [6, 4] (by decide)
     (by decide)).1,
   (shift_memory_preserves_position { n_past := 10, n_past_offset := 0 } [6, 4] (by decide)
     (by decide)).2.1⟩

/-- C5: when `keep > n_past`, `shift_memory(keep)` fails on the check "length of
kept should not exceeds history" and leaves `n_past` and `n_past_offset` as they
were. -/
theorem shift_memory_rejects_long_keep (m : BaseModel) (keep : Int) (h : keep > m.n_past) :
    (m.shift_memory keep).1 = Except.error Fatal.kept_exceeds_history ∧
    (m.shift_memory keep).2 = m ∧
    (m.shift_memory keep).2.n_past = m.n_past ∧
    (m.shift_memory keep).2.n_past_offset = m.n_past_offset := by
  have hn : ¬ m.n_past ≥ keep := by omega
  rw [BaseModel.shift_memory_error m keep hn]
  exact ⟨rfl, rfl, rfl, rfl⟩

/-- Witness for C5: `n_past = 3`, `n_past_offset = 7`, `keep = 5`. -/
theorem shift_memory_rejects_long_keep_witness :
    (5 : Int) > ({ n_past := 3, n_past_offset := 7 } : BaseModel).n_past ∧
    (({ n_past := 3, n_past_offset := 7 } : BaseModel).shift_memory 5).1
      = Except.error Fatal.kept_exceeds_history ∧
    (({ n_past := 3, n_past_offset := 7 } : BaseModel).shift_memory 5).2
      = { n_past := 3, n_past_offset := 7 } :=
  ⟨by decide,
   (shift_memory_rejects_long_keep { n_past := 3, n_past_offset := 7 } 5 (by decide)).1,
   (shift_memory_rejects_long_keep { n_past := 3, n_past_offset := 7 } 5 (by decide)).2.1⟩

/-- C6, as stated, fails: from the constructor state, `shift_memory(-1)` passes
the check (`0 >= -1`), succeeds, and leaves `n_past = -1`. -/
theorem negative_keep_counterexample :
    (BaseModel.init.shift_memory (-1)).1 = Except.ok () ∧
    (BaseModel.init.shift_memory (-1)).2 = { n_past := -1, n_past_offset := 1 } ∧
    (BaseModel.init.shift_memory (-1)).2.n_past < 0 := by
  decide

/-- C6, amended: `shift_memory(keep)` fails if and only if `keep > n_past`,
whatever the sign of `keep`; a successful call leaves `n_past = keep`, so after
it `n_past` is non-negative exactly when `keep` is. -/
theorem shift_memory_fails_iff (m : BaseModel) (keep : Int) :
    ((m.shift_memory keep).1 = Except.error Fatal.kept_exceeds_history ↔ keep > m.n_past) ∧
    ((m.shift_memory keep).1 = Except.ok () ↔ keep ≤ m.n_past) ∧
    ((m.shift_memory keep).1 = Except.ok () →
      (m.shift_memory keep).2.n_past = keep ∧
      (0 ≤ (m.shift_memory keep).2.n_past ↔ 0 ≤ keep)) := by
  by_cases h : m.n_past ≥ keep
  · rw [BaseModel.shift_memory_ok m keep h]
    refine ⟨⟨fun he => by simp at he, fun hk => by omega⟩, ⟨fun _ => h, fun _ => rfl⟩,
      fun _ => ⟨rfl, Iff.rfl⟩⟩
  · rw [BaseModel.shift_memory_error m keep h]
    refine ⟨⟨fun _ => by omega, fun _ => rfl⟩, ⟨fun he => by simp at he, fun hk => by omega⟩,
      fun he => by simp at he⟩

/-- C7: K-cache compaction.  When `before_forward` runs with
`ShiftPending = {shift, total}`, `shift > 0`, `remain = total - shift > 0` and
`total <= cache_length`, then for every position `i < remain` and every channel
`c < k_hidden_size` the K entry at `(i, c)` afterwards is the entry that was at
`(i + shift, c)` before the call: the retained tail is moved to the cache origin
and the first `shift` positions are dropped. -/
theorem k_cache_compaction {α : Type} (a : KVCacheAttention α) (n_past qlen : Int)
    (shift total : Nat) (hwf : a.wf)
    (hsp : a.shift_pending = { shift := shift, total := total })
    (hshift : 0 < shift) (hremain : 0 < total - shift) (htotal : total ≤ a.cache_length)
    (i c : Nat) (hi : i < total - shift) (hc : c < a.k_hidden_size) :
    ∃ x, (a.before_forward n_past qlen).k_at i c = some x ∧ a.k_at (i + shift) c = some x := by
  obtain ⟨h1, x, hx⟩ := KVCacheAttention.before_forward_k_at a n_past qlen shift total hwf hsp
    hshift (by omega) htotal i c hi hc
  exact ⟨x, by rw [h1, hx], hx⟩

/-- Witness for C7: the four-position cache with `ShiftPending = {1, 4}`; the
entry at position 0, channel 1 becomes the old entry of position 1, channel 1. -/
theorem k_cache_compaction_witness :
    (demoLayer { shift := 1, total := 4 }).wf ∧
    ∃ x, ((demoLayer { shift := 1, total := 4 }).before_forward 3 1).k_at 0 1 = some x ∧
      (demoLayer { shift := 1, total := 4 }).k_at (0 + 1) 1 = some x :=
  ⟨by decide,
   k_cache_compaction (demoLayer { shift := 1, total := 4 }) 3 1 1 4 (by decide) rfl
     (by decide) (by decide) (by decide) 0 1 (by decide) (by decide)⟩

/-- C8: shift distance preservation.  The compaction in `before_forward` moves
every retained position `p` (`shift <= p < total`) to `p - shift`, in the K cache
and in the V cache alike, so for two retained positions `p` and `q` the distance
`p - q` and the order are the same before and after the shift. -/
theorem shift_preserves_distance {α : Type} (a : KVCacheAttention α) (n_past qlen : Int)
    (shift total : Nat) (hwf : a.wf)
    (hsp : a.shift_pending = { shift := shift, total := total })
    (hshift : 0 < shift) (htotal : total ≤ a.cache_length)
    (p q : Nat) (hp : shift ≤ p ∧ p < total) (hq : shift ≤ q ∧ q < total)
    (ck cv : Nat) (hck : ck < a.k_hidden_size) (hcv : cv < a.v_hidden_size) :
    (∃ x, (a.before_forward n_past qlen).k_at (p - shift) ck = some x ∧ a.k_at p ck = some x) ∧
    (∃ x, (a.before_forward n_past qlen).v_at cv (p - shift) = some x ∧ a.v_at cv p = some x) ∧
    (∃ x, (a.before_forward n_past qlen).k_at (q - shift) ck = some x ∧ a.k_at q ck = some x) ∧
    (∃ x, (a.before_forward n_past qlen).v_at cv (q - shift) = some x ∧ a.v_at cv q = some x) ∧
    (((p - shift : Nat) : Int) - ((q - shift : Nat) : Int) = (p : Int) - (q : Int)) ∧
    (p - shift < q - shift ↔ p < q) := by
  have hrem : shift < total := by omega
  have hk : ∀ r, shift ≤ r ∧ r < total →
      ∃ x, (a.before_forward n_past qlen).k_at (r - shift) ck = some x ∧ a.k_at r ck = some x := by
    intro r hr
    obtain ⟨h1, x, hx⟩ := KVCacheAttention.before_forward_k_at a n_past qlen shift total hwf hsp
      hshift hrem htotal (r - shift) ck (by omega) hck
    have e : r - shift + shift = r := by omega
    rw [e] at h1 hx
    exact ⟨x, by rw [h1, hx], hx⟩
  have hv : ∀ r, shift ≤ r ∧ r < total →
      ∃ x, (a.before_forward n_past qlen).v_at cv (r - shift) = some x ∧ a.v_at cv r = some x := by
    intro r hr
    obtain ⟨h1, x, hx⟩ := KVCacheAttention.before_forward_v_at a n_past qlen shift total hwf hsp
      hshift hrem htotal cv (r - shift) hcv (by omega)
    have e : r - shift + shift = r := by omega
    rw [e] at h1 hx
    exact ⟨x, by rw [h1, hx], hx⟩
  refine ⟨hk p hp, hv p hp, hk q hq, hv q hq, ?_, ?_⟩ <;> omega

/-- Witness for C8: `ShiftPending = {1, 4}` on the four-position cache, retained
positions 1 and 3. -/
theorem shift_preserves_distance_witness :
    (demoLayer { shift := 1, total := 4 }).wf ∧
    (∃ x, ((demoLayer { shift := 1, total := 4 }).before_forward 3 1).k_at (1 - 1) 0 = some x ∧
      (demoLayer { shift := 1, total := 4 }).k_at 1 0 = some x) ∧
    (∃ x, ((demoLayer { shift := 1, total := 4 }).before_forward 3 1).v_at 1 (3 - 1) = some x ∧
      (demoLayer { shift := 1, total := 4 }).v_at 1 3 = some x) ∧
    (((1 - 1 : Nat) : Int) - ((3 - 1 : Nat) : Int) = ((1 : Nat) : Int) - ((3 : Nat) : Int)) :=
  ⟨by decide,
   (shift_preserves_distance (demoLayer { shift := 1, total := 4 }) 3 1 1 4 (by decide) rfl
     (by decide) (by decide) 1 3 (by decide) (by decide) 0 1 (by decide) (by decide)).1,
   (shift_preserves_distance (demoLayer { shift := 1, total := 4 }) 3 1 1 4 (by decide) rfl
     (by decide) (by decide) 1 3 (by decide) (by decide) 0 1 (by decide) (by decide)).2.2.2.1,
   (shift_preserves_distance (demoLayer { shift := 1, total := 4 }) 3 1 1 4 (by decide) rfl
     (by decide) (by decide) 1 3 (by decide) (by decide) 0 1 (by decide) (by decide)).2.2.2.2.1⟩

/-- C9, as stated, fails: on the four-position cache with `n_past = 4` and
`keep = 2` (descriptor `{excess, n_past} = {2, 4}`), the compaction overwrites
the first two positions: K at `(0, 0)` was 0 and becomes 20, V at `(1, 0)` was 100
and becomes 102. -/
theorem keep_head_counterexample :
    (demoLayer { shift := 4 - 2, total := 4 }).k_at 0 0 = some 0 ∧
    ((demoLayer { shift := 4 - 2, total := 4 }).before_forward 2 1).k_at 0 0 = some 20 ∧
    (demoLayer { shift := 4 - 2, total := 4 }).v_at 1 0 = some 100 ∧
    ((demoLayer { shift := 4 - 2, total := 4 }).before_forward 2 1).v_at 1 0 = some 102 ∧
    ¬ (∀ i c, i < 2 → c < 2 →
        ((demoLayer { shift := 4 - 2, total := 4 }).before_forward 2 1).k_at i c
          = (demoLayer { shift := 4 - 2, total := 4 }).k_at i c) := by
  refine ⟨by decide, by decide, by decide, by decide, fun h => ?_⟩
  have h0 := h 0 0 (by decide) (by decide)
  revert h0
  decide

/-- C9, amended: a Shift keeps the last `keep` positions, not the first.  With the
descriptor `{excess, n_past} = {n_past - keep, n_past}` of a shift to
`keep < n_past <= cache_length`, after the compaction the K/V entries at the
first `keep` cache positions are the entries that were at the last `keep`
positions `n_past - keep .. n_past - 1` before the shift. -/
theorem shift_keeps_tail {α : Type} (a : KVCacheAttention α) (n_past qlen : Int)
    (old_n_past keep : Nat) (hwf : a.wf)
    (hsp : a.shift_pending
      = { shift := ((old_n_past - keep : Nat) : Int), total := (old_n_past : Int) })
    (hkeep : keep < old_n_past) (hcap : old_n_past ≤ a.cache_length)
    (i : Nat) (hi : i < keep) :
    (∀ c, c < a.k_hidden_size →
      ∃ x, (a.before_forward n_past qlen).k_at i c = some x ∧
        a.k_at (old_n_past - keep + i) c = some x) ∧
    (∀ c, c < a.v_hidden_size →
      ∃ x, (a.before_forward n_past qlen).v_at c i = some x ∧
        a.v_at c (old_n_past - keep + i) = some x) := by
  have e : i + (old_n_past - keep) = old_n_past - keep + i := Nat.add_comm _ _
  constructor
  · intro c hc
    obtain ⟨h1, x, hx⟩ := KVCacheAttention.before_forward_k_at a n_past qlen
      (old_n_past - keep) old_n_past hwf hsp (by omega) (by omega) hcap i c (by omega) hc
    rw [e] at h1 hx
    exact ⟨x, by rw [h1, hx], hx⟩
  · intro c hc
    obtain ⟨h1, x, hx⟩ := KVCacheAttention.before_forward_v_at a n_past qlen
      (old_n_past - keep) old_n_past hwf hsp (by omega) (by omega) hcap c i hc (by omega)
    rw [e] at h1 hx
    exact ⟨x, by rw [h1, hx], hx⟩

/-- Witness for C9 (amended): the four-position cache, `n_past = 4`, `keep = 2`,
position 1. -/
theorem shift_keeps_tail_witness :
    (demoLayer { shift := ((4 - 2 : Nat) : Int), total := ((4 : Nat) : Int) }).wf ∧
    (∀ c, c < (demoLayer { shift := ((4 - 2 : Nat) : Int), total := ((4 : Nat) : Int) }).k_hidden_size →
      ∃ x, ((demoLayer { shift := ((4 - 2 : Nat) : Int), total := ((4 : Nat) : Int) }).before_forward
          2 1).k_at 1 c = some x ∧
        (demoLayer { shift := ((4 - 2 : Nat) : Int), total := ((4 : Nat) : Int) }).k_at
          (4 - 2 + 1) c = some x) :=
  ⟨by decide,
   (shift_keeps_tail (demoLayer { shift := ((4 - 2 : Nat) : Int), total := ((4 : Nat) : Int) })
     2 1 4 2 (by decide) rfl (by decide) (by decide) 1 (by decide)).1⟩

/-- C10: a scheduled shift is consumed exactly once.  After `before_forward`
returns no shift is pending, whatever the descriptor was; when `shift > 0` and
`remain <= 0` nothing is copied; and a second `before_forward`, with no shift
scheduled in between, copies nothing: the K and V caches and the descriptor stay
as the first call left them. -/
theorem shift_consumed_once {α : Type} (a : KVCacheAttention α) (n_past qlen n_past2 qlen2 : Int) :
    ¬ ((a.before_forward n_past qlen).shift_pending.shift > 0) ∧
    (a.shift_pending.shift > 0 → (a.before_forward n_past qlen).shift_pending.shift = 0) ∧
    (a.shift_pending.shift > 0 → a.shift_pending.total - a.shift_pending.shift ≤ 0 →
      (a.before_forward n_past qlen).k_cache = a.k_cache ∧
      (a.before_forward n_past qlen).v_cache = a.v_cache) ∧
    ((a.before_forward n_past qlen).before_forward n_past2 qlen2).k_cache
      = (a.before_forward n_past qlen).k_cache ∧
    ((a.before_forward n_past qlen).before_forward n_past2 qlen2).v_cache
      = (a.before_forward n_past qlen).v_cache ∧
    ((a.before_forward n_past qlen).before_forward n_past2 qlen2).shift_pending
      = (a.before_forward n_past qlen).shift_pending := by
  have idle : ∀ (b : KVCacheAttention α) (n q : Int), ¬ (b.shift_pending.shift > 0) →
      b.before_forward n q = { b with pos := fill_pos_vector n q } := by
    intro b n q hb
    simp only [KVCacheAttention.before_forward, CoreAttention.before_forward]
    rw [if_neg hb]
  have hclear : ¬ ((a.before_forward n_past qlen).shift_pending.shift > 0) := by
    by_cases hs : a.shift_pending.shift > 0
    · simp only [KVCacheAttention.before_forward, CoreAttention.before_forward]
      rw [if_pos hs]
      simp [ShiftPending.clear]
    · rw [idle a n_past qlen hs]
      exact hs
  refine ⟨hclear, ?_, ?_, ?_, ?_, ?_⟩
  · intro hs
    simp only [KVCacheAttention.before_forward, CoreAttention.before_forward]
    rw [if_pos hs]
    simp [ShiftPending.clear]
  · intro hs hr
    have hr2 : ¬ (a.shift_pending.total - a.shift_pending.shift > 0) := by omega
    simp only [KVCacheAttention.before_forward, CoreAttention.before_forward]
    rw [if_pos hs, if_neg hr2]
    exact ⟨rfl, rfl⟩
  · rw [idle _ n_past2 qlen2 hclear]
  · rw [idle _ n_past2 qlen2 hclear]
  · rw [idle _ n_past2 qlen2 hclear]

/-! ## Lemmas on `save_to_cache` -/

/-- A row copied in from another tensor: the `n` cells from `d` receive the
converted source elements, every other cell keeps its value. -/
theorem cpy_from_fold_spec {α β : Type} (cvt : β → α) (src : Nat → Nat → Option β) (es : Nat)
    (dst : View) (i1 d : Nat) (hd : ∀ i0, dst.index es i0 i1 = d + i0) (buf : List α) :
    ∀ n, d + n ≤ buf.length → (∀ i0, i0 < n → (src i0 i1).isSome) →
      ((List.range n).foldl (cpy_from_elem cvt src es dst i1) buf).length = buf.length ∧
      ∀ k, ((List.range n).foldl (cpy_from_elem cvt src es dst i1) buf)[k]?
        = if d ≤ k ∧ k < d + n then (src (k - d) i1).map cvt else buf[k]? := by
  intro n
  induction n with
  | zero =>
    intro _ _
    refine ⟨rfl, fun k => ?_⟩
    have : ¬ (d ≤ k ∧ k < d + 0) := by omega
    rw [if_neg this, List.range_zero, List.foldl_nil]
  | succ n ih =>
    intro hlen hsrc
    obtain ⟨hl, hk⟩ := ih (by omega) (fun i0 h => hsrc i0 (by omega))
    rw [List.range_succ, List.foldl_append, List.foldl_cons, List.foldl_nil]
    generalize (List.range n).foldl (cpy_from_elem cvt src es dst i1) buf = r at hl hk
    obtain ⟨x, hx⟩ := Option.isSome_iff_exists.mp (hsrc n (Nat.lt_succ_self n))
    unfold cpy_from_elem
    rw [hx, hd n]
    refine ⟨by simp [hl], fun k => ?_⟩
    rw [List.getElem?_set]
    by_cases hkn : d + n = k
    · subst hkn
      have h1 : d + n < r.length := by omega
      have h2 : d ≤ d + n ∧ d + n < d + (n + 1) := by omega
      have h3 : d + n - d = n := by omega
      rw [if_pos rfl, if_pos h1, if_pos h2, h3, hx]
      rfl
    · rw [if_neg hkn, hk k]
      by_cases hin : d ≤ k ∧ k < d + n
      · have : d ≤ k ∧ k < d + (n + 1) := by omega
        rw [if_pos hin, if_pos this]
      · have : ¬ (d ≤ k ∧ k < d + (n + 1)) := by omega
        rw [if_neg hin, if_neg this]

/-- The copy of `n` elements, taken in logical order from another tensor, into a
one-row view that starts at element `b`. -/
theorem ggml_cpy_from_1d_spec {α β : Type} (cvt : β → α) (x : Input β) (t : Tensor α)
    (dst : View) (n b : Nat) (hne0 : dst.ne0 = n) (hne1 : dst.ne1 = 1)
    (hd : ∀ i0, dst.index t.elsize i0 0 = b + i0)
    (hb : b + n ≤ t.data.length) (hx : n ≤ x.data.length) :
    (ggml_cpy_from cvt x.flat t dst).data.length = t.data.length ∧
    ∀ j, (ggml_cpy_from cvt x.flat t dst).data[j]?
        = if b ≤ j ∧ j < b + n then (x.data[j - b]?).map cvt else t.data[j]? := by
  have hsrc : ∀ i0, i0 < n → (x.flat i0 0).isSome := by
    intro i0 h
    have hlt : i0 < x.data.length := by omega
    simp [Input.flat, List.getElem?_eq_getElem hlt]
  have hfold : (ggml_cpy_from cvt x.flat t dst).data
      = (List.range n).foldl (cpy_from_elem cvt x.flat t.elsize dst 0) t.data := by
    unfold ggml_cpy_from
    rw [hne1, List.range_succ, List.range_zero, List.nil_append, List.foldl_cons, List.foldl_nil]
    unfold cpy_from_row
    rw [hne0]
  rw [hfold]
  exact cpy_from_fold_spec cvt x.flat t.elsize dst 0 b hd t.data n hb hsrc

/-- The copy of a transposed input into a view of `rows` rows of stride `len`
that starts at column `b`, `n` columns wide with `b + n ≤ len`: cell `(c, i)` of
the buffer receives the converted element `(i - b, c)` of the transposed input
when `b ≤ i < b + n`, and keeps its value otherwise. -/
theorem ggml_cpy_from_2d_spec {α β : Type} (cvt : β → α) (v : Input β) (t : Tensor α)
    (n rows len b : Nat) (hes : 0 < t.elsize) (hbn : b + n ≤ len)
    (hlen : rows * len ≤ t.data.length)
    (hv : ∀ i0 c, i0 < n → c < rows → (ggml_transpose v i0 c).isSome) :
    (ggml_cpy_from cvt (ggml_transpose v) t
        (ggml_view_2d t n rows (len * t.elsize) (b * t.elsize))).data.length = t.data.length ∧
    ∀ c i, c < rows → i < len →
      (ggml_cpy_from cvt (ggml_transpose v) t
        (ggml_view_2d t n rows (len * t.elsize) (b * t.elsize))).data[c * len + i]?
        = if b ≤ i ∧ i < b + n then (ggml_transpose v (i - b) c).map cvt
          else t.data[c * len + i]? := by
  generalize hdst : ggml_view_2d t n rows (len * t.elsize) (b * t.elsize) = dst
  have hd : ∀ i1 i0, dst.index t.elsize i0 i1 = (i1 * len + b) + i0 := by
    intro i1 i0; rw [← hdst]; exact View.index_2d t n rows len b i0 i1 hes
  have hne0 : dst.ne0 = n := by rw [← hdst]; rfl
  have hne1 : dst.ne1 = rows := by rw [← hdst]; rfl
  have key : ∀ m, m ≤ rows →
      ((List.range m).foldl (cpy_from_row cvt (ggml_transpose v) t.elsize dst) t.data).length
        = t.data.length ∧
      ∀ c i, c < rows → i < len →
        ((List.range m).foldl
            (cpy_from_row cvt (ggml_transpose v) t.elsize dst) t.data)[c * len + i]?
          = if c < m ∧ b ≤ i ∧ i < b + n then (ggml_transpose v (i - b) c).map cvt
            else t.data[c * len + i]? := by
    intro m
    induction m with
    | zero =>
      intro _
      refine ⟨rfl, fun c i _ _ => ?_⟩
      have : ¬ (c < 0 ∧ b ≤ i ∧ i < b + n) := by omega
      rw [if_neg this, List.range_zero, List.foldl_nil]
    | succ m ih =>
      intro hm
      obtain ⟨hl, hcell⟩ := ih (by omega)
      rw [List.range_succ, List.foldl_append, List.foldl_cons, List.foldl_nil]
      generalize (List.range m).foldl (cpy_from_row cvt (ggml_transpose v) t.elsize dst) t.data
        = r at hl hcell
      have hmul : (m + 1) * len ≤ rows * len := Nat.mul_le_mul_right len hm
      have hsucc : (m + 1) * len = m * len + len := Nat.succ_mul m len
      have hbound : (m * len + b) + n ≤ r.length := by omega
      obtain ⟨g1, g2⟩ := cpy_from_fold_spec cvt (ggml_transpose v) t.elsize dst m (m * len + b)
        (hd m) r n hbound (fun i0 h => hv i0 m h (by omega))
      have hrowdef : cpy_from_row cvt (ggml_transpose v) t.elsize dst r m
          = (List.range n).foldl (cpy_from_elem cvt (ggml_transpose v) t.elsize dst m) r := by
        unfold cpy_from_row; rw [hne0]
      rw [hrowdef]
      refine ⟨by rw [g1, hl], fun c i hc hi => ?_⟩
      rw [g2, hcell c i hc hi]
      by_cases hcm : c = m
      · subst hcm
        by_cases hin : b ≤ i ∧ i < b + n
        · have h1 : c * len + b ≤ c * len + i ∧ c * len + i < c * len + b + n := by omega
          have h2 : c < c + 1 ∧ b ≤ i ∧ i < b + n := by omega
          have h3 : c * len + i - (c * len + b) = i - b := by omega
          rw [if_pos h1, if_pos h2, h3]
        · have h1 : ¬ (c * len + b ≤ c * len + i ∧ c * len + i < c * len + b + n) := by omega
          have h2 : ¬ (c < c + 1 ∧ b ≤ i ∧ i < b + n) := by omega
          have h3 : ¬ (c < c ∧ b ≤ i ∧ i < b + n) := by omega
          rw [if_neg h1, if_neg h2, if_neg h3]
      · have hout : ¬ (m * len + b ≤ c * len + i ∧ c * len + i < m * len + b + n) := by
          rcases Nat.lt_or_gt_of_ne hcm with h | h
          · have e1 : (c + 1) * len ≤ m * len := Nat.mul_le_mul_right len h
            have e2 : (c + 1) * len = c * len + len := Nat.succ_mul c len
            omega
          · have e1 : (m + 1) * len ≤ c * len := Nat.mul_le_mul_right len h
            omega
        rw [if_neg hout]
        by_cases hin : c < m ∧ b ≤ i ∧ i < b + n
        · have : c < m + 1 ∧ b ≤ i ∧ i < b + n := by omega
          rw [if_pos hin, if_pos this]
        · have : ¬ (c < m + 1 ∧ b ≤ i ∧ i < b + n) := by omega
          rw [if_neg hin, if_neg this]
  have hfold : (ggml_cpy_from cvt (ggml_transpose v) t dst).data
      = (List.range rows).foldl (cpy_from_row cvt (ggml_transpose v) t.elsize dst) t.data := by
    unfold ggml_cpy_from; rw [hne1]
  rw [hfold]
  obtain ⟨h1, h2⟩ := key rows (Nat.le_refl rows)
  refine ⟨h1, fun c i hc hi => ?_⟩
  rw [h2 c i hc hi]
  by_cases hin : b ≤ i ∧ i < b + n
  · have : c < rows ∧ b ≤ i ∧ i < b + n := ⟨hc, hin⟩
    rw [if_pos hin, if_pos this]
  · have : ¬ (c < rows ∧ b ≤ i ∧ i < b + n) := fun h => hin h.2
    rw [if_neg hin, if_neg this]

/-- The fields `save_to_cache` does not touch. -/
theorem KVCacheAttention.save_to_cache_frame {α β : Type} (cvt : β → α) (a : KVCacheAttention α)
    (n_past qlen : Nat) (k v : Input β) :
    (a.save_to_cache cvt n_past qlen k v).shift_pending = a.shift_pending ∧
    (a.save_to_cache cvt n_past qlen k v).pos = a.pos ∧
    (a.save_to_cache cvt n_past qlen k v).k_hidden_size = a.k_hidden_size ∧
    (a.save_to_cache cvt n_past qlen k v).v_hidden_size = a.v_hidden_size ∧
    (a.save_to_cache cvt n_past qlen k v).cache_length = a.cache_length ∧
    (a.save_to_cache cvt n_past qlen k v).num_kv_heads = a.num_kv_heads ∧
    (a.save_to_cache cvt n_past qlen k v).k_cache.elsize = a.k_cache.elsize ∧
    (a.save_to_cache cvt n_past qlen k v).v_cache.elsize = a.v_cache.elsize := by
  unfold KVCacheAttention.save_to_cache
  split <;> exact ⟨rfl, rfl, rfl, rfl, rfl, rfl, rfl, rfl⟩

/-- The K cache after `save_to_cache`, cell by cell. -/
theorem KVCacheAttention.save_to_cache_k_data {α β : Type} (cvt : β → α)
    (a : KVCacheAttention α) (n_past qlen : Nat) (k v : Input β)
    (hwf : a.wf) (hfit : a.fits qlen k v) (hcap : n_past + qlen ≤ a.cache_length) :
    (a.save_to_cache cvt n_past qlen k v).k_cache.data.length = a.k_cache.data.length ∧
    ∀ j, (a.save_to_cache cvt n_past qlen k v).k_cache.data[j]?
      = if a.k_hidden_size * n_past ≤ j ∧ j < a.k_hidden_size * n_past + qlen * a.k_hidden_size
        then (k.data[j - a.k_hidden_size * n_past]?).map cvt else a.k_cache.data[j]? := by
  obtain ⟨hes, _, hklen, _⟩ := hwf
  obtain ⟨hk, _, _, hheads⟩ := hfit
  have e1 : (n_past + qlen) * a.k_hidden_size ≤ a.cache_length * a.k_hidden_size :=
    Nat.mul_le_mul_right _ hcap
  have e2 : (n_past + qlen) * a.k_hidden_size
      = a.k_hidden_size * n_past + qlen * a.k_hidden_size := by
    rw [Nat.add_mul, Nat.mul_comm n_past]
  have e3 : a.cache_length * a.k_hidden_size = a.k_hidden_size * a.cache_length :=
    Nat.mul_comm _ _
  have hb : a.k_hidden_size * n_past + qlen * a.k_hidden_size ≤ a.k_cache.data.length := by
    omega
  have hidx : ∀ i0, (ggml_view_1d a.k_cache (qlen * a.k_hidden_size)
      (a.k_cache.elsize * a.k_hidden_size * n_past)).index a.k_cache.elsize i0 0
        = a.k_hidden_size * n_past + i0 := by
    intro i0
    rw [Nat.mul_assoc]
    exact View.index_1d a.k_cache _ _ i0 hes
  unfold KVCacheAttention.save_to_cache
  by_cases hc : k.contiguous = true
  · simp only [hc, if_true]
    exact ggml_cpy_from_1d_spec cvt k a.k_cache _ (qlen * a.k_hidden_size)
      (a.k_hidden_size * n_past) rfl rfl hidx hb (Nat.le_of_eq hk.symm)
  · simp only [hc]
    have hh := hheads (by simpa using hc)
    have hne0 : (ggml_reshape_3d (ggml_view_1d a.k_cache (qlen * a.k_hidden_size)
        (a.k_cache.elsize * a.k_hidden_size * n_past))
        (a.k_hidden_size / a.num_kv_heads) a.num_kv_heads qlen).ne0
          = qlen * a.k_hidden_size := by
      show a.k_hidden_size / a.num_kv_heads * a.num_kv_heads * qlen = qlen * a.k_hidden_size
      rw [hh, Nat.mul_comm]
    exact ggml_cpy_from_1d_spec cvt k a.k_cache _ (qlen * a.k_hidden_size)
      (a.k_hidden_size * n_past) hne0 rfl hidx hb (Nat.le_of_eq hk.symm)

/-- The K cache after `save_to_cache`, entry by entry: positions
`n_past .. n_past + qlen - 1` hold the new rows, every other position keeps its
row. -/
theorem KVCacheAttention.save_to_cache_k_at {α β : Type} (cvt : β → α)
    (a : KVCacheAttention α) (n_past qlen : Nat) (k v : Input β)
    (hwf : a.wf) (hfit : a.fits qlen k v) (hcap : n_past + qlen ≤ a.cache_length)
    (i c : Nat) (hc : c < a.k_hidden_size) :
    (a.save_to_cache cvt n_past qlen k v).k_at i c
      = if n_past ≤ i ∧ i < n_past + qlen
        then (k.data[(i - n_past) * a.k_hidden_size + c]?).map cvt else a.k_at i c := by
  obtain ⟨_, hdata⟩ := KVCacheAttention.save_to_cache_k_data cvt a n_past qlen k v hwf hfit hcap
  have hkh := (KVCacheAttention.save_to_cache_frame cvt a n_past qlen k v).2.2.1
  unfold KVCacheAttention.k_at
  rw [hkh, hdata]
  have c1 : a.k_hidden_size * n_past = n_past * a.k_hidden_size := Nat.mul_comm _ _
  by_cases hin : n_past ≤ i ∧ i < n_past + qlen
  · have e1 : n_past * a.k_hidden_size ≤ i * a.k_hidden_size := Nat.mul_le_mul_right _ hin.1
    have e2 : (i + 1) * a.k_hidden_size ≤ (n_past + qlen) * a.k_hidden_size :=
      Nat.mul_le_mul_right _ hin.2
    have e3 : (i + 1) * a.k_hidden_size = i * a.k_hidden_size + a.k_hidden_size :=
      Nat.succ_mul _ _
    have e4 : (n_past + qlen) * a.k_hidden_size
        = n_past * a.k_hidden_size + qlen * a.k_hidden_size := Nat.add_mul _ _ _
    have e5 : (i - n_past) * a.k_hidden_size = i * a.k_hidden_size - n_past * a.k_hidden_size :=
      Nat.sub_mul _ _ _
    have h1 : a.k_hidden_size * n_past ≤ i * a.k_hidden_size + c ∧
        i * a.k_hidden_size + c < a.k_hidden_size * n_past + qlen * a.k_hidden_size := by omega
    have h2 : i * a.k_hidden_size + c - a.k_hidden_size * n_past
        = (i - n_past) * a.k_hidden_size + c := by omega
    rw [if_pos h1, if_pos hin, h2]
  · have h1 : ¬ (a.k_hidden_size * n_past ≤ i * a.k_hidden_size + c ∧
        i * a.k_hidden_size + c < a.k_hidden_size * n_past + qlen * a.k_hidden_size) := by
      rcases Nat.lt_or_ge i n_past with h | h
      · have e1 : (i + 1) * a.k_hidden_size ≤ n_past * a.k_hidden_size :=
          Nat.mul_le_mul_right _ h
        have e2 : (i + 1) * a.k_hidden_size = i * a.k_hidden_size + a.k_hidden_size :=
          Nat.succ_mul _ _
        omega
      · have h' : n_past + qlen ≤ i := by omega
        have e1 : (n_past + qlen) * a.k_hidden_size ≤ i * a.k_hidden_size :=
          Nat.mul_le_mul_right _ h'
        have e2 : (n_past + qlen) * a.k_hidden_size
            = n_past * a.k_hidden_size + qlen * a.k_hidden_size := Nat.add_mul _ _ _
        omega
    rw [if_neg h1, if_neg hin]

/-- The V cache after `save_to_cache` is the V cache after the first copy. -/
theorem KVCacheAttention.save_to_cache_v_cache {α β : Type} (cvt : β → α)
    (a : KVCacheAttention α) (n_past qlen : Nat) (k v : Input β) :
    (a.save_to_cache cvt n_past qlen k v).v_cache
      = ggml_cpy_from cvt (ggml_transpose v) a.v_cache
          (ggml_view_2d a.v_cache qlen a.v_hidden_size
            (a.cache_length * a.v_cache.elsize) (n_past * a.v_cache.elsize)) := by
  unfold KVCacheAttention.save_to_cache
  split <;> rfl

/-- The V cache after `save_to_cache`, entry by entry: in every row the columns
`n_past .. n_past + qlen - 1` hold the new values, every other column keeps its
value; the buffer keeps its length. -/
theorem KVCacheAttention.save_to_cache_v_at {α β : Type} (cvt : β → α)
    (a : KVCacheAttention α) (n_past qlen : Nat) (k v : Input β)
    (hwf : a.wf) (hfit : a.fits qlen k v) (hcap : n_past + qlen ≤ a.cache_length) :
    (a.save_to_cache cvt n_past qlen k v).v_cache.data.length = a.v_cache.data.length ∧
    ∀ c i, c < a.v_hidden_size → i < a.cache_length →
      (a.save_to_cache cvt n_past qlen k v).v_at c i
        = if n_past ≤ i ∧ i < n_past + qlen
          then (v.data[(i - n_past) * a.v_hidden_size + c]?).map cvt else a.v_at c i := by
  obtain ⟨_, hes, _, hvlen⟩ := hwf
  obtain ⟨_, hne0, hv, _⟩ := hfit
  have hsome : ∀ i0 c, i0 < qlen → c < a.v_hidden_size → (ggml_transpose v i0 c).isSome := by
    intro i0 c h0 hc
    have e1 : (i0 + 1) * a.v_hidden_size ≤ qlen * a.v_hidden_size := Nat.mul_le_mul_right _ h0
    have e2 : (i0 + 1) * a.v_hidden_size = i0 * a.v_hidden_size + a.v_hidden_size :=
      Nat.succ_mul _ _
    have hlt : i0 * v.ne0 + c < v.data.length := by rw [hne0]; omega
    simp [ggml_transpose, List.getElem?_eq_getElem hlt]
  obtain ⟨h1, h2⟩ := ggml_cpy_from_2d_spec cvt v a.v_cache qlen a.v_hidden_size a.cache_length
    n_past hes hcap (Nat.le_of_eq hvlen.symm) hsome
  have hlen := (KVCacheAttention.save_to_cache_frame cvt a n_past qlen k v).2.2.2.2.1
  rw [KVCacheAttention.save_to_cache_v_cache] at *
  refine ⟨h1, fun c i hc hi => ?_⟩
  unfold KVCacheAttention.v_at
  rw [KVCacheAttention.save_to_cache_v_cache, hlen, h2 c i hc hi]
  unfold ggml_transpose
  rw [hne0]

/-- `save_to_cache` keeps the caches well-formed. -/
theorem KVCacheAttention.save_to_cache_wf {α β : Type} (cvt : β → α)
    (a : KVCacheAttention α) (n_past qlen : Nat) (k v : Input β)
    (hwf : a.wf) (hfit : a.fits qlen k v) (hcap : n_past + qlen ≤ a.cache_length) :
    (a.save_to_cache cvt n_past qlen k v).wf := by
  obtain ⟨f1, f2, f3, f4, f5, f6, f7, f8⟩ :=
    KVCacheAttention.save_to_cache_frame cvt a n_past qlen k v
  obtain ⟨hk, _⟩ := KVCacheAttention.save_to_cache_k_data cvt a n_past qlen k v hwf hfit hcap
  obtain ⟨hv, _⟩ := KVCacheAttention.save_to_cache_v_at cvt a n_past qlen k v hwf hfit hcap
  obtain ⟨w1, w2, w3, w4⟩ := hwf
  unfold KVCacheAttention.wf
  rw [f3, f4, f5, f7, f8, hk, hv]
  exact ⟨w1, w2, w3, w4⟩

/-- Two buffers of `rows * len` cells are equal when they agree cell by cell. -/
theorem data_ext_2d {α : Type} (l1 l2 : List α) (rows len : Nat)
    (h1 : l1.length = rows * len) (h2 : l2.length = rows * len)
    (h : ∀ c i, c < rows → i < len → l1[c * len + i]? = l2[c * len + i]?) : l1 = l2 := by
  apply List.ext_getElem?
  intro n
  by_cases hn : n < rows * len
  · have hlen : 0 < len := by
      rcases Nat.eq_zero_or_pos len with h0 | h0
      · rw [h0, Nat.mul_zero] at hn; omega
      · exact h0
    have hc : n / len < rows := by
      apply Nat.div_lt_of_lt_mul
      rwa [Nat.mul_comm]
    have hi : n % len < len := Nat.mod_lt n hlen
    have hdec : n / len * len + n % len = n := Nat.div_add_mod' n len
    have := h (n / len) (n % len) hc hi
    rwa [hdec] at this
  · rw [List.getElem?_eq_none (by omega), List.getElem?_eq_none (by omega)]

/-- C11: `save_to_cache(n_past, qlen, k, v)` with `n_past + qlen <= cache_length`
updates the cache exactly over the positions `[n_past, n_past + qlen)`: position
`n_past + t` holds the `t`-th new key row and, transposed, the `t`-th new value
column (as `ggml_cpy` stores them); every K and V entry at a position outside
that range is unchanged; and `get_k_from_cache` / `get_v_from_cache` then expose
exactly the first `n_past + qlen` positions of the caches. -/
theorem save_to_cache_updates_range {α β : Type} (cvt : β → α) (a : KVCacheAttention α)
    (n_past qlen : Nat) (k v : Input β)
    (hwf : a.wf) (hfit : a.fits qlen k v) (hcap : n_past + qlen ≤ a.cache_length)
    (hheads : a.k_hidden_size / a.num_kv_heads * a.num_kv_heads = a.k_hidden_size) :
    (∀ t c, t < qlen → c < a.k_hidden_size →
      ∃ x, k.data[t * a.k_hidden_size + c]? = some x ∧
        (a.save_to_cache cvt n_past qlen k v).k_at (n_past + t) c = some (cvt x)) ∧
    (∀ t c, t < qlen → c < a.v_hidden_size →
      ∃ x, v.data[t * a.v_hidden_size + c]? = some x ∧
        (a.save_to_cache cvt n_past qlen k v).v_at c (n_past + t) = some (cvt x)) ∧
    (∀ i c, i < a.cache_length → c < a.k_hidden_size → (i < n_past ∨ n_past + qlen ≤ i) →
      (a.save_to_cache cvt n_past qlen k v).k_at i c = a.k_at i c) ∧
    (∀ i c, i < a.cache_length → c < a.v_hidden_size → (i < n_past ∨ n_past + qlen ≤ i) →
      (a.save_to_cache cvt n_past qlen k v).v_at c i = a.v_at c i) ∧
    ((a.save_to_cache cvt n_past qlen k v).get_k_from_cache n_past qlen).ne1 = n_past + qlen ∧
    ((a.save_to_cache cvt n_past qlen k v).get_v_from_cache n_past qlen).ne0 = n_past + qlen ∧
    (∀ d pos h, d < a.k_hidden_size / a.num_kv_heads → h < a.num_kv_heads →
      pos < n_past + qlen →
      (a.save_to_cache cvt n_past qlen k v).k_cache.data[
          ((a.save_to_cache cvt n_past qlen k v).get_k_from_cache n_past qlen).cell d pos h]?
        = (a.save_to_cache cvt n_past qlen k v).k_at pos
            (h * (a.k_hidden_size / a.num_kv_heads) + d)) ∧
    (∀ i d h, i < n_past + qlen → d < a.v_hidden_size / a.num_kv_heads → h < a.num_kv_heads →
      (a.save_to_cache cvt n_past qlen k v).v_cache.data[
          ((a.save_to_cache cvt n_past qlen k v).get_v_from_cache n_past qlen).cell i d h]?
        = (a.save_to_cache cvt n_past qlen k v).v_at
            (h * (a.v_hidden_size / a.num_kv_heads) + d) i) := by
  obtain ⟨f1, f2, f3, f4, f5, f6, f7, f8⟩ :=
    KVCacheAttention.save_to_cache_frame cvt a n_past qlen k v
  have hkat := KVCacheAttention.save_to_cache_k_at cvt a n_past qlen k v hwf hfit hcap
  obtain ⟨_, hvat⟩ := KVCacheAttention.save_to_cache_v_at cvt a n_past qlen k v hwf hfit hcap
  obtain ⟨hklen, hne0, hvlen, _⟩ := hfit
  refine ⟨?_, ?_, ?_, ?_, rfl, rfl, ?_, ?_⟩
  · intro t c ht hc
    have e1 : (t + 1) * a.k_hidden_size ≤ qlen * a.k_hidden_size := Nat.mul_le_mul_right _ ht
    have e2 : (t + 1) * a.k_hidden_size = t * a.k_hidden_size + a.k_hidden_size :=
      Nat.succ_mul _ _
    have hlt : t * a.k_hidden_size + c < k.data.length := by omega
    refine ⟨k.data[t * a.k_hidden_size + c], List.getElem?_eq_getElem hlt, ?_⟩
    have hin : n_past ≤ n_past + t ∧ n_past + t < n_past + qlen := by omega
    have hsub : n_past + t - n_past = t := by omega
    rw [hkat (n_past + t) c hc, if_pos hin, hsub, List.getElem?_eq_getElem hlt]
    rfl
  · intro t c ht hc
    have e1 : (t + 1) * a.v_hidden_size ≤ qlen * a.v_hidden_size := Nat.mul_le_mul_right _ ht
    have e2 : (t + 1) * a.v_hidden_size = t * a.v_hidden_size + a.v_hidden_size :=
      Nat.succ_mul _ _
    have hlt : t * a.v_hidden_size + c < v.data.length := by omega
    refine ⟨v.data[t * a.v_hidden_size + c], List.getElem?_eq_getElem hlt, ?_⟩
    have hin : n_past ≤ n_past + t ∧ n_past + t < n_past + qlen := by omega
    have hsub : n_past + t - n_past = t := by omega
    rw [hvat c (n_past + t) hc (by omega), if_pos hin, hsub, List.getElem?_eq_getElem hlt]
    rfl
  · intro i c _ hc hout
    have hnot : ¬ (n_past ≤ i ∧ i < n_past + qlen) := by omega
    rw [hkat i c hc, if_neg hnot]
  · intro i c hi hc hout
    have hnot : ¬ (n_past ≤ i ∧ i < n_past + qlen) := by omega
    rw [hvat c i hc hi, if_neg hnot]
  · intro d pos h _ _ _
    unfold KVCacheAttention.k_at KVCacheAttention.get_k_from_cache
    simp only [f3, f6]
    rw [hheads]
    congr 1
    omega
  · intro i d h _ _ _
    obtain ⟨_, hes, _, _⟩ := hwf
    unfold KVCacheAttention.v_at KVCacheAttention.get_v_from_cache
    simp only [f4, f5, f6, f8]
    congr 1
    have e : 0 + h * (a.cache_length * a.v_cache.elsize * (a.v_hidden_size / a.num_kv_heads))
        + d * (a.cache_length * a.v_cache.elsize) + i * a.v_cache.elsize
        = a.v_cache.elsize
          * ((h * (a.v_hidden_size / a.num_kv_heads) + d) * a.cache_length + i) := by ring
    rw [e]
    exact Nat.mul_div_cancel_left _ hes

/-- Witness for C11: two new tokens written at `n_past = 1` into the
four-position cache, with a non-contiguous `k`. -/
theorem save_to_cache_updates_range_witness :
    (demoLayer { shift := 0, total := 0 }).wf ∧
    (demoLayer { shift := 0, total := 0 }).fits 2 (demoKeys 2 false) (demoValues 2) ∧
    (∀ t c, t < 2 → c < (demoLayer { shift := 0, total := 0 }).k_hidden_size →
      ∃ x, (demoKeys 2 false).data[t * (demoLayer { shift := 0, total := 0 }).k_hidden_size + c]?
          = some x ∧
        ((demoLayer { shift := 0, total := 0 }).save_to_cache id 1 2
          (demoKeys 2 false) (demoValues 2)).k_at (1 + t) c = some (id x)) :=
  ⟨by decide, by decide,
   (save_to_cache_updates_range id (demoLayer { shift := 0, total := 0 }) 1 2
     (demoKeys 2 false) (demoValues 2) (by decide) (by decide) (by decide) (by decide)).1⟩

/-- Writing `n1 + n2` tokens at `n_past` in one call leaves the same caches as
writing the first `n1` at `n_past` and then the other `n2` at `n_past + n1`. -/
theorem KVCacheAttention.save_to_cache_split {α β : Type} (cvt : β → α)
    (a : KVCacheAttention α) (n_past n1 n2 : Nat) (k k1 k2 v v1 v2 : Input β)
    (hwf : a.wf) (hfit : a.fits (n1 + n2) k v)
    (hfit1 : a.fits n1 k1 v1) (hfit2 : a.fits n2 k2 v2)
    (hk : k.data = k1.data ++ k2.data) (hv : v.data = v1.data ++ v2.data)
    (hcap : n_past + (n1 + n2) ≤ a.cache_length) :
    (a.save_to_cache cvt n_past (n1 + n2) k v).k_cache
      = ((a.save_to_cache cvt n_past n1 k1 v1).save_to_cache cvt (n_past + n1) n2 k2 v2).k_cache ∧
    (a.save_to_cache cvt n_past (n1 + n2) k v).v_cache
      = ((a.save_to_cache cvt n_past n1 k1 v1).save_to_cache cvt (n_past + n1) n2 k2 v2).v_cache := by
  have hcap1 : n_past + n1 ≤ a.cache_length := by omega
  obtain ⟨g1, g2, g3, g4, g5, g6, g7, g8⟩ :=
    KVCacheAttention.save_to_cache_frame cvt a n_past n1 k1 v1
  have hwf1 := KVCacheAttention.save_to_cache_wf cvt a n_past n1 k1 v1 hwf hfit1 hcap1
  have hfit2' : (a.save_to_cache cvt n_past n1 k1 v1).fits n2 k2 v2 := by
    unfold KVCacheAttention.fits
    rw [g3, g4, g6]
    exact hfit2
  have hcap2 : (n_past + n1) + n2 ≤ (a.save_to_cache cvt n_past n1 k1 v1).cache_length := by
    rw [g5]; omega
  generalize hA : a.save_to_cache cvt n_past (n1 + n2) k v = A
  generalize hB1 : a.save_to_cache cvt n_past n1 k1 v1 = B1 at *
  generalize hB : B1.save_to_cache cvt (n_past + n1) n2 k2 v2 = B
  obtain ⟨a1, a2, a3, a4, a5, a6, a7, a8⟩ :=
    KVCacheAttention.save_to_cache_frame cvt a n_past (n1 + n2) k v
  obtain ⟨b1, b2, b3, b4, b5, b6, b7, b8⟩ :=
    KVCacheAttention.save_to_cache_frame cvt B1 (n_past + n1) n2 k2 v2
  have hAwf := KVCacheAttention.save_to_cache_wf cvt a n_past (n1 + n2) k v hwf hfit hcap
  have hBwf := KVCacheAttention.save_to_cache_wf cvt B1 (n_past + n1) n2 k2 v2 hwf1 hfit2' hcap2
  have kA := KVCacheAttention.save_to_cache_k_at cvt a n_past (n1 + n2) k v hwf hfit hcap
  have kB1 := KVCacheAttention.save_to_cache_k_at cvt a n_past n1 k1 v1 hwf hfit1 hcap1
  have kB := KVCacheAttention.save_to_cache_k_at cvt B1 (n_past + n1) n2 k2 v2 hwf1 hfit2' hcap2
  obtain ⟨_, vA⟩ := KVCacheAttention.save_to_cache_v_at cvt a n_past (n1 + n2) k v hwf hfit hcap
  obtain ⟨_, vB1⟩ := KVCacheAttention.save_to_cache_v_at cvt a n_past n1 k1 v1 hwf hfit1 hcap1
  obtain ⟨_, vB⟩ :=
    KVCacheAttention.save_to_cache_v_at cvt B1 (n_past + n1) n2 k2 v2 hwf1 hfit2' hcap2
  rw [hA] at a3 a4 a5 a7 a8 hAwf kA vA
  rw [hB1] at kB1 vB1
  rw [hB] at b3 b4 b5 b7 b8 hBwf kB vB
  obtain ⟨_, _, hAk, hAv⟩ := hAwf
  obtain ⟨_, _, hBk, hBv⟩ := hBwf
  obtain ⟨hk1len, _, hv1len, _⟩ := hfit1
  have tensor_ext : ∀ (s t : Tensor α), s.data = t.data → s.elsize = t.elsize → s = t := by
    intro s t h1 h2
    cases s; cases t; simp only at h1 h2; rw [h1, h2]
  constructor
  · apply tensor_ext _ _ _ (by rw [a7, b7, g7])
    apply data_ext_2d _ _ a.cache_length a.k_hidden_size
    · rw [hAk, a3, a5, Nat.mul_comm]
    · rw [hBk, b3, b5, g3, g5, Nat.mul_comm]
    intro i c hi hc
    have lA := kA i c hc
    have lB := kB i c (by rw [g3]; exact hc)
    have lB1 := kB1 i c hc
    unfold KVCacheAttention.k_at at lA lB lB1
    rw [a3] at lA
    rw [b3, g3] at lB
    rw [g3] at lB1
    rw [lA, lB, lB1, hk, List.getElem?_append]
    by_cases h1 : n_past ≤ i ∧ i < n_past + n1
    · have e1 : (i - n_past + 1) * a.k_hidden_size ≤ n1 * a.k_hidden_size :=
        Nat.mul_le_mul_right _ (by omega)
      have e2 : (i - n_past + 1) * a.k_hidden_size
          = (i - n_past) * a.k_hidden_size + a.k_hidden_size := Nat.succ_mul _ _
      have h2 : n_past ≤ i ∧ i < n_past + (n1 + n2) := by omega
      have h3 : ¬ (n_past + n1 ≤ i ∧ i < n_past + n1 + n2) := by omega
      have h4 : (i - n_past) * a.k_hidden_size + c < k1.data.length := by omega
      rw [if_pos h2, if_neg h3, if_pos h1, if_pos h4]
    · by_cases h2 : n_past + n1 ≤ i ∧ i < n_past + n1 + n2
      · have e1 : n1 * a.k_hidden_size ≤ (i - n_past) * a.k_hidden_size :=
          Nat.mul_le_mul_right _ (by omega)
        have e2 : (i - n_past - n1) * a.k_hidden_size
            = (i - n_past) * a.k_hidden_size - n1 * a.k_hidden_size := Nat.sub_mul _ _ _
        have e3 : i - (n_past + n1) = i - n_past - n1 := by omega
        have h3 : n_past ≤ i ∧ i < n_past + (n1 + n2) := by omega
        have h4 : ¬ ((i - n_past) * a.k_hidden_size + c < k1.data.length) := by omega
        have h5 : (i - n_past) * a.k_hidden_size + c - k1.data.length
            = (i - (n_past + n1)) * a.k_hidden_size + c := by rw [e3]; omega
        rw [if_pos h3, if_pos h2, if_neg h4, h5]
      · have h3 : ¬ (n_past ≤ i ∧ i < n_past + (n1 + n2)) := by omega
        rw [if_neg h3, if_neg h2, if_neg h1]
  · apply tensor_ext _ _ _ (by rw [a8, b8, g8])
    apply data_ext_2d _ _ a.v_hidden_size a.cache_length
    · rw [hAv, a4, a5]
    · rw [hBv, b4, b5, g4, g5]
    intro c i hc hi
    have lA := vA c i hc hi
    have lB := vB c i (by rw [g4]; exact hc) (by rw [g5]; exact hi)
    have lB1 := vB1 c i hc hi
    unfold KVCacheAttention.v_at at lA lB lB1
    rw [a5] at lA
    rw [b5, g5, g4] at lB
    rw [g5] at lB1
    rw [lA, lB, lB1, hv, List.getElem?_append]
    by_cases h1 : n_past ≤ i ∧ i < n_past + n1
    · have e1 : (i - n_past + 1) * a.v_hidden_size ≤ n1 * a.v_hidden_size :=
        Nat.mul_le_mul_right _ (by omega)
      have e2 : (i - n_past + 1) * a.v_hidden_size
          = (i - n_past) * a.v_hidden_size + a.v_hidden_size := Nat.succ_mul _ _
      have h2 : n_past ≤ i ∧ i < n_past + (n1 + n2) := by omega
      have h3 : ¬ (n_past + n1 ≤ i ∧ i < n_past + n1 + n2) := by omega
      have h4 : (i - n_past) * a.v_hidden_size + c < v1.data.length := by omega
      rw [if_pos h2, if_neg h3, if_pos h1, if_pos h4]
    · by_cases h2 : n_past + n1 ≤ i ∧ i < n_past + n1 + n2
      · have e1 : n1 * a.v_hidden_size ≤ (i - n_past) * a.v_hidden_size :=
          Nat.mul_le_mul_right _ (by omega)
        have e2 : (i - n_past - n1) * a.v_hidden_size
            = (i - n_past) * a.v_hidden_size - n1 * a.v_hidden_size := Nat.sub_mul _ _ _
        have e3 : i - (n_past + n1) = i - n_past - n1 := by omega
        have h3 : n_past ≤ i ∧ i < n_past + (n1 + n2) := by omega
        have h4 : ¬ ((i - n_past) * a.v_hidden_size + c < v1.data.length) := by omega
        have h5 : (i - n_past) * a.v_hidden_size + c - v1.data.length
            = (i - (n_past + n1)) * a.v_hidden_size + c := by rw [e3]; omega
        rw [if_pos h3, if_pos h2, if_neg h4, h5]
      · have h3 : ¬ (n_past ≤ i ∧ i < n_past + (n1 + n2)) := by omega
        rw [if_neg h3, if_neg h2, if_neg h1]

/-- The positions of a batch of `n1 + n2` tokens are those of its two parts. -/
theorem fill_pos_vector_split (n_past : Int) (n1 n2 : Nat) :
    fill_pos_vector n_past ((n1 + n2 : Nat) : Int)
      = fill_pos_vector n_past (n1 : Int) ++ fill_pos_vector (n_past + (n1 : Int)) (n2 : Int) := by
  unfold fill_pos_vector
  rw [Int.toNat_ofNat, Int.toNat_ofNat, Int.toNat_ofNat, List.range_add, List.map_append,
    List.map_map]
  congr 1
  apply List.map_congr_left
  intro i _
  simp only [Function.comp]
  push_cast
  omega

/-- The positions of token-by-token processing are those of one batch. -/
theorem fill_pos_vector_each_eq (n_past : Int) (n : Nat) :
    fill_pos_vector_each n_past n = fill_pos_vector n_past (n : Int) := by
  induction n with
  | zero => rfl
  | succ n ih =>
    have h1 : fill_pos_vector_each n_past (n + 1)
        = fill_pos_vector_each n_past n ++ fill_pos_vector (n_past + (n : Int)) 1 := by
      unfold fill_pos_vector_each
      rw [List.range_succ, List.map_append, List.flatten_append]
      simp
    rw [h1, ih]
    exact (fill_pos_vector_split n_past n 1).symm

/-- A call of `save_to_cache` with `qlen = 0` leaves both caches as they are. -/
theorem KVCacheAttention.save_to_cache_zero {α β : Type} (cvt : β → α)
    (a : KVCacheAttention α) (n_past : Nat) (k v : Input β)
    (hwf : a.wf) (hfit : a.fits 0 k v) (hcap : n_past ≤ a.cache_length) :
    (a.save_to_cache cvt n_past 0 k v).k_cache = a.k_cache ∧
    (a.save_to_cache cvt n_past 0 k v).v_cache = a.v_cache := by
  obtain ⟨f1, f2, f3, f4, f5, f6, f7, f8⟩ :=
    KVCacheAttention.save_to_cache_frame cvt a n_past 0 k v
  have hwf0 := KVCacheAttention.save_to_cache_wf cvt a n_past 0 k v hwf hfit (by omega)
  have kA := KVCacheAttention.save_to_cache_k_at cvt a n_past 0 k v hwf hfit (by omega)
  obtain ⟨_, vA⟩ := KVCacheAttention.save_to_cache_v_at cvt a n_past 0 k v hwf hfit (by omega)
  generalize a.save_to_cache cvt n_past 0 k v = A at *
  obtain ⟨_, _, hAk, hAv⟩ := hwf0
  obtain ⟨_, _, hk, hv⟩ := hwf
  have tensor_ext : ∀ (s t : Tensor α), s.data = t.data → s.elsize = t.elsize → s = t := by
    intro s t h1 h2
    cases s; cases t; simp only at h1 h2; rw [h1, h2]
  constructor
  · apply tensor_ext _ _ _ f7
    apply data_ext_2d _ _ a.cache_length a.k_hidden_size
    · rw [hAk, f3, f5, Nat.mul_comm]
    · rw [hk, Nat.mul_comm]
    intro i c _ hc
    have l := kA i c hc
    unfold KVCacheAttention.k_at at l
    rw [f3] at l
    have hnot : ¬ (n_past ≤ i ∧ i < n_past + 0) := by omega
    rw [l, if_neg hnot]
  · apply tensor_ext _ _ _ f8
    apply data_ext_2d _ _ a.v_hidden_size a.cache_length
    · rw [hAv, f4, f5]
    · rw [hv]
    intro c i hc hi
    have l := vA c i hc hi
    unfold KVCacheAttention.v_at at l
    rw [f5] at l
    have hnot : ¬ (n_past ≤ i ∧ i < n_past + 0) := by omega
    rw [l, if_neg hnot]

/-- Token-by-token processing leaves the same caches as one batch holding the
same rows. -/
theorem KVCacheAttention.save_each_eq_batch {α β : Type} (cvt : β → α) :
    ∀ (rows : List (Input β × Input β)) (a : KVCacheAttention α) (n_past : Nat) (k v : Input β),
      a.wf → a.fits rows.length k v → (∀ r, r ∈ rows → a.fits 1 r.1 r.2) →
      k.data = (rows.map (fun r => r.1.data)).flatten →
      v.data = (rows.map (fun r => r.2.data)).flatten →
      n_past + rows.length ≤ a.cache_length →
      (a.save_to_cache cvt n_past rows.length k v).k_cache
        = (a.save_each cvt n_past rows).k_cache ∧
      (a.save_to_cache cvt n_past rows.length k v).v_cache
        = (a.save_each cvt n_past rows).v_cache := by
  intro rows
  induction rows with
  | nil =>
    intro a n_past k v hwf hfit _ _ _ hcap
    exact KVCacheAttention.save_to_cache_zero cvt a n_past k v hwf hfit (by simpa using hcap)
  | cons r rest ih =>
    intro a n_past k v hwf hfit hrows hk hv hcap
    have hr := hrows r (List.mem_cons_self r rest)
    have hlen : (r :: rest).length = 1 + rest.length := by
      rw [List.length_cons, Nat.add_comm]
    rw [hlen] at hfit hcap ⊢
    rw [List.map_cons, List.flatten_cons] at hk hv
    obtain ⟨hk0, hne0, hv0, hdiv⟩ := hfit
    obtain ⟨hk1, _, hv1, _⟩ := hr
    have e1 : (1 + rest.length) * a.k_hidden_size
        = 1 * a.k_hidden_size + rest.length * a.k_hidden_size := Nat.add_mul _ _ _
    have e2 : (1 + rest.length) * a.v_hidden_size
        = 1 * a.v_hidden_size + rest.length * a.v_hidden_size := Nat.add_mul _ _ _
    have hfit2 : a.fits rest.length
        ({ data := (rest.map (fun r => r.1.data)).flatten, ne0 := k.ne0,
           contiguous := k.contiguous } : Input β)
        ({ data := (rest.map (fun r => r.2.data)).flatten, ne0 := v.ne0,
           contiguous := v.contiguous } : Input β) := by
      refine ⟨?_, hne0, ?_, hdiv⟩
      · have h := congrArg List.length hk
        rw [List.length_append] at h
        show ((rest.map (fun r => r.1.data)).flatten).length = _
        omega
      · have h := congrArg List.length hv
        rw [List.length_append] at h
        show ((rest.map (fun r => r.2.data)).flatten).length = _
        omega
    obtain ⟨s1, s2⟩ := KVCacheAttention.save_to_cache_split cvt a n_past 1 rest.length k r.1 _
      v r.2 _ hwf ⟨hk0, hne0, hv0, hdiv⟩ (hrows r (List.mem_cons_self r rest)) hfit2 hk hv hcap
    obtain ⟨g1, g2, g3, g4, g5, g6, g7, g8⟩ :=
      KVCacheAttention.save_to_cache_frame cvt a n_past 1 r.1 r.2
    have hwf1 := KVCacheAttention.save_to_cache_wf cvt a n_past 1 r.1 r.2 hwf
      (hrows r (List.mem_cons_self r rest)) (by omega)
    have transfer : ∀ (q : Nat) (x y : Input β), a.fits q x y →
        (a.save_to_cache cvt n_past 1 r.1 r.2).fits q x y := by
      intro q x y h
      unfold KVCacheAttention.fits
      rw [g3, g4, g6]
      exact h
    obtain ⟨i1, i2⟩ := ih (a.save_to_cache cvt n_past 1 r.1 r.2) (n_past + 1) _ _ hwf1
      (transfer _ _ _ hfit2)
      (fun r2 h2 => transfer _ _ _ (hrows r2 (List.mem_cons_of_mem r h2))) rfl rfl
      (by rw [g5]; omega)
    rw [s1, s2, i1, i2]
    exact ⟨rfl, rfl⟩

/-- After a compaction the caches are still well-formed and the sizes and the
position vector are as `before_forward` sets them. -/
theorem KVCacheAttention.before_forward_pending_wf {α : Type} (a : KVCacheAttention α)
    (n_past qlen : Int) (shift total : Nat) (hwf : a.wf)
    (hsp : a.shift_pending = { shift := shift, total := total })
    (hshift : 0 < shift) (hremain : shift < total) (htotal : total ≤ a.cache_length) :
    (a.before_forward n_past qlen).wf ∧
    (a.before_forward n_past qlen).k_hidden_size = a.k_hidden_size ∧
    (a.before_forward n_past qlen).v_hidden_size = a.v_hidden_size ∧
    (a.before_forward n_past qlen).cache_length = a.cache_length ∧
    (a.before_forward n_past qlen).num_kv_heads = a.num_kv_heads ∧
    (a.before_forward n_past qlen).pos = fill_pos_vector n_past qlen ∧
    (a.before_forward n_past qlen).shift_pending.shift = 0 := by
  obtain ⟨hes, hev, hklen, hvlen⟩ := hwf
  have e1 : (total - shift) * a.k_hidden_size + a.k_hidden_size * shift
      = total * a.k_hidden_size := by
    rw [Nat.mul_comm a.k_hidden_size shift, ← Nat.add_mul]
    congr 1; omega
  have e2 : total * a.k_hidden_size ≤ a.k_hidden_size * a.cache_length := by
    rw [Nat.mul_comm a.k_hidden_size]; exact Nat.mul_le_mul_right _ htotal
  have hb : a.k_hidden_size * shift + (total - shift) * a.k_hidden_size
      ≤ a.k_cache.data.length := by omega
  obtain ⟨hk, _⟩ := ggml_cpy_1d_spec a.k_cache ((total - shift) * a.k_hidden_size)
    (a.k_hidden_size * shift) hes hb
  obtain ⟨hv, _, _⟩ := ggml_cpy_2d_spec a.v_cache (total - shift) a.v_hidden_size
    a.cache_length shift hev (by omega) (Nat.le_of_eq hvlen.symm)
  rw [KVCacheAttention.before_forward_pending a n_past qlen shift total hsp hshift hremain]
  refine ⟨⟨hes, hev, ?_, ?_⟩, rfl, rfl, rfl, rfl, rfl, rfl⟩
  · show (ggml_cpy a.k_cache _ _).data.length = _
    rw [hk, hklen]
  · show (ggml_cpy a.v_cache _ _).data.length = _
    rw [hv, hvlen]

/-- With no shift pending `before_forward` only fills the position vector. -/
theorem KVCacheAttention.before_forward_idle {α : Type} (a : KVCacheAttention α)
    (n_past qlen : Int) (h : ¬ (a.shift_pending.shift > 0)) :
    a.before_forward n_past qlen = { a with pos := fill_pos_vector n_past qlen } := by
  simp only [KVCacheAttention.before_forward, CoreAttention.before_forward]
  rw [if_neg h]

/-- The entries of the position vector. -/
theorem fill_pos_vector_getElem (n_past : Int) (qlen t : Nat) (ht : t < qlen) :
    (fill_pos_vector n_past (qlen : Int)).length = qlen ∧
    (fill_pos_vector n_past (qlen : Int))[t]? = some (n_past + (t : Int)) := by
  unfold fill_pos_vector
  rw [Int.toNat_ofNat]
  refine ⟨by simp, ?_⟩
  rw [List.getElem?_map, List.getElem?_range ht]
  rfl

/-- C12: batching invariance of the cache.  For every `n_past` and every split
`N = n1 + n2` with `n_past + N <= cache_length`, writing the `N` tokens as one
batch yields the same position vector and the same K and V caches as writing the
first `n1` tokens at `n_past` and then the other `n2` at `n_past + n1`; and
token-by-token processing (`qlen = 1` for each token) equals the one batch. -/
theorem cache_batching_invariance {α β : Type} (cvt : β → α) (a : KVCacheAttention α)
    (n_past n1 n2 : Nat) (k k1 k2 v v1 v2 : Input β)
    (hwf : a.wf) (hfit : a.fits (n1 + n2) k v)
    (hfit1 : a.fits n1 k1 v1) (hfit2 : a.fits n2 k2 v2)
    (hk : k.data = k1.data ++ k2.data) (hv : v.data = v1.data ++ v2.data)
    (hcap : n_past + (n1 + n2) ≤ a.cache_length) :
    fill_pos_vector (n_past : Int) ((n1 + n2 : Nat) : Int)
      = fill_pos_vector (n_past : Int) (n1 : Int)
        ++ fill_pos_vector ((n_past : Int) + (n1 : Int)) (n2 : Int) ∧
    (a.save_to_cache cvt n_past (n1 + n2) k v).k_cache
      = ((a.save_to_cache cvt n_past n1 k1 v1).save_to_cache cvt (n_past + n1) n2 k2 v2).k_cache ∧
    (a.save_to_cache cvt n_past (n1 + n2) k v).v_cache
      = ((a.save_to_cache cvt n_past n1 k1 v1).save_to_cache cvt (n_past + n1) n2 k2 v2).v_cache ∧
    (∀ rows : List (Input β × Input β), rows.length = n1 + n2 →
      (∀ r, r ∈ rows → a.fits 1 r.1 r.2) →
      k.data = (rows.map (fun r => r.1.data)).flatten →
      v.data = (rows.map (fun r => r.2.data)).flatten →
      fill_pos_vector_each (n_past : Int) (n1 + n2)
        = fill_pos_vector (n_past : Int) ((n1 + n2 : Nat) : Int) ∧
      (a.save_each cvt n_past rows).k_cache
        = (a.save_to_cache cvt n_past (n1 + n2) k v).k_cache ∧
      (a.save_each cvt n_past rows).v_cache
        = (a.save_to_cache cvt n_past (n1 + n2) k v).v_cache) := by
  obtain ⟨s1, s2⟩ := KVCacheAttention.save_to_cache_split cvt a n_past n1 n2 k k1 k2 v v1 v2
    hwf hfit hfit1 hfit2 hk hv hcap
  refine ⟨fill_pos_vector_split n_past n1 n2, s1, s2, ?_⟩
  intro rows hlen hrows hkr hvr
  obtain ⟨b1, b2⟩ := KVCacheAttention.save_each_eq_batch cvt rows a n_past k v hwf
    (by rw [hlen]; exact hfit) hrows hkr hvr (by rw [hlen]; exact hcap)
  rw [hlen] at b1 b2
  exact ⟨fill_pos_vector_each_eq n_past (n1 + n2), b1.symm, b2.symm⟩

/-- Witness for C12: two tokens written at `n_past = 1` into the four-position
cache, as one batch and as two batches of one token. -/
theorem cache_batching_invariance_witness :
    (demoLayer { shift := 0, total := 0 }).wf ∧
    (demoLayer { shift := 0, total := 0 }).fits (1 + 1) (demoKeys 2 true) (demoValues 2) ∧
    ((demoLayer { shift := 0, total := 0 }).save_to_cache id 1 (1 + 1)
        (demoKeys 2 true) (demoValues 2)).k_cache
      = (((demoLayer { shift := 0, total := 0 }).save_to_cache id 1 1
          { data := [1000, 1001], ne0 := 2, contiguous := true }
          { data := [2000, 2001], ne0 := 2, contiguous := true }).save_to_cache id (1 + 1) 1
          { data := [1010, 1011], ne0 := 2, contiguous := true }
          { data := [2010, 2011], ne0 := 2, contiguous := true }).k_cache :=
  ⟨by decide, by decide,
   (cache_batching_invariance id (demoLayer { shift := 0, total := 0 }) 1 1 1
     (demoKeys 2 true) { data := [1000, 1001], ne0 := 2, contiguous := true }
     { data := [1010, 1011], ne0 := 2, contiguous := true }
     (demoValues 2) { data := [2000, 2001], ne0 := 2, contiguous := true }
     { data := [2010, 2011], ne0 := 2, contiguous := true }
     (by decide) (by decide) (by decide) (by decide) (by decide) (by decide) (by decide)).2.1⟩

/-- C20: shift-then-write ordering.  If a Shift left
`ShiftPending = {excess, n_past_old}` with `0 < excess < n_past_old <=
cache_length` and the next forward pass is called with `n_past = n_past_old -
excess` and `n_past + qlen <= cache_length`, then the compaction happens before
the write: afterwards the positions `[0, n_past)` hold the retained tail (the old
entries of positions `excess .. n_past_old - 1`), the `qlen` new K/V entries
follow at `[n_past, n_past + qlen)` with no gap and without overwriting a
retained entry, the descriptor is cleared, and the position vector continues at
`n_past`. -/
theorem shift_then_write {α β : Type} (cvt : β → α) (a : KVCacheAttention α)
    (excess n_past_old qlen : Nat) (k v : Input β)
    (hwf : a.wf) (hfit : a.fits qlen k v)
    (hsp : a.shift_pending = { shift := (excess : Int), total := (n_past_old : Int) })
    (hexcess : 0 < excess) (hold : excess < n_past_old) (hcapold : n_past_old ≤ a.cache_length)
    (hcap : (n_past_old - excess) + qlen ≤ a.cache_length) :
    ∃ a', BaseAttention.forward cvt a (n_past_old - excess) qlen k v = Except.ok a' ∧
      ¬ (a'.shift_pending.shift > 0) ∧
      a'.pos.length = qlen ∧
      (∀ t, t < qlen → a'.pos[t]? = some (((n_past_old - excess : Nat) : Int) + (t : Int))) ∧
      (∀ i c, i < n_past_old - excess → c < a.k_hidden_size →
        ∃ x, a'.k_at i c = some x ∧ a.k_at (i + excess) c = some x) ∧
      (∀ i c, i < n_past_old - excess → c < a.v_hidden_size →
        ∃ x, a'.v_at c i = some x ∧ a.v_at c (i + excess) = some x) ∧
      (∀ t c, t < qlen → c < a.k_hidden_size →
        ∃ x, k.data[t * a.k_hidden_size + c]? = some x ∧
          a'.k_at (n_past_old - excess + t) c = some (cvt x)) ∧
      (∀ t c, t < qlen → c < a.v_hidden_size →
        ∃ x, v.data[t * a.v_hidden_size + c]? = some x ∧
          a'.v_at c (n_past_old - excess + t) = some (cvt x)) := by
  refine ⟨_, rfl, ?_⟩
  obtain ⟨hbwf, e1, e2, e3, e4, hpos, hclr⟩ :=
    KVCacheAttention.before_forward_pending_wf a ((n_past_old - excess : Nat) : Int) (qlen : Int)
      excess n_past_old hwf hsp hexcess hold hcapold
  have hbk := KVCacheAttention.before_forward_k_at a ((n_past_old - excess : Nat) : Int)
    (qlen : Int) excess n_past_old hwf hsp hexcess hold hcapold
  have hbv := KVCacheAttention.before_forward_v_at a ((n_past_old - excess : Nat) : Int)
    (qlen : Int) excess n_past_old hwf hsp hexcess hold hcapold
  generalize a.before_forward ((n_past_old - excess : Nat) : Int) (qlen : Int) = b at *
  have hbfit : b.fits qlen k v := by
    unfold KVCacheAttention.fits
    rw [e1, e2, e4]
    exact hfit
  have hbcap : (n_past_old - excess) + qlen ≤ b.cache_length := by rw [e3]; exact hcap
  obtain ⟨f1, f2, _⟩ :=
    KVCacheAttention.save_to_cache_frame cvt b (n_past_old - excess) qlen k v
  have hkat := KVCacheAttention.save_to_cache_k_at cvt b (n_past_old - excess) qlen k v
    hbwf hbfit hbcap
  obtain ⟨_, hvat⟩ := KVCacheAttention.save_to_cache_v_at cvt b (n_past_old - excess) qlen k v
    hbwf hbfit hbcap
  rw [e1] at hkat
  rw [e2, e3] at hvat
  obtain ⟨hklen, hne0, hvlen, _⟩ := hfit
  refine ⟨?_, ?_, ?_, ?_, ?_, ?_, ?_⟩
  · rw [f1, hclr]; decide
  · rw [f2, hpos]
    unfold fill_pos_vector
    simp
  · intro t ht
    rw [f2, hpos]
    exact (fill_pos_vector_getElem _ qlen t ht).2
  · intro i c hi hc
    obtain ⟨h1, x, hx⟩ := hbk i c hi hc
    have hnot : ¬ (n_past_old - excess ≤ i ∧ i < n_past_old - excess + qlen) := by omega
    exact ⟨x, by rw [hkat i c hc, if_neg hnot, h1, hx], hx⟩
  · intro i c hi hc
    obtain ⟨h1, x, hx⟩ := hbv c i hc hi
    have hnot : ¬ (n_past_old - excess ≤ i ∧ i < n_past_old - excess + qlen) := by omega
    exact ⟨x, by rw [hvat c i hc (by omega), if_neg hnot, h1, hx], hx⟩
  · intro t c ht hc
    have g1 : (t + 1) * a.k_hidden_size ≤ qlen * a.k_hidden_size := Nat.mul_le_mul_right _ ht
    have g2 : (t + 1) * a.k_hidden_size = t * a.k_hidden_size + a.k_hidden_size :=
      Nat.succ_mul _ _
    have hlt : t * a.k_hidden_size + c < k.data.length := by omega
    refine ⟨k.data[t * a.k_hidden_size + c], List.getElem?_eq_getElem hlt, ?_⟩
    have hin : n_past_old - excess ≤ n_past_old - excess + t ∧
        n_past_old - excess + t < n_past_old - excess + qlen := by omega
    have hsub : n_past_old - excess + t - (n_past_old - excess) = t := by omega
    rw [hkat _ c hc, if_pos hin, hsub, List.getElem?_eq_getElem hlt]
    rfl
  · intro t c ht hc
    have g1 : (t + 1) * a.v_hidden_size ≤ qlen * a.v_hidden_size := Nat.mul_le_mul_right _ ht
    have g2 : (t + 1) * a.v_hidden_size = t * a.v_hidden_size + a.v_hidden_size :=
      Nat.succ_mul _ _
    have hlt : t * a.v_hidden_size + c < v.data.length := by omega
    refine ⟨v.data[t * a.v_hidden_size + c], List.getElem?_eq_getElem hlt, ?_⟩
    have hin : n_past_old - excess ≤ n_past_old - excess + t ∧
        n_past_old - excess + t < n_past_old - excess + qlen := by omega
    have hsub : n_past_old - excess + t - (n_past_old - excess) = t := by omega
    rw [hvat c _ hc (by omega), if_pos hin, hsub, List.getElem?_eq_getElem hlt]
    rfl

/-- Witness for C20: the four-position cache holding three positions, a shift by
one, then two new tokens at `n_past = 2`. -/
theorem shift_then_write_witness :
    (demoLayer { shift := 1, total := 3 }).wf ∧
    (demoLayer { shift := 1, total := 3 }).fits 2 (demoKeys 2 false) (demoValues 2) ∧
    ∃ a', BaseAttention.forward id (demoLayer { shift := 1, total := 3 }) (3 - 1) 2
        (demoKeys 2 false) (demoValues 2) = Except.ok a' ∧
      ¬ (a'.shift_pending.shift > 0) ∧ a'.pos.length = 2 :=
  ⟨by decide, by decide,
   (shift_then_write id (demoLayer { shift := 1, total := 3 }) 1 3 2
     (demoKeys 2 false) (demoValues 2) (by decide) (by decide) rfl (by decide) (by decide)
     (by decide) (by decide)).imp (fun _ h => ⟨h.1, h.2.1, h.2.2.1⟩)⟩

/-- C14: on the path `cross_attention_after_pe -> calc_attn_scores` exactly one
scaling is applied, for every configuration.  Without `attn_scaling` the query is
multiplied by `1 / sqrt(head_size)` and the scores are not scaled; with
`attn_scaling` the scores are multiplied by `attn_scaling_factor` if it is
positive and by `1 / sqrt(head_size)` otherwise, and the query is not scaled
(`head_size = hidden_size / num_attention_heads`). -/
theorem scores_scaled_once {F : Type} [LT F] [Zero F] [DecidableRel (fun (x y : F) => x < y)]
    (c : CoreAttention F) (hidden_size : Int) :
    (c.cross_attention_after_pe hidden_size).length = 1 ∧
    (c.attn_scaling = false →
      c.cross_attention_after_pe hidden_size
        = [{ target := ScaledTensor.query_layer
             scale := Scale.by_inv_sqrt (Int.tdiv hidden_size c.num_attention_heads) }] ∧
      c.calc_attn_scores hidden_size = []) ∧
    (c.attn_scaling = true → c.attn_scaling_factor > 0 →
      c.cross_attention_after_pe hidden_size
        = [{ target := ScaledTensor.attn_scores
             scale := Scale.by_factor c.attn_scaling_factor }]) ∧
    (c.attn_scaling = true → ¬ (c.attn_scaling_factor > 0) →
      c.cross_attention_after_pe hidden_size
        = [{ target := ScaledTensor.attn_scores
             scale := Scale.by_inv_sqrt (Int.tdiv hidden_size c.num_attention_heads) }]) := by
  unfold CoreAttention.cross_attention_after_pe CoreAttention.calc_attn_scores
    CoreAttention.head_size
  cases hs : c.attn_scaling
  · simp
  · by_cases hf : c.attn_scaling_factor > 0
    · simp [hf]
    · simp [hf]

/-- C15, as stated, fails: with `max_length = 131072` and
`original_max_position_embeddings = 4096`, `get_inv_freq(10)` returns the
long-factor table although `10` does not exceed 4096. -/
theorem get_inv_freq_counterexample :
    ¬ ((10 : Int) > ({ max_length := 131072, original_max_position_embeddings := 4096 }
        : Phi3SUSelfAttention).original_max_position_embeddings) ∧
    ({ max_length := 131072, original_max_position_embeddings := 4096 }
        : Phi3SUSelfAttention).get_inv_freq 10 = InvFreqTable.inv_freq_long := by
  decide

/-- C15, amended: `get_inv_freq(pos)` chooses between the two tables by the
configured maximum length, not by `pos`: it returns the long-factor table when
`max_length` exceeds `original_max_position_embeddings` and the short-factor
table otherwise, the same table for every `pos`. -/
theorem get_inv_freq_by_max_length (s : Phi3SUSelfAttention) (pos pos2 : Int) :
    (s.max_length > s.original_max_position_embeddings →
      s.get_inv_freq pos = InvFreqTable.inv_freq_long) ∧
    (¬ (s.max_length > s.original_max_position_embeddings) →
      s.get_inv_freq pos = InvFreqTable.inv_freq_short) ∧
    s.get_inv_freq pos = s.get_inv_freq pos2 := by
  unfold Phi3SUSelfAttention.get_inv_freq
  refine ⟨fun h => by rw [if_pos h], fun h => by rw [if_neg h], rfl⟩

/-- The balanced remainder leaves a vocabulary size below `2^31` as it is. -/
theorem to_int_small (n : Nat) (h : n < 2 ^ 31) : to_int n = (n : Int) := by
  unfold to_int Int.bmod
  have h1 : ((n : Int) % ((2 ^ 32 : Nat) : Int)) = (n : Int) := by
    apply Int.emod_eq_of_lt <;> omega
  rw [h1]
  have h2 : (n : Int) < (((2 ^ 32 : Nat) : Int) + 1) / 2 := by omega
  simp only [h2, if_true]

/-- The converted size never exceeds the size. -/
theorem to_int_le (n : Nat) : to_int n ≤ (n : Int) := by
  unfold to_int Int.bmod
  simp only []
  split <;> omega

/-- C17: for every integer `id`, negative ones and ones beyond the size
included, and every token type `t`, `is_token_of_type(id, t)` is defined without
an access outside `id_to_token`, and it is `false` whenever `id` is outside
`[0, size)`; for a vocabulary whose size fits an `int` it is otherwise `true`
exactly when the stored type of `id` equals `t`.  `is_normal_token` and
`is_control_token` are never both true for one `id`. -/
theorem is_token_of_type_dense_range (v : _vocab) (id : Int) (t : token_type) :
    (v.is_token_of_type id t).isSome ∧
    ((id < 0 ∨ id ≥ (v.id_to_token.length : Int)) → v.is_token_of_type id t = some false) ∧
    (v.id_to_token.length < 2 ^ 31 → 0 ≤ id → id < (v.id_to_token.length : Int) →
      ∃ e, v.id_to_token[id.toNat]? = some e ∧
        v.is_token_of_type id t = some (decide (t = e.type)) ∧
        (v.is_token_of_type id t = some true ↔ e.type = t)) ∧
    ¬ (v.is_normal_token id = some true ∧ v.is_control_token id = some true) := by
  have hle := to_int_le v.id_to_token.length
  have hdef : ∀ t2, ¬ (id < 0 ∨ id ≥ to_int v.id_to_token.length) →
      ∃ e, v.id_to_token[id.toNat]? = some e ∧
        v.is_token_of_type id t2 = some (decide (t2 = e.type)) := by
    intro t2 h
    have hlt : id.toNat < v.id_to_token.length := by omega
    refine ⟨v.id_to_token[id.toNat], List.getElem?_eq_getElem hlt, ?_⟩
    unfold _vocab.is_token_of_type
    rw [if_neg h, List.getElem?_eq_getElem hlt]
    rfl
  refine ⟨?_, ?_, ?_, ?_⟩
  · by_cases h : id < 0 ∨ id ≥ to_int v.id_to_token.length
    · unfold _vocab.is_token_of_type
      rw [if_pos h]; rfl
    · obtain ⟨e, _, he⟩ := hdef t h
      rw [he]; rfl
  · intro hout
    by_cases h : id < 0 ∨ id ≥ to_int v.id_to_token.length
    · unfold _vocab.is_token_of_type
      rw [if_pos h]
    · exfalso; omega
  · intro hsize h0 h1
    have hsmall := to_int_small v.id_to_token.length hsize
    have h : ¬ (id < 0 ∨ id ≥ to_int v.id_to_token.length) := by omega
    obtain ⟨e, he1, he2⟩ := hdef t h
    refine ⟨e, he1, he2, ?_⟩
    rw [he2]
    constructor
    · intro hd
      have := Option.some.inj hd
      exact (of_decide_eq_true this).symm
    · intro hd
      rw [hd]; simp
  · rintro ⟨hn, hc⟩
    unfold _vocab.is_normal_token at hn
    unfold _vocab.is_control_token at hc
    by_cases h : id < 0 ∨ id ≥ to_int v.id_to_token.length
    · unfold _vocab.is_token_of_type at hn
      rw [if_pos h] at hn
      simp at hn
    · obtain ⟨e1, g1, g2⟩ := hdef token_type.NORMAL h
      obtain ⟨e2, g3, g4⟩ := hdef token_type.CONTROL h
      rw [g1] at g3
      have he : e1 = e2 := Option.some.inj g3
      subst he
      rw [g2] at hn
      rw [g4] at hc
      have a1 := of_decide_eq_true (Option.some.inj hn)
      have a2 := of_decide_eq_true (Option.some.inj hc)
      rw [← a1] at a2
      exact absurd a2 (by decide)

/-- C18, as stated, fails: with `sliding_window = 4096`, a supported value, the
construction fails all the same when `ggml_init` returns no context, on the
check `CHATLLM_CHECK(gctx_)` of the base-class construction, which runs before
the body of the constructor. -/
theorem sliding_window_counterexample :
    mistral.ConditionalGeneration.construct { sliding_window := 4096 } true false true
      = Except.error Fatal.failed_to_init_ggml_context ∧
    mistral.ConditionalGeneration.construct { sliding_window := 4096 } true false true
      ≠ Except.ok () ∧
    ¬ ((({ sliding_window := 4096 } : mistral.Config).sliding_window > 0) ∧
       (({ sliding_window := 4096 } : mistral.Config).sliding_window ≠ 4096)) := by
  decide

/-- C18, amended: once the base class is constructed, the constructor of
`mistral::ConditionalGeneration` fails if and only if `config.sliding_window > 0`
and `config.sliding_window != 4096`, and it fails on the sliding-window check;
every config with `sliding_window <= 0` or `sliding_window == 4096` passes the
check, so that the construction ends as the base-class construction did.  A
failure of the base-class construction is the failure of the whole, whatever the
config; in all, construction fails if and only if the base-class construction
fails or the sliding window is unsupported. -/
theorem sliding_window_check (config : mistral.Config) (base gctx_ transformer : Bool) :
    (llama.v2.GenericConditionalGeneration.construct base gctx_ transformer = Except.ok () →
      (mistral.ConditionalGeneration.construct config base gctx_ transformer
          = Except.error Fatal.sliding_window_unsupported ↔
        (config.sliding_window > 0 ∧ config.sliding_window ≠ 4096)) ∧
      (mistral.ConditionalGeneration.construct config base gctx_ transformer ≠ Except.ok () ↔
        (config.sliding_window > 0 ∧ config.sliding_window ≠ 4096))) ∧
    ((config.sliding_window ≤ 0 ∨ config.sliding_window = 4096) →
      mistral.ConditionalGeneration.construct config base gctx_ transformer
        = llama.v2.GenericConditionalGeneration.construct base gctx_ transformer) ∧
    (∀ e, llama.v2.GenericConditionalGeneration.construct base gctx_ transformer
        = Except.error e →
      mistral.ConditionalGeneration.construct config base gctx_ transformer = Except.error e) ∧
    (mistral.ConditionalGeneration.construct config base gctx_ transformer ≠ Except.ok () ↔
      (llama.v2.GenericConditionalGeneration.construct base gctx_ transformer ≠ Except.ok () ∨
        (config.sliding_window > 0 ∧ config.sliding_window ≠ 4096))) ∧
    (llama.v2.GenericConditionalGeneration.construct base gctx_ transformer = Except.ok () ↔
      (base = true ∧ gctx_ = true ∧ transformer = true)) := by
  have hgen : llama.v2.GenericConditionalGeneration.construct base gctx_ transformer
        = Except.ok () ↔ (base = true ∧ gctx_ = true ∧ transformer = true) := by
    cases base <;> cases gctx_ <;> cases transformer <;> decide
  have hok : llama.v2.GenericConditionalGeneration.construct base gctx_ transformer
        = Except.ok () →
      mistral.ConditionalGeneration.construct config base gctx_ transformer
        = if (config.sliding_window ≤ 0) ∨ (config.sliding_window = 4096) then Except.ok ()
          else Except.error Fatal.sliding_window_unsupported := by
    intro hg
    unfold mistral.ConditionalGeneration.construct mistral.SLIDING_WINDOW_LEN
    rw [hg]
  have herr : ∀ e, llama.v2.GenericConditionalGeneration.construct base gctx_ transformer
        = Except.error e →
      mistral.ConditionalGeneration.construct config base gctx_ transformer
        = Except.error e := by
    intro e hg
    unfold mistral.ConditionalGeneration.construct
    rw [hg]
  have hcases : llama.v2.GenericConditionalGeneration.construct base gctx_ transformer
        = Except.ok () ∨
      ∃ e, llama.v2.GenericConditionalGeneration.construct base gctx_ transformer
        = Except.error e := by
    cases base <;> cases gctx_ <;> cases transformer <;> simp [
      llama.v2.GenericConditionalGeneration.construct, GGMLContext.construct]
  have hsw : llama.v2.GenericConditionalGeneration.construct base gctx_ transformer
        = Except.ok () →
      (mistral.ConditionalGeneration.construct config base gctx_ transformer
          = Except.error Fatal.sliding_window_unsupported ↔
        (config.sliding_window > 0 ∧ config.sliding_window ≠ 4096)) ∧
      (mistral.ConditionalGeneration.construct config base gctx_ transformer ≠ Except.ok () ↔
        (config.sliding_window > 0 ∧ config.sliding_window ≠ 4096)) := by
    intro hg
    rw [hok hg]
    by_cases h : config.sliding_window ≤ 0 ∨ config.sliding_window = 4096
    · rw [if_pos h]
      exact ⟨⟨fun he => by simp at he, fun hk => by omega⟩,
        ⟨fun he => absurd rfl he, fun hk => by omega⟩⟩
    · rw [if_neg h]
      exact ⟨⟨fun _ => by omega, fun _ => rfl⟩, ⟨fun _ => by omega, fun _ he => by simp at he⟩⟩
  refine ⟨hsw, ?_, herr, ?_, hgen⟩
  · intro h
    rcases hcases with hg | ⟨e, hg⟩
    · rw [hok hg, if_pos h, hg]
    · rw [herr e hg, hg]
  · rcases hcases with hg | ⟨e, hg⟩
    · rw [(hsw hg).2]
      exact ⟨fun hk => Or.inr hk, fun hk => hk.elim (fun hn => absurd hg hn) id⟩
    · rw [herr e hg, hg]
      exact ⟨fun _ => Or.inl (by simp), fun _ => by simp⟩

/-- The table `config` fills, entry by entry. -/
theorem QWenSelfAttention.config_logn_list (s0 : QWenSelfAttention) (seq_length : Int) (j : Nat)
    (hj : (j : Int) < s0.max_length) :
    (s0.config seq_length true).logn_list.length = s0.max_length.toNat ∧
    (s0.config seq_length true).logn_list[j]?
      = some (if (j : Int) > seq_length then LognScale.log_ratio (j : Int) seq_length
          else LognScale.one) := by
  have hlt : j < s0.max_length.toNat := by omega
  unfold QWenSelfAttention.config
  simp only [if_true]
  refine ⟨by simp, ?_⟩
  rw [List.getElem?_map, List.getElem?_range hlt]
  rfl

/-- C16: log-length scaling in `QWenSelfAttention`.  After `config` with
`use_logn_attn` set, for consecutive positions `n_past .. n_past + qlen - 1`
(`qlen >= 1`) all below `max_length`: the reads of the position vector and the
slice `logn_list[n_past .. n_past + qlen)` are in bounds; the query at position
`pos` is multiplied by `log(pos) / log(seq_length)` exactly when
`pos > seq_length` and by 1 otherwise; and what the code does when it skips the
scaling step (last position `<= seq_length`) is what applying the table slice
gives. -/
theorem logn_scaling (s0 : QWenSelfAttention) (seq_length : Int) (n_past qlen : Nat)
    (hq : 1 ≤ qlen) (hmax : (n_past : Int) + (qlen : Int) ≤ s0.max_length) :
    n_past + qlen ≤ (s0.config seq_length true).logn_list.length ∧
    ∃ fs, (s0.config seq_length true).apply_pos_embedding_q qlen
        (fill_pos_vector (n_past : Int) (qlen : Int)) = some fs ∧
      fs.length = qlen ∧
      (s0.config seq_length true).scale_view qlen (n_past : Int) = some fs ∧
      ∀ t, t < qlen →
        fs[t]? = some (if ((n_past + t : Nat) : Int) > seq_length
          then LognScale.log_ratio ((n_past + t : Nat) : Int) seq_length else LognScale.one) := by
  have hlen : (s0.config seq_length true).logn_list.length = s0.max_length.toNat :=
    (QWenSelfAttention.config_logn_list s0 seq_length 0 (by omega)).1
  have hentry : ∀ j : Nat, (j : Int) < s0.max_length →
      (s0.config seq_length true).logn_list[j]?
        = some (if (j : Int) > seq_length then LognScale.log_ratio (j : Int) seq_length
            else LognScale.one) :=
    fun j hj => (QWenSelfAttention.config_logn_list s0 seq_length j hj).2
  have huse : (s0.config seq_length true).use_logn_attn = true := rfl
  have hseq : (s0.config seq_length true).seq_length = seq_length := rfl
  generalize s0.config seq_length true = s at hlen hentry huse hseq
  have hbound : n_past + qlen ≤ s.logn_list.length := by omega
  have hview : s.scale_view qlen (n_past : Int)
      = some ((s.logn_list.drop n_past).take qlen) := by
    unfold QWenSelfAttention.scale_view
    have hc : 0 ≤ (n_past : Int) ∧ (n_past : Int).toNat + qlen ≤ s.logn_list.length := by
      constructor <;> omega
    rw [if_pos hc, Int.toNat_ofNat]
  have hslice : ∀ t, t < qlen →
      ((s.logn_list.drop n_past).take qlen)[t]?
        = some (if ((n_past + t : Nat) : Int) > seq_length
            then LognScale.log_ratio ((n_past + t : Nat) : Int) seq_length
            else LognScale.one) := by
    intro t ht
    rw [List.getElem?_take_of_lt ht, List.getElem?_drop]
    exact hentry (n_past + t) (by omega)
  have hslen : ((s.logn_list.drop n_past).take qlen).length = qlen := by
    rw [List.length_take, List.length_drop]
    omega
  refine ⟨hbound, (s.logn_list.drop n_past).take qlen, ?_, hslen, hview, hslice⟩
  obtain ⟨q, rfl⟩ : ∃ q, qlen = q + 1 := ⟨qlen - 1, by omega⟩
  have hlast := (fill_pos_vector_getElem (n_past : Int) (q + 1) q (by omega)).2
  have hfirst := (fill_pos_vector_getElem (n_past : Int) (q + 1) 0 (by omega)).2
  unfold QWenSelfAttention.apply_pos_embedding_q
  simp only [huse, if_true, hlast, hfirst, hseq]
  by_cases hbig : (n_past : Int) + (q : Int) > seq_length
  · rw [if_pos hbig]
    have h0 : (n_past : Int) + ((0 : Nat) : Int) = (n_past : Int) := by simp
    rw [h0, hview]
  · rw [if_neg hbig]
    congr 1
    apply List.ext_getElem?
    intro t
    by_cases ht : t < q + 1
    · rw [hslice t ht]
      have hsmall : ¬ (((n_past + t : Nat) : Int) > seq_length) := by omega
      rw [if_neg hsmall]
      simp [List.getElem?_replicate, ht]
    · rw [List.getElem?_eq_none (by simp; omega), List.getElem?_eq_none (by rw [hslen]; omega)]

/-- Witness for C16: a table of 8 entries with `seq_length = 4`, and the
positions 3, 4, 5. -/
theorem logn_scaling_witness :
    (1 : Nat) ≤ 3 ∧
    ((3 : Nat) : Int) + ((3 : Nat) : Int)
      ≤ ({ max_length := 8, seq_length := 0, use_logn_attn := false, logn_list := [] }
          : QWenSelfAttention).max_length ∧
    ∃ fs, (({ max_length := 8, seq_length := 0, use_logn_attn := false, logn_list := [] }
          : QWenSelfAttention).config 4 true).apply_pos_embedding_q 3
        (fill_pos_vector ((3 : Nat) : Int) ((3 : Nat) : Int)) = some fs ∧
      fs.length = 3 :=
  ⟨by decide, by decide,
   (logn_scaling { max_length := 8, seq_length := 0, use_logn_attn := false, logn_list := [] }
     4 3 3 (by decide) (by decide)).2.imp (fun _ h => ⟨h.1, h.2.1⟩)⟩

/-! ## Lemmas on the streaming assembler -/

/-- After a run of complete characters the scan starts afresh. -/
theorem utf8_complete_append (xs ys : List Nat) (hx : utf8_complete xs = true) :
    utf8_complete (xs ++ ys) = utf8_complete ys := by
  unfold utf8_complete utf8_scan at *
  rw [List.foldl_append, of_decide_eq_true hx]

/-- Decoding is concatenation. -/
theorem decode_append (piece : Int → List Nat) (a b : List Int) :
    decode piece (a ++ b) = decode piece a ++ decode piece b := by
  unfold decode
  rw [List.map_append, List.flatten_append]

/-- A string of ASCII bytes is a run of complete characters. -/
theorem utf8_complete_ascii (bytes : List Nat) (h : ∀ b, b ∈ bytes → b < 0x80) :
    utf8_complete bytes = true := by
  unfold utf8_complete utf8_scan
  apply decide_eq_true
  induction bytes with
  | nil => rfl
  | cons b rest ih =>
    rw [List.foldl_cons]
    have hb : b < 0x80 := h b (List.mem_cons_self b rest)
    have hstep : utf8_step (some 0) b = some 0 := by
      unfold utf8_step
      simp only [hb, if_true]
    rw [hstep]
    exact ih (fun c hc => h c (List.mem_cons_of_mem b hc))

/-- What one `put` does when the flushed part so far is a prefix of the decoded
text made of complete characters: that stays so, and the flushed part grows by
exactly the bytes this call flushes. -/
theorem TextStreamer.put_spec (piece : Int → List Nat) (st : TextStreamer) (ids : List Int)
    (hlen : st.print_len_ ≤ (decode piece st.token_cache_).length)
    (hdone : utf8_complete ((decode piece st.token_cache_).take st.print_len_) = true) :
    (st.put piece ids).1.token_cache_ = st.token_cache_ ++ ids ∧
    (st.put piece ids).1.print_len_ ≤ (decode piece (st.put piece ids).1.token_cache_).length ∧
    utf8_complete ((decode piece (st.put piece ids).1.token_cache_).take
      (st.put piece ids).1.print_len_) = true ∧
    (decode piece (st.put piece ids).1.token_cache_).take (st.put piece ids).1.print_len_
      = (decode piece st.token_cache_).take st.print_len_ ++ (st.put piece ids).2 := by
  have htake : (decode piece (st.token_cache_ ++ ids)).take st.print_len_
      = (decode piece st.token_cache_).take st.print_len_ := by
    rw [decode_append]
    exact List.take_append_of_le_length hlen
  have hle : st.print_len_ ≤ (decode piece (st.token_cache_ ++ ids)).length := by
    rw [decode_append, List.length_append]; omega
  by_cases hc : utf8_complete ((decode piece (st.token_cache_ ++ ids)).drop st.print_len_) = true
  · have hput : st.put piece ids
        = ({ token_cache_ := st.token_cache_ ++ ids,
             print_len_ := (decode piece (st.token_cache_ ++ ids)).length },
           (decode piece (st.token_cache_ ++ ids)).drop st.print_len_) := by
      unfold TextStreamer.put
      simp only [hc, if_true]
    have hsplit : (decode piece (st.token_cache_ ++ ids)).take st.print_len_
        ++ (decode piece (st.token_cache_ ++ ids)).drop st.print_len_
        = decode piece (st.token_cache_ ++ ids) := List.take_append_drop _ _
    have hall : (decode piece (st.token_cache_ ++ ids)).take
        (decode piece (st.token_cache_ ++ ids)).length = decode piece (st.token_cache_ ++ ids) :=
      List.take_of_length_le (Nat.le_refl _)
    have hwhole : utf8_complete (decode piece (st.token_cache_ ++ ids)) = true := by
      rw [← hsplit, htake, utf8_complete_append _ _ hdone]
      exact hc
    have A : utf8_complete ((decode piece (st.token_cache_ ++ ids)).take
        (decode piece (st.token_cache_ ++ ids)).length) = true := by
      rw [hall]; exact hwhole
    have B : (decode piece (st.token_cache_ ++ ids)).take
        (decode piece (st.token_cache_ ++ ids)).length
        = (decode piece st.token_cache_).take st.print_len_
          ++ (decode piece (st.token_cache_ ++ ids)).drop st.print_len_ := by
      rw [hall, ← htake]
      exact hsplit.symm
    rw [hput]
    exact ⟨rfl, Nat.le_refl _, A, B⟩
  · have hcf : utf8_complete ((decode piece (st.token_cache_ ++ ids)).drop st.print_len_)
        = false := by
      simpa using hc
    have hput : st.put piece ids
        = ({ token_cache_ := st.token_cache_ ++ ids, print_len_ := st.print_len_ }, []) := by
      unfold TextStreamer.put
      simp only [hcf]
      rfl
    have A : utf8_complete ((decode piece (st.token_cache_ ++ ids)).take st.print_len_)
        = true := by
      rw [htake]; exact hdone
    have B : (decode piece (st.token_cache_ ++ ids)).take st.print_len_
        = (decode piece st.token_cache_).take st.print_len_ ++ [] := by
      rw [htake, List.append_nil]
    rw [hput]
    exact ⟨rfl, hle, A, B⟩

/-- The same along a stream of ids. -/
theorem TextStreamer.feed_spec (piece : Int → List Nat) :
    ∀ (ids : List Int) (st : TextStreamer),
      st.print_len_ ≤ (decode piece st.token_cache_).length →
      utf8_complete ((decode piece st.token_cache_).take st.print_len_) = true →
      (TextStreamer.feed piece st ids).1.token_cache_ = st.token_cache_ ++ ids ∧
      (TextStreamer.feed piece st ids).1.print_len_
        ≤ (decode piece (TextStreamer.feed piece st ids).1.token_cache_).length ∧
      utf8_complete ((decode piece (TextStreamer.feed piece st ids).1.token_cache_).take
        (TextStreamer.feed piece st ids).1.print_len_) = true ∧
      (decode piece (TextStreamer.feed piece st ids).1.token_cache_).take
          (TextStreamer.feed piece st ids).1.print_len_
        = (decode piece st.token_cache_).take st.print_len_
          ++ (TextStreamer.feed piece st ids).2 := by
  intro ids
  induction ids with
  | nil =>
    intro st hlen hdone
    exact ⟨(List.append_nil _).symm, hlen, hdone, (List.append_nil _).symm⟩
  | cons id rest ih =>
    intro st hlen hdone
    obtain ⟨p1, p2, p3, p4⟩ := TextStreamer.put_spec piece st [id] hlen hdone
    obtain ⟨q1, q2, q3, q4⟩ := ih (st.put piece [id]).1 p2 p3
    have hfeed : TextStreamer.feed piece st (id :: rest)
        = ((TextStreamer.feed piece (st.put piece [id]).1 rest).1,
            (st.put piece [id]).2 ++ (TextStreamer.feed piece (st.put piece [id]).1 rest).2) := rfl
    rw [hfeed]
    refine ⟨?_, q2, q3, ?_⟩
    · show (TextStreamer.feed piece (st.put piece [id]).1 rest).1.token_cache_ = _
      rw [q1, p1, List.append_assoc]
      rfl
    · show (decode piece (TextStreamer.feed piece (st.put piece [id]).1 rest).1.token_cache_).take
          (TextStreamer.feed piece (st.put piece [id]).1 rest).1.print_len_ = _
      rw [q4, p4, List.append_assoc]

/-- While no non-empty prefix of the stream decodes to complete characters,
nothing is flushed. -/
theorem TextStreamer.feed_hold (piece : Int → List Nat) :
    ∀ (ids cache : List Int),
      (∀ r, r ≠ [] → r <+: ids → utf8_complete (decode piece (cache ++ r)) = false) →
      TextStreamer.feed piece { token_cache_ := cache, print_len_ := 0 } ids
        = ({ token_cache_ := cache ++ ids, print_len_ := 0 }, []) := by
  intro ids
  induction ids with
  | nil =>
    intro cache _
    show (_, _) = _
    rw [List.append_nil]
  | cons id rest ih =>
    intro cache h
    have h1 : utf8_complete (decode piece (cache ++ [id])) = false :=
      h [id] (by simp) (by simp)
    have hput : ({ token_cache_ := cache, print_len_ := 0 } : TextStreamer).put piece [id]
        = ({ token_cache_ := cache ++ [id], print_len_ := 0 }, []) := by
      unfold TextStreamer.put
      simp only [List.drop_zero, h1]
      rfl
    have hfeed : TextStreamer.feed piece { token_cache_ := cache, print_len_ := 0 } (id :: rest)
        = ((TextStreamer.feed piece
              (({ token_cache_ := cache, print_len_ := 0 } : TextStreamer).put piece [id]).1
              rest).1,
            (({ token_cache_ := cache, print_len_ := 0 } : TextStreamer).put piece [id]).2
              ++ (TextStreamer.feed piece
              (({ token_cache_ := cache, print_len_ := 0 } : TextStreamer).put piece [id]).1
              rest).2) := rfl
    rw [hfeed, hput]
    have hrest := ih (cache ++ [id]) (by
      intro r hr hpre
      have := h (id :: r) (by simp) (by simpa using hpre)
      rwa [List.append_assoc])
    simp only [hrest, List.append_assoc, List.singleton_append, List.nil_append]

/-- The bytes of a single token. -/
theorem decode_singleton (piece : Int → List Nat) (id : Int) : decode piece [id] = piece id := by
  simp [decode]

/-- A `put` of an ASCII token on a fully flushed streamer flushes that token. -/
theorem TextStreamer.put_ascii (piece : Int → List Nat) (st : TextStreamer) (id : Int)
    (hfull : st.print_len_ = (decode piece st.token_cache_).length)
    (hascii : ∀ b, b ∈ piece id → b < 0x80) :
    st.put piece [id]
      = ({ token_cache_ := st.token_cache_ ++ [id],
           print_len_ := (decode piece (st.token_cache_ ++ [id])).length }, piece id) := by
  have htail : (decode piece (st.token_cache_ ++ [id])).drop st.print_len_ = piece id := by
    rw [decode_append, hfull, List.drop_left, decode_singleton]
  unfold TextStreamer.put
  simp only [htail, utf8_complete_ascii (piece id) hascii, if_true]

/-- A stream of ASCII tokens is flushed token by token. -/
theorem TextStreamer.feed_ascii (piece : Int → List Nat) :
    ∀ (ids : List Int) (st : TextStreamer),
      st.print_len_ = (decode piece st.token_cache_).length →
      (∀ id, id ∈ ids → ∀ b, b ∈ piece id → b < 0x80) →
      TextStreamer.feed piece st ids
        = ({ token_cache_ := st.token_cache_ ++ ids,
             print_len_ := (decode piece (st.token_cache_ ++ ids)).length }, decode piece ids) := by
  intro ids
  induction ids with
  | nil =>
    intro st hfull _
    show (st, []) = _
    rw [List.append_nil, ← hfull]
    rfl
  | cons id rest ih =>
    intro st hfull hascii
    have hput := TextStreamer.put_ascii piece st id hfull
      (hascii id (List.mem_cons_self id rest))
    have hfeed : TextStreamer.feed piece st (id :: rest)
        = ((TextStreamer.feed piece (st.put piece [id]).1 rest).1,
            (st.put piece [id]).2 ++ (TextStreamer.feed piece (st.put piece [id]).1 rest).2) := rfl
    rw [hfeed, hput]
    have hrest := ih ({ token_cache_ := st.token_cache_ ++ [id]
                        print_len_ := (decode piece (st.token_cache_ ++ [id])).length }
        : TextStreamer) rfl
      (fun i hi => hascii i (List.mem_cons_of_mem id hi))
    simp only [hrest, List.append_assoc, List.singleton_append]
    have hd : decode piece (id :: rest) = piece id ++ decode piece rest := by
      simp [decode]
    rw [hd]

/-- Feeding two streams one after the other. -/
theorem TextStreamer.feed_append (piece : Int → List Nat) :
    ∀ (a b : List Int) (st : TextStreamer),
      TextStreamer.feed piece st (a ++ b)
        = ((TextStreamer.feed piece (TextStreamer.feed piece st a).1 b).1,
            (TextStreamer.feed piece st a).2
              ++ (TextStreamer.feed piece (TextStreamer.feed piece st a).1 b).2) := by
  intro a
  induction a with
  | nil => intro b st; rfl
  | cons id rest ih =>
    intro b st
    have h1 : TextStreamer.feed piece st (id :: rest ++ b)
        = ((TextStreamer.feed piece (st.put piece [id]).1 (rest ++ b)).1,
            (st.put piece [id]).2
              ++ (TextStreamer.feed piece (st.put piece [id]).1 (rest ++ b)).2) := rfl
    have h2 : TextStreamer.feed piece st (id :: rest)
        = ((TextStreamer.feed piece (st.put piece [id]).1 rest).1,
            (st.put piece [id]).2 ++ (TextStreamer.feed piece (st.put piece [id]).1 rest).2) := rfl
    rw [h1, h2, ih b (st.put piece [id]).1, List.append_assoc]

/-- C19, as stated, fails in its last part: with a two-byte character split over
the ids 1 and 2, the decoded bytes are complete only once both ids are in, and
yet both bytes are flushed by the `put` of the second id, before `end()`, which
has nothing left to flush. -/
theorem streamer_flush_counterexample :
    utf8_complete (decode demoPiece [1]) = false ∧
    utf8_complete (decode demoPiece [1, 2]) = true ∧
    (TextStreamer.feed demoPiece TextStreamer.init [1]).2 = [] ∧
    (TextStreamer.feed demoPiece TextStreamer.init [1, 2]).2 = [0xC3, 0xA9] ∧
    TextStreamer.end_ demoPiece (TextStreamer.feed demoPiece TextStreamer.init [1, 2]).1 = [] := by
  decide

/-- C19, amended: the streaming assembler never flushes a prefix that splits a
multi-byte character: after every id sequence fed through `put` the bytes
flushed so far are a prefix of the decoded text made of complete UTF-8
characters.  For pure-ASCII tokens every id is flushed by its own `put`.  For a
sequence none of whose non-empty prefixes decodes to complete characters no byte
is flushed; if the next id completes the text, the `put` of that id flushes all
of it and `end()` has nothing left to flush. -/
theorem streamer_utf8_safe (piece : Int → List Nat) (ids : List Int) :
    ((TextStreamer.feed piece TextStreamer.init ids).1.token_cache_ = ids ∧
      (TextStreamer.feed piece TextStreamer.init ids).2
        = (decode piece ids).take (TextStreamer.feed piece TextStreamer.init ids).1.print_len_ ∧
      utf8_complete (TextStreamer.feed piece TextStreamer.init ids).2 = true) ∧
    ((∀ id, id ∈ ids → ∀ b, b ∈ piece id → b < 0x80) →
      (TextStreamer.feed piece TextStreamer.init ids).2 = decode piece ids ∧
      ∀ p id, p ++ [id] <+: ids →
        ((TextStreamer.feed piece TextStreamer.init p).1.put piece [id]).2 = piece id) ∧
    ((∀ r, r ≠ [] → r <+: ids → utf8_complete (decode piece r) = false) →
      (TextStreamer.feed piece TextStreamer.init ids).2 = [] ∧
      ∀ last, utf8_complete (decode piece (ids ++ [last])) = true →
        (TextStreamer.feed piece TextStreamer.init (ids ++ [last])).2
          = decode piece (ids ++ [last]) ∧
        TextStreamer.end_ piece (TextStreamer.feed piece TextStreamer.init (ids ++ [last])).1
          = []) := by
  have hinit1 : TextStreamer.init.print_len_
      ≤ (decode piece TextStreamer.init.token_cache_).length := Nat.zero_le _
  have hinit2 : utf8_complete
      ((decode piece TextStreamer.init.token_cache_).take TextStreamer.init.print_len_) = true := by
    rfl
  refine ⟨?_, ?_, ?_⟩
  · obtain ⟨q1, _, q3, q4⟩ := TextStreamer.feed_spec piece ids TextStreamer.init hinit1 hinit2
    have hc : (TextStreamer.feed piece TextStreamer.init ids).1.token_cache_ = ids := by
      rw [q1]; rfl
    have ht : (decode piece TextStreamer.init.token_cache_).take TextStreamer.init.print_len_
        = [] := rfl
    rw [ht, List.nil_append, hc] at q4
    rw [hc] at q3
    refine ⟨hc, q4.symm, ?_⟩
    rw [← q4]; exact q3
  · intro hascii
    have hall := TextStreamer.feed_ascii piece ids TextStreamer.init rfl hascii
    refine ⟨by rw [hall], ?_⟩
    intro p id hpre
    have hmem : ∀ i, i ∈ p ++ [id] → i ∈ ids := fun i hi => hpre.subset hi
    have hp := TextStreamer.feed_ascii piece p TextStreamer.init rfl
      (fun i hi => hascii i (hmem i (List.mem_append_left _ hi)))
    rw [hp]
    have hput := TextStreamer.put_ascii piece
      ({ token_cache_ := TextStreamer.init.token_cache_ ++ p
         print_len_ := (decode piece (TextStreamer.init.token_cache_ ++ p)).length }
        : TextStreamer) id rfl
      (hascii id (hmem id (by simp)))
    rw [hput]
  · intro hhold
    have hfeed := TextStreamer.feed_hold piece ids [] (by
      intro r hr hpre
      rw [List.nil_append]
      exact hhold r hr hpre)
    have hfeed2 : TextStreamer.feed piece TextStreamer.init ids
        = ({ token_cache_ := ids, print_len_ := 0 }, []) := by
      have : TextStreamer.init = { token_cache_ := [], print_len_ := 0 } := rfl
      rw [this, hfeed, List.nil_append]
    refine ⟨by rw [hfeed2], ?_⟩
    intro last hlast
    have hstep : TextStreamer.feed piece { token_cache_ := ids, print_len_ := 0 } [last]
        = ({ token_cache_ := ids ++ [last],
             print_len_ := (decode piece (ids ++ [last])).length },
           decode piece (ids ++ [last])) := by
      show ((TextStreamer.put piece { token_cache_ := ids, print_len_ := 0 } [last]).1,
          (TextStreamer.put piece { token_cache_ := ids, print_len_ := 0 } [last]).2 ++ []) = _
      unfold TextStreamer.put
      simp only [List.drop_zero, hlast, if_true, List.append_nil]
    rw [TextStreamer.feed_append, hfeed2, hstep]
    refine ⟨by simp, ?_⟩
    unfold TextStreamer.end_
    simp

/-! ## Claims on the V cache, the GLM layer, the vocabulary and the encoders -/

/-- Compaction of V leaves the columns from `total - shift` on as they were. -/
theorem KVCacheAttention.before_forward_v_frame {α : Type} (a : KVCacheAttention α)
    (n_past qlen : Int) (shift total : Nat) (hwf : a.wf)
    (hsp : a.shift_pending = { shift := shift, total := total })
    (hshift : 0 < shift) (hremain : shift < total) (htotal : total ≤ a.cache_length)
    (c i : Nat) (hc : c < a.v_hidden_size) (hi : total - shift ≤ i) (hiL : i < a.cache_length) :
    (a.before_forward n_past qlen).v_at c i = a.v_at c i ∧ ∃ x, a.v_at c i = some x := by
  obtain ⟨_, hes, _, hvlen⟩ := hwf
  have hbn : shift + (total - shift) ≤ a.cache_length := by omega
  obtain ⟨_, _, hframe⟩ := ggml_cpy_2d_spec a.v_cache (total - shift) a.v_hidden_size
    a.cache_length shift hes hbn (Nat.le_of_eq hvlen.symm)
  have e1 : (c + 1) * a.cache_length ≤ a.v_hidden_size * a.cache_length :=
    Nat.mul_le_mul_right _ hc
  have e2 : (c + 1) * a.cache_length = c * a.cache_length + a.cache_length := Nat.succ_mul _ _
  constructor
  · rw [KVCacheAttention.before_forward_pending a n_past qlen shift total hsp hshift hremain]
    show (ggml_cpy a.v_cache _ _).data[c * a.cache_length + i]? = a.v_cache.data[_]?
    apply hframe
    intro c2 hc2
    rcases Nat.lt_trichotomy c2 c with h | h | h
    · have f1 : (c2 + 1) * a.cache_length ≤ c * a.cache_length := Nat.mul_le_mul_right _ h
      have f2 : (c2 + 1) * a.cache_length = c2 * a.cache_length + a.cache_length :=
        Nat.succ_mul _ _
      right; omega
    · subst h; right; omega
    · have f1 : (c + 1) * a.cache_length ≤ c2 * a.cache_length := Nat.mul_le_mul_right _ h
      left; omega
  · have hlt : c * a.cache_length + i < a.v_cache.data.length := by omega
    exact ⟨a.v_cache.data[c * a.cache_length + i], List.getElem?_eq_getElem hlt⟩

/-- C21: V-cache compaction.  The V cache is stored transposed, `v_hidden_size`
rows of `cache_length` positions.  When `before_forward` runs with
`ShiftPending = {shift, total}`, `shift > 0`, `remain = total - shift > 0` and
`total <= cache_length`, then in every row `c < v_hidden_size` the entry at
column `i < remain` is the entry that was at column `i + shift`, and every entry
at a column `>= remain`, in every row, is left unchanged. -/
theorem v_cache_compaction {α : Type} (a : KVCacheAttention α) (n_past qlen : Int)
    (shift total : Nat) (hwf : a.wf)
    (hsp : a.shift_pending = { shift := shift, total := total })
    (hshift : 0 < shift) (hremain : 0 < total - shift) (htotal : total ≤ a.cache_length)
    (c : Nat) (hc : c < a.v_hidden_size) :
    (∀ i, i < total - shift →
      ∃ x, (a.before_forward n_past qlen).v_at c i = some x ∧ a.v_at c (i + shift) = some x) ∧
    (∀ i, total - shift ≤ i → i < a.cache_length →
      ∃ x, (a.before_forward n_past qlen).v_at c i = some x ∧ a.v_at c i = some x) := by
  constructor
  · intro i hi
    obtain ⟨h1, x, hx⟩ := KVCacheAttention.before_forward_v_at a n_past qlen shift total hwf hsp
      hshift (by omega) htotal c i hc hi
    exact ⟨x, by rw [h1, hx], hx⟩
  · intro i hi hiL
    obtain ⟨h1, x, hx⟩ := KVCacheAttention.before_forward_v_frame a n_past qlen shift total hwf
      hsp hshift (by omega) htotal c i hc hi hiL
    exact ⟨x, by rw [h1, hx], hx⟩

/-- Witness for C21: `ShiftPending = {1, 4}` on the four-position cache, row 1. -/
theorem v_cache_compaction_witness :
    (demoLayer { shift := 1, total := 4 }).wf ∧
    (∀ i, i < 4 - 1 →
      ∃ x, ((demoLayer { shift := 1, total := 4 }).before_forward 3 1).v_at 1 i = some x ∧
        (demoLayer { shift := 1, total := 4 }).v_at 1 (i + 1) = some x) :=
  ⟨by decide,
   (v_cache_compaction (demoLayer { shift := 1, total := 4 }) 3 1 1 4 (by decide) rfl
     (by decide) (by decide) (by decide) 1 (by decide)).1⟩

/-- In a list with distinct keys, the entry found under a key is the entry of
the list with that key. -/
theorem lookup_of_mem_nodup {κ β : Type} [BEq κ] [LawfulBEq κ] :
    ∀ (m : List (κ × β)) (k : κ) (x : β),
      (m.map Prod.fst).Nodup → (k, x) ∈ m → m.lookup k = some x := by
  intro m
  induction m with
  | nil => intro k x _ h; simp at h
  | cons e rest ih =>
    intro k x hnd hmem
    obtain ⟨e1, e2⟩ := e
    rw [List.map_cons, List.nodup_cons] at hnd
    by_cases hk : k = e1
    · subst hk
      rw [List.lookup_cons, beq_self_eq_true]
      rcases List.mem_cons.mp hmem with h | h
      · have := (Prod.mk.inj h).2
        rw [this]
      · exact absurd (List.mem_map.mpr ⟨(k, x), h, rfl⟩) hnd.1
    · have hne : (k == e1) = false := by simpa using hk
      rw [List.lookup_cons, hne]
      rcases List.mem_cons.mp hmem with h | h
      · exact absurd (Prod.mk.inj h).1 hk
      · exact ih k x hnd.2 h

/-- A key that no entry carries is not found. -/
theorem lookup_of_not_mem {κ β : Type} [BEq κ] [LawfulBEq κ] :
    ∀ (m : List (κ × β)) (k : κ), (∀ x, (k, x) ∉ m) → m.lookup k = none := by
  intro m
  induction m with
  | nil => intro k _; rfl
  | cons e rest ih =>
    intro k h
    obtain ⟨e1, e2⟩ := e
    have hk : k ≠ e1 := by
      intro hk
      subst hk
      exact h e2 (List.mem_cons_self _ _)
    have hne : (k == e1) = false := by simpa using hk
    rw [List.lookup_cons, hne]
    exact ih k (fun x hx => h x (List.mem_cons_of_mem _ hx))

/-- C23: the merge-rank lookup is keyed by the ordered pair.
`find_bpe_rank(left, right)` returns the rank stored for `(left, right)` when
that pair is in `bpe_ranks`, and `-1` when it is not; adding or removing an entry
for `(right, left)` (with `left != right`) does not change the answer for
`(left, right)`; the method returns a rank and does not touch the map. -/
theorem find_bpe_rank_keyed_by_pair (v : _vocab) (left right : String) :
    (∀ rank, v.bpe_ranks.lookup (left, right) = some rank → v.find_bpe_rank left right = rank) ∧
    ((v.bpe_ranks.map Prod.fst).Nodup →
      ∀ rank, ((left, right), rank) ∈ v.bpe_ranks → v.find_bpe_rank left right = rank) ∧
    ((∀ rank, ((left, right), rank) ∉ v.bpe_ranks) → v.find_bpe_rank left right = -1) ∧
    (left ≠ right → ∀ rank,
      ({ v with bpe_ranks := ((right, left), rank) :: v.bpe_ranks } : _vocab).find_bpe_rank
        left right = v.find_bpe_rank left right) ∧
    (left ≠ right →
      ({ v with bpe_ranks := v.bpe_ranks.filter (fun e => e.1 != (right, left)) }
        : _vocab).find_bpe_rank left right = v.find_bpe_rank left right) := by
  refine ⟨?_, ?_, ?_, ?_, ?_⟩
  · intro rank h
    unfold _vocab.find_bpe_rank
    rw [h]
  · intro hnd rank hmem
    unfold _vocab.find_bpe_rank
    rw [lookup_of_mem_nodup v.bpe_ranks (left, right) rank hnd hmem]
  · intro h
    unfold _vocab.find_bpe_rank
    rw [lookup_of_not_mem v.bpe_ranks (left, right) h]
  · intro hne rank
    unfold _vocab.find_bpe_rank
    have hk : ((left, right) == (right, left)) = false := by
      simp only [beq_eq_false_iff_ne, ne_eq, Prod.mk.injEq, not_and]
      intro h; exact absurd h hne
    show (match List.lookup (left, right) (((right, left), rank) :: v.bpe_ranks) with
      | none => -1 | some rank => rank) = _
    rw [List.lookup_cons, hk]
  · intro hne
    unfold _vocab.find_bpe_rank
    have hk : (left, right) ≠ (right, left) := by
      intro h; exact hne (Prod.mk.inj h).1
    have hfilter : ∀ (m : List ((String × String) × Int)),
        (m.filter (fun e => e.1 != (right, left))).lookup (left, right)
          = m.lookup (left, right) := by
      intro m
      induction m with
      | nil => rfl
      | cons e rest ih =>
        obtain ⟨e1, e2⟩ := e
        by_cases he : e1 = (right, left)
        · subst he
          have h1 : ((left, right) == (right, left)) = false := by simpa using hk
          rw [List.filter_cons]
          simp only [bne_self_eq_false, Bool.false_eq_true, if_false]
          rw [List.lookup_cons, h1, ih]
        · have h1 : (e1 != (right, left)) = true := by simpa using he
          rw [List.filter_cons]
          simp only [h1, if_true]
          rw [List.lookup_cons, List.lookup_cons, ih]
    show (match List.lookup (left, right)
        (List.filter (fun e => e.1 != (right, left)) v.bpe_ranks) with
      | none => -1 | some rank => rank) = _
    rw [hfilter]

/-- C27: the default terminate token id, `-1000`, returned by
`BaseTokenizer::get_terminate_token_id` and set by the constructor of
`BaseModel`, lies outside the id range of every vocabulary: for every vocabulary
and every token type `is_token_of_type(-1000, t)` is `false`, so no id that is a
vocabulary token of some type equals the default terminate id. -/
theorem default_terminate_id_outside_vocab (v : _vocab) (t : token_type) :
    BaseTokenizer.get_terminate_token_id = -1000 ∧
    BaseModel.terminate_token_id = -1000 ∧
    v.is_token_of_type BaseTokenizer.get_terminate_token_id t = some false ∧
    v.is_token_of_type BaseModel.terminate_token_id t = some false ∧
    (∀ id t2, v.is_token_of_type id t2 = some true →
      id ≠ BaseTokenizer.get_terminate_token_id ∧ id ≠ BaseModel.terminate_token_id) := by
  have hneg : ∀ t2, v.is_token_of_type (-1000) t2 = some false := by
    intro t2
    unfold _vocab.is_token_of_type
    rw [if_pos (Or.inl (by decide))]
  refine ⟨rfl, rfl, hneg t, hneg t, ?_⟩
  intro id t2 h
  have hne : id ≠ -1000 := by
    intro hid
    rw [hid, hneg t2] at h
    simp at h
  exact ⟨hne, hne⟩

/-- C28: `llama::v2::Tokenizer::encode(text, ids, add_bos, add_eos)` only appends.
If the base `encode` only appends, the result is the old `ids`, then
`bos_token_id` if and only if `add_bos`, then exactly the ids the base `encode`
produces for `text`, then `eos_token_id` if and only if `add_eos`; the
two-argument `encode(text, ids)` adds neither and equals the base `encode`. -/
theorem v2_encode_only_appends (base : String → List Int → List Int)
    (hbase : ∀ text ids, base text ids = ids ++ base text [])
    (tok : llama.v2.Tokenizer) (text : String) (ids : List Int) (add_bos add_eos : Bool) :
    tok.encode base text ids add_bos add_eos
      = ids ++ (if add_bos then [tok.bos_token_id] else []) ++ base text []
        ++ (if add_eos then [tok.eos_token_id] else []) ∧
    tok.encode_2 base text ids = base text ids ∧
    tok.encode_2 base text ids = ids ++ base text [] := by
  refine ⟨?_, rfl, ?_⟩
  · have h1 := hbase text ids
    have h2 := hbase text (ids ++ [tok.bos_token_id])
    unfold llama.v2.Tokenizer.encode
    cases add_bos <;> cases add_eos
    · simp only [Bool.false_eq_true, if_false, List.append_nil]
      exact h1
    · simp only [Bool.false_eq_true, if_false, if_true, List.append_nil]
      rw [h1]
    · simp only [Bool.false_eq_true, if_false, if_true, List.append_nil]
      exact h2
    · simp only [if_true]
      rw [h2]
  · show base text ids = _
    exact hbase text ids

/-- Witness for C28: the base encoder that appends one id per character. -/
theorem v2_encode_only_appends_witness :
    (∀ text ids, demoEncode text ids = ids ++ demoEncode text []) ∧
    ({ sys_prompt := "", bos_token_id := 1, eos_token_id := 2, pad_token_id := 0 }
        : llama.v2.Tokenizer).encode demoEncode "hi" [7] true false
      = [7] ++ (if true then [1] else []) ++ demoEncode "hi" []
        ++ (if false then [2] else []) :=
  ⟨fun text ids => by simp [demoEncode],
   (v2_encode_only_appends demoEncode (fun text ids => by simp [demoEncode])
     { sys_prompt := "", bos_token_id := 1, eos_token_id := 2, pad_token_id := 0 }
     "hi" [7] true false).1⟩

/-- C24, the code at a failing input: for every input `append_pair` of the
Baichuan-7B encoder ends with the encoding of `user`, whatever `ai` is.  In round
1 with no system prompt, `user = "u"`, `ai = "a"` and empty `ids` it yields
`[100, 117, 101, 117]`, where `append_user` followed by the encoding of `ai` is
`[100, 117, 101, 97]`. -/
theorem baichuan_append_pair_repeats_user :
    (∀ (base : String → List Int → List Int) (tok : _7b.Tokenizer) (round_idx : Int)
        (user ai : String) (ids : List Int),
      _7b.ChatHistoryEncoder.append_pair base tok round_idx user ai ids
        = tok.toTokenizer.encode base user
            (_7b.ChatHistoryEncoder.append_user base tok round_idx user ids) false false) ∧
    _7b.ChatHistoryEncoder.append_pair demoEncode
        { sys_prompt := "", bos_token_id := 1, eos_token_id := 2, pad_token_id := 0,
          user_token_id := 100, assistant_token_id := 101 } 1 "u" "a" []
      = [100, 117, 101, 117] ∧
    _7b.ChatHistoryEncoder.append_user demoEncode
        { sys_prompt := "", bos_token_id := 1, eos_token_id := 2, pad_token_id := 0,
          user_token_id := 100, assistant_token_id := 101 } 1 "u" []
        ++ demoEncode "a" []
      = [100, 117, 101, 97] := by
  refine ⟨fun base tok round_idx user ai ids => rfl, by decide, by decide⟩

/-- C26: for the Llama-3 encoder, `append_pair(round_idx, user, ai, ids)` is
`append_user(round_idx, user, ids)` followed by the encoding of `ai` and then
`eot_id`; so every encoded round ends with the id that
`get_terminate_token_id()` returns, that id satisfies `is_special_id`, and (the
base `encode` only appending) in round 0 the appended ids start with
`bos_token_id` after the ids already present. -/
theorem llama3_round_ends_with_eot (base : String → List Int → List Int)
    (tok : llama.v3.Tokenizer) (round_idx : Int) (user ai : String) (ids : List Int) :
    llama.v3.ChatHistoryEncoder.append_pair base tok round_idx user ai ids
      = base ai (llama.v3.ChatHistoryEncoder.append_user base tok round_idx user ids)
        ++ [tok.eot_id] ∧
    (llama.v3.ChatHistoryEncoder.append_pair base tok round_idx user ai ids).getLast?
      = some tok.get_terminate_token_id ∧
    tok.is_special_id tok.get_terminate_token_id = true ∧
    ((∀ text l, base text l = l ++ base text []) →
      llama.v3.ChatHistoryEncoder.append_pair base tok round_idx user ai ids
        = llama.v3.ChatHistoryEncoder.append_user base tok round_idx user ids
          ++ base ai [] ++ [tok.eot_id] ∧
      (round_idx = 0 → ∃ rest,
        llama.v3.ChatHistoryEncoder.append_pair base tok round_idx user ai ids
          = ids ++ tok.bos_token_id :: rest)) := by
  refine ⟨rfl, ?_, ?_, ?_⟩
  · show (_ ++ [tok.eot_id]).getLast? = _
    rw [List.getLast?_append]
    rfl
  · unfold llama.v3.Tokenizer.is_special_id llama.v3.Tokenizer.get_terminate_token_id
    simp
  · intro hbase
    have hpair : llama.v3.ChatHistoryEncoder.append_pair base tok round_idx user ai ids
        = llama.v3.ChatHistoryEncoder.append_user base tok round_idx user ids
          ++ base ai [] ++ [tok.eot_id] := by
      show base ai _ ++ [tok.eot_id] = _
      rw [hbase ai]
    have hheader : ∀ text l, tok.encode_header base text l
        = l ++ (tok.start_header_id :: (base text [] ++
            [tok.end_header_id, tok.nl_token_id, tok.nl_token_id])) := by
      intro text l
      unfold llama.v3.Tokenizer.encode_header
      simp only []
      rw [hbase text (l ++ [tok.start_header_id])]
      simp
    have hcontent : ∀ text l, tok.encode_content base text l
        = l ++ (base text [] ++ [tok.eot_id]) := by
      intro text l
      unfold llama.v3.Tokenizer.encode_content
      simp only []
      rw [hbase text l]
      simp
    refine ⟨hpair, ?_⟩
    intro h0
    rw [hpair]
    unfold llama.v3.ChatHistoryEncoder.append_user
    simp only [h0, if_true]
    by_cases hs : tok.sys_prompt.length > 0
    · simp only [hs, if_true, hheader, hcontent, List.append_assoc, List.singleton_append,
        List.cons_append]
      exact ⟨_, rfl⟩
    · simp only [hs, if_false, hheader, hcontent, List.append_assoc, List.singleton_append,
        List.cons_append]
      exact ⟨_, rfl⟩

/-! ## Claims on `ordering` -/

/-- The sort rearranges its input. -/
theorem std_sort_perm {α : Type} (comp : α → α → Bool) (l : List α) :
    (std_sort comp l).Perm l :=
  List.perm_insertionSort _ l

/-- In a strict weak ordering, `y` not before `x` and `z` not before `y` give `z`
not before `x`; and of two elements one is not before the other. -/
theorem strict_weak_not_lt {T : Type} [LT T]
    (hcomp : IsStrictWeakOrder T (fun (x y : T) => x < y)) :
    (∀ x y z : T, ¬ y < x → ¬ z < y → ¬ z < x) ∧ (∀ x y : T, ¬ y < x ∨ ¬ x < y) := by
  have hirr : ∀ x : T, ¬ x < x := hcomp.toIsStrictOrder.toIsIrrefl.irrefl
  have htr : ∀ x y z : T, x < y → y < z → x < z := hcomp.toIsStrictOrder.toIsTrans.trans
  have hinc := hcomp.incomp_trans
  constructor
  · intro x y z h1 h2 h3
    by_cases hxy : x < y
    · exact h2 (htr z x y h3 hxy)
    · by_cases hyz : y < z
      · exact h1 (htr y z x hyz h3)
      · exact (hinc x y z ⟨hxy, h1⟩ ⟨hyz, h2⟩).2 h3
  · intro x y
    by_cases h : y < x
    · right
      intro h2
      exact hirr x (htr x y x h2 h)
    · left; exact h

/-- C29: `ordering(lst, order, descending)` always produces a permutation of the
indices: for every input list of length `n` whose elements `<` orders as a
strict weak ordering (the condition under which `std::sort` is defined), and
both values of `descending`, `order` has length `n` and contains each index
`0 .. n - 1` exactly once, and nothing else; an empty list gives an empty
`order`.  The order is one that `std::sort` may return: no index is followed by
one that the comparator puts before it. -/
theorem ordering_is_permutation {T : Type} [LT T] [DecidableRel (fun (x y : T) => x < y)]
    (lst : List T) (descending : Bool)
    (hcomp : IsStrictWeakOrder T (fun (x y : T) => x < y)) :
    (ordering lst descending).length = lst.length ∧
    (ordering lst descending).Perm (List.range lst.length) ∧
    (ordering lst descending).Nodup ∧
    (∀ i, i < lst.length → (ordering lst descending).count i = 1) ∧
    (∀ i, i ∈ ordering lst descending → i < lst.length) ∧
    (lst = [] → ordering lst descending = []) ∧
    (∀ i j, i < j → j < lst.length →
      ∃ a b x y, (ordering lst descending)[i]? = some a ∧
        (ordering lst descending)[j]? = some b ∧
        lst[a]? = some x ∧ lst[b]? = some y ∧
        (descending = false → ¬ y < x) ∧ (descending = true → ¬ y > x)) := by
  have hperm : (ordering lst descending).Perm (List.range lst.length) := by
    unfold ordering
    rw [← List.map_coe_finRange lst.length]
    exact (std_sort_perm _ _).map _
  have hnodup : (ordering lst descending).Nodup :=
    hperm.nodup_iff.mpr (List.nodup_range _)
  have hmem : ∀ i, i ∈ ordering lst descending ↔ i < lst.length := by
    intro i
    rw [hperm.mem_iff, List.mem_range]
  refine ⟨?_, hperm, hnodup, ?_, fun i hi => (hmem i).mp hi, ?_, ?_⟩
  · rw [hperm.length_eq, List.length_range]
  · intro i hi
    exact List.count_eq_one_of_mem hnodup ((hmem i).mpr hi)
  · intro hnil
    have hlen : (ordering lst descending).length = 0 := by
      rw [hperm.length_eq, List.length_range, hnil]
      rfl
    exact List.length_eq_zero.mp hlen
  · intro i j hij hj
    obtain ⟨hnt, htot⟩ := strict_weak_not_lt hcomp
    generalize hc : (fun (a b : Fin lst.length) =>
        if descending then decide (lst.get a > lst.get b) else decide (lst.get a < lst.get b))
      = comp
    have hasc : descending = false →
        ∀ a b, (comp b a = false ↔ ¬ lst.get b < lst.get a) := by
      intro hd a b
      rw [← hc, hd]
      simp
    have hdesc : descending = true →
        ∀ a b, (comp b a = false ↔ ¬ lst.get a < lst.get b) := by
      intro hd a b
      rw [← hc, hd]
      simp
    have htotal : IsTotal (Fin lst.length) (fun a b => comp b a = false) := by
      constructor
      intro a b
      cases hd : descending
      · rw [hasc hd a b, hasc hd b a]; exact htot _ _
      · rw [hdesc hd a b, hdesc hd b a]; exact (htot _ _).symm
    have htrans : IsTrans (Fin lst.length) (fun a b => comp b a = false) := by
      constructor
      intro a b c
      cases hd : descending
      · rw [hasc hd a b, hasc hd b c, hasc hd a c]; exact hnt _ _ _
      · rw [hdesc hd a b, hdesc hd b c, hdesc hd a c]; exact fun h1 h2 => hnt _ _ _ h2 h1
    have hsorted : (std_sort comp (List.finRange lst.length)).Sorted
        (fun a b => comp b a = false) :=
      List.sorted_insertionSort _ _
    have hlen : (std_sort comp (List.finRange lst.length)).length = lst.length := by
      rw [(std_sort_perm comp _).length_eq, List.length_finRange]
    have hord : ordering lst descending
        = (std_sort comp (List.finRange lst.length)).map Fin.val := by
      unfold ordering
      rw [hc]
    generalize std_sort comp (List.finRange lst.length) = S at hsorted hlen hord
    have hi : i < S.length := by omega
    have hjS : j < S.length := by omega
    have hrel : comp (S.get ⟨j, hjS⟩) (S.get ⟨i, hi⟩) = false :=
      hsorted.rel_get_of_lt (show (⟨i, hi⟩ : Fin S.length) < ⟨j, hjS⟩ from hij)
    refine ⟨(S.get ⟨i, hi⟩).val, (S.get ⟨j, hjS⟩).val, lst.get (S.get ⟨i, hi⟩),
      lst.get (S.get ⟨j, hjS⟩), ?_, ?_, ?_, ?_, ?_, ?_⟩
    · rw [hord, List.getElem?_map, List.getElem?_eq_getElem hi]
      rfl
    · rw [hord, List.getElem?_map, List.getElem?_eq_getElem hjS]
      rfl
    · rw [List.getElem?_eq_getElem (S.get ⟨i, hi⟩).isLt]
      rfl
    · rw [List.getElem?_eq_getElem (S.get ⟨j, hjS⟩).isLt]
      rfl
    · intro hd
      exact (hasc hd _ _).mp hrel
    · intro hd
      exact (hdesc hd _ _).mp hrel

/-- Witness for C29: the list `[3, 1, 2, 1]` of natural numbers, ascending. -/
theorem ordering_is_permutation_witness :
    IsStrictWeakOrder Nat (fun (x y : Nat) => x < y) ∧
    ordering ([3, 1, 2, 1] : List Nat) false = [1, 3, 2, 0] ∧
    (ordering ([3, 1, 2, 1] : List Nat) false).Perm (List.range 4) :=
  ⟨inferInstance, by decide,
   (ordering_is_permutation ([3, 1, 2, 1] : List Nat) false inferInstance).2.1⟩

/-- C30: `ordering(lst, order, descending)` sorts by value: for a list of totally
ordered elements and all `i < j < n`, `lst[order[i]] <= lst[order[j]]` when
`descending` is false and `lst[order[i]] >= lst[order[j]]` when it is true. -/
theorem ordering_sorts_by_value {T : Type} [LinearOrder T] (lst : List T) (descending : Bool)
    (i j : Nat) (hij : i < j) (hj : j < lst.length) :
    ∃ a b x y, (ordering lst descending)[i]? = some a ∧ (ordering lst descending)[j]? = some b ∧
      lst[a]? = some x ∧ lst[b]? = some y ∧
      (descending = false → x ≤ y) ∧ (descending = true → x ≥ y) := by
  generalize hcomp : (fun (a b : Fin lst.length) =>
      if descending then decide (lst.get a > lst.get b) else decide (lst.get a < lst.get b))
    = comp
  have hasc : descending = false → ∀ a b, (comp b a = false ↔ lst.get a ≤ lst.get b) := by
    intro hd a b
    rw [← hcomp, hd]
    simp
  have hdesc : descending = true → ∀ a b, (comp b a = false ↔ lst.get b ≤ lst.get a) := by
    intro hd a b
    rw [← hcomp, hd]
    simp
  have htotal : IsTotal (Fin lst.length) (fun a b => comp b a = false) := by
    constructor
    intro a b
    cases hd : descending
    · rw [hasc hd a b, hasc hd b a]; exact le_total _ _
    · rw [hdesc hd a b, hdesc hd b a]; exact le_total _ _
  have htrans : IsTrans (Fin lst.length) (fun a b => comp b a = false) := by
    constructor
    intro a b c
    cases hd : descending
    · rw [hasc hd a b, hasc hd b c, hasc hd a c]; exact le_trans
    · rw [hdesc hd a b, hdesc hd b c, hdesc hd a c]; exact fun h1 h2 => le_trans h2 h1
  have hsorted : (std_sort comp (List.finRange lst.length)).Sorted
      (fun a b => comp b a = false) :=
    List.sorted_insertionSort _ _
  have hlen : (std_sort comp (List.finRange lst.length)).length = lst.length := by
    rw [(std_sort_perm comp _).length_eq, List.length_finRange]
  have hord : ordering lst descending = (std_sort comp (List.finRange lst.length)).map Fin.val := by
    unfold ordering
    rw [hcomp]
  generalize std_sort comp (List.finRange lst.length) = S at hsorted hlen hord
  have hi : i < S.length := by omega
  have hjS : j < S.length := by omega
  have hrel : comp (S.get ⟨j, hjS⟩) (S.get ⟨i, hi⟩) = false :=
    hsorted.rel_get_of_lt (show (⟨i, hi⟩ : Fin S.length) < ⟨j, hjS⟩ from hij)
  refine ⟨(S.get ⟨i, hi⟩).val, (S.get ⟨j, hjS⟩).val, lst.get (S.get ⟨i, hi⟩),
    lst.get (S.get ⟨j, hjS⟩), ?_, ?_, ?_, ?_, ?_, ?_⟩
  · rw [hord, List.getElem?_map, List.getElem?_eq_getElem hi]
    rfl
  · rw [hord, List.getElem?_map, List.getElem?_eq_getElem hjS]
    rfl
  · rw [List.getElem?_eq_getElem (S.get ⟨i, hi⟩).isLt]
    rfl
  · rw [List.getElem?_eq_getElem (S.get ⟨j, hjS⟩).isLt]
    rfl
  · intro hd
    exact (hasc hd _ _).mp hrel
  · intro hd
    exact (hdesc hd _ _).mp hrel

/-- Witness for C30: the list `[3, 1, 2, 1]`, ascending, positions 0 and 2. -/
theorem ordering_sorts_by_value_witness :
    (0 : Nat) < 2 ∧ 2 < ([3, 1, 2, 1] : List Nat).length ∧
    ∃ a b x y, (ordering ([3, 1, 2, 1] : List Nat) false)[0]? = some a ∧
      (ordering ([3, 1, 2, 1] : List Nat) false)[2]? = some b ∧
      ([3, 1, 2, 1] : List Nat)[a]? = some x ∧ ([3, 1, 2, 1] : List Nat)[b]? = some y ∧
      (false = false → x ≤ y) ∧ (false = true → x ≥ y) :=
  ⟨by decide, by decide,
   ordering_sorts_by_value ([3, 1, 2, 1] : List Nat) false 0 2 (by decide) (by decide)⟩

/-! ## Lemmas on the three-dimensional copies -/

/-- Two step functions that agree on the members of a list give the same fold. -/
theorem foldl_congr_mem {β γ : Type} (f g : β → γ → β) (l : List γ)
    (h : ∀ b x, x ∈ l → f b x = g b x) (b : β) : l.foldl f b = l.foldl g b := by
  induction l generalizing b with
  | nil => rfl
  | cons x xs ih =>
    simp only [List.foldl_cons]
    rw [h b x (List.mem_cons_self x xs)]
    exact ih (fun b y hy => h b y (List.mem_cons_of_mem x hy)) _

/-- Two nested ascending loops are one ascending loop over the flattened index. -/
theorem foldl_range_flatten {β : Type} (F : β → Nat → Nat → β) (n m : Nat) (b : β) :
    (List.range n).foldl (fun acc i => (List.range m).foldl (fun acc2 d => F acc2 i d) acc) b
      = (List.range (n * m)).foldl (fun acc j => F acc (j / m) (j % m)) b := by
  induction n with
  | zero => simp
  | succ n ih =>
    rw [List.range_succ, List.foldl_append, List.foldl_cons, List.foldl_nil, ih,
      Nat.succ_mul, List.range_add, List.foldl_append, List.foldl_map]
    apply foldl_congr_mem
    intro acc d hd
    have hdm : d < m := List.mem_range.mp hd
    have hm : 0 < m := by omega
    have h1 : (n * m + d) / m = n := by
      rw [Nat.add_comm, Nat.add_mul_div_right _ _ hm, Nat.div_eq_of_lt hdm, Nat.zero_add]
    have h2 : (n * m + d) % m = d := by
      rw [Nat.add_comm, Nat.add_mul_mod_self_right, Nat.mod_eq_of_lt hdm]
    rw [h1, h2]

/-- The cell behind an element of a three-dimensional view whose strides and offset
are whole elements. -/
theorem ggml_view_3d_cell {α : Type} (t : Tensor α) (ne0 ne1 ne2 s1 s2 o i0 i1 i2 : Nat)
    (hes : 0 < t.elsize) :
    (ggml_view_3d t ne0 ne1 ne2 (s1 * t.elsize) (s2 * t.elsize) (o * t.elsize)).cell i0 i1 i2
      = o + i2 * s2 + i1 * s1 + i0 := by
  simp only [ggml_view_3d]
  have h : o * t.elsize + i2 * (s2 * t.elsize) + i1 * (s1 * t.elsize) + i0 * t.elsize
      = t.elsize * (o + i2 * s2 + i1 * s1 + i0) := by ring
  rw [h]
  exact Nat.mul_div_cancel_left _ hes

/-- The copy between two views `[ne0, ne1, ne2]` whose rows are contiguous (stride
`ne0` elements) is the two-dimensional copy of `ne2` rows of `ne1 * ne0` elements. -/
theorem ggml_cpy_3d_contiguous_rows {α : Type} (t : Tensor α) (ne0 ne1 ne2 s2 b : Nat)
    (hes : 0 < t.elsize) :
    ggml_cpy_3d t
        (ggml_view_3d t ne0 ne1 ne2 (ne0 * t.elsize) (s2 * t.elsize) (b * t.elsize))
        (ggml_view_3d t ne0 ne1 ne2 (ne0 * t.elsize) (s2 * t.elsize) 0)
      = ggml_cpy t (ggml_view_2d t (ne1 * ne0) ne2 (s2 * t.elsize) (b * t.elsize))
          (ggml_view_2d t (ne1 * ne0) ne2 (s2 * t.elsize) 0) := by
  have hs : ∀ i0 i1 i2,
      (ggml_view_3d t ne0 ne1 ne2 (ne0 * t.elsize) (s2 * t.elsize) (b * t.elsize)).cell i0 i1 i2
        = b + i2 * s2 + i1 * ne0 + i0 := fun i0 i1 i2 =>
    ggml_view_3d_cell t ne0 ne1 ne2 ne0 s2 b i0 i1 i2 hes
  have hd : ∀ i0 i1 i2,
      (ggml_view_3d t ne0 ne1 ne2 (ne0 * t.elsize) (s2 * t.elsize) 0).cell i0 i1 i2
        = i2 * s2 + i1 * ne0 + i0 := by
    intro i0 i1 i2
    have h := ggml_view_3d_cell t ne0 ne1 ne2 ne0 s2 0 i0 i1 i2 hes
    rw [Nat.zero_mul] at h
    rw [h]; omega
  have hs2 : ∀ i0 i1,
      (ggml_view_2d t (ne1 * ne0) ne2 (s2 * t.elsize) (b * t.elsize)).index t.elsize i0 i1
        = i1 * s2 + b + i0 := fun i0 i1 => View.index_2d t (ne1 * ne0) ne2 s2 b i0 i1 hes
  have hd2 : ∀ i0 i1,
      (ggml_view_2d t (ne1 * ne0) ne2 (s2 * t.elsize) 0).index t.elsize i0 i1
        = i1 * s2 + i0 := by
    intro i0 i1
    have h := View.index_2d t (ne1 * ne0) ne2 s2 0 i0 i1 hes
    rw [Nat.zero_mul] at h
    rw [h]; omega
  generalize hsrc :
    ggml_view_3d t ne0 ne1 ne2 (ne0 * t.elsize) (s2 * t.elsize) (b * t.elsize) = src at hs
  generalize hdst : ggml_view_3d t ne0 ne1 ne2 (ne0 * t.elsize) (s2 * t.elsize) 0 = dst at hd
  generalize hsrc2 : ggml_view_2d t (ne1 * ne0) ne2 (s2 * t.elsize) (b * t.elsize) = src2 at hs2
  generalize hdst2 : ggml_view_2d t (ne1 * ne0) ne2 (s2 * t.elsize) 0 = dst2 at hd2
  have e0 : src.ne0 = ne0 := by rw [← hsrc]; rfl
  have e1 : src.ne1 = ne1 := by rw [← hsrc]; rfl
  have e2 : src.ne2 = ne2 := by rw [← hsrc]; rfl
  have f0 : src2.ne0 = ne1 * ne0 := by rw [← hsrc2]; rfl
  have f1 : src2.ne1 = ne2 := by rw [← hsrc2]; rfl
  have hrow : ∀ (buf : List α) (h : Nat),
      cpy3_plane src dst buf h = cpy_row t.elsize src2 dst2 buf h := by
    intro buf h
    have hflat := foldl_range_flatten (fun acc i d => cpy3_elem src dst h i acc d) ne1 ne0 buf
    have hr : (cpy3_row src dst h : List α → Nat → List α)
        = fun acc i => (List.range ne0).foldl (fun acc2 d => cpy3_elem src dst h i acc2 d) acc := by
      funext acc i
      simp only [cpy3_row, e0]
    simp only [cpy3_plane, cpy_row, e1, f0]
    rw [hr]
    refine hflat.trans ?_
    apply foldl_congr_mem
    intro acc j _
    have hj : j / ne0 * ne0 + j % ne0 = j := Nat.div_add_mod' j ne0
    simp only [cpy3_elem, cpy_elem, hs, hd, hs2, hd2]
    have a1 : b + h * s2 + j / ne0 * ne0 + j % ne0 = h * s2 + b + j := by omega
    have a2 : h * s2 + j / ne0 * ne0 + j % ne0 = h * s2 + j := by omega
    rw [a1, a2]
  simp only [ggml_cpy_3d, ggml_cpy, e2, f1]
  congr 1
  exact foldl_congr_mem _ _ _ (fun buf h _ => hrow buf h) _

/-- The copy between two views `[ne0, ne1, ne2]` whose planes are contiguous in
rows (plane stride `ne1` rows) is the two-dimensional copy of `ne2 * ne1` rows. -/
theorem ggml_cpy_3d_contiguous_planes {α : Type} (t : Tensor α) (ne0 ne1 ne2 s1 b : Nat)
    (hes : 0 < t.elsize) :
    ggml_cpy_3d t
        (ggml_view_3d t ne0 ne1 ne2 (s1 * t.elsize) (ne1 * s1 * t.elsize) (b * t.elsize))
        (ggml_view_3d t ne0 ne1 ne2 (s1 * t.elsize) (ne1 * s1 * t.elsize) 0)
      = ggml_cpy t (ggml_view_2d t ne0 (ne2 * ne1) (s1 * t.elsize) (b * t.elsize))
          (ggml_view_2d t ne0 (ne2 * ne1) (s1 * t.elsize) 0) := by
  have hs : ∀ i0 i1 i2,
      (ggml_view_3d t ne0 ne1 ne2 (s1 * t.elsize) (ne1 * s1 * t.elsize) (b * t.elsize)).cell
          i0 i1 i2 = b + i2 * (ne1 * s1) + i1 * s1 + i0 := fun i0 i1 i2 =>
    ggml_view_3d_cell t ne0 ne1 ne2 s1 (ne1 * s1) b i0 i1 i2 hes
  have hd : ∀ i0 i1 i2,
      (ggml_view_3d t ne0 ne1 ne2 (s1 * t.elsize) (ne1 * s1 * t.elsize) 0).cell i0 i1 i2
        = i2 * (ne1 * s1) + i1 * s1 + i0 := by
    intro i0 i1 i2
    have h := ggml_view_3d_cell t ne0 ne1 ne2 s1 (ne1 * s1) 0 i0 i1 i2 hes
    rw [Nat.zero_mul] at h
    rw [h]; omega
  have hs2 : ∀ i0 i1,
      (ggml_view_2d t ne0 (ne2 * ne1) (s1 * t.elsize) (b * t.elsize)).index t.elsize i0 i1
        = i1 * s1 + b + i0 := fun i0 i1 => View.index_2d t ne0 (ne2 * ne1) s1 b i0 i1 hes
  have hd2 : ∀ i0 i1,
      (ggml_view_2d t ne0 (ne2 * ne1) (s1 * t.elsize) 0).index t.elsize i0 i1
        = i1 * s1 + i0 := by
    intro i0 i1
    have h := View.index_2d t ne0 (ne2 * ne1) s1 0 i0 i1 hes
    rw [Nat.zero_mul] at h
    rw [h]; omega
  generalize hsrc :
    ggml_view_3d t ne0 ne1 ne2 (s1 * t.elsize) (ne1 * s1 * t.elsize) (b * t.elsize) = src at hs
  generalize hdst :
    ggml_view_3d t ne0 ne1 ne2 (s1 * t.elsize) (ne1 * s1 * t.elsize) 0 = dst at hd
  generalize hsrc2 : ggml_view_2d t ne0 (ne2 * ne1) (s1 * t.elsize) (b * t.elsize) = src2 at hs2
  generalize hdst2 : ggml_view_2d t ne0 (ne2 * ne1) (s1 * t.elsize) 0 = dst2 at hd2
  have e0 : src.ne0 = ne0 := by rw [← hsrc]; rfl
  have e1 : src.ne1 = ne1 := by rw [← hsrc]; rfl
  have e2 : src.ne2 = ne2 := by rw [← hsrc]; rfl
  have f0 : src2.ne0 = ne0 := by rw [← hsrc2]; rfl
  have f1 : src2.ne1 = ne2 * ne1 := by rw [← hsrc2]; rfl
  have hp : (cpy3_plane src dst : List α → Nat → List α)
      = fun acc i2 => (List.range ne1).foldl (fun acc2 i1 => cpy3_row src dst i2 acc2 i1) acc := by
    funext acc i2
    simp only [cpy3_plane, e1]
  have hflat := foldl_range_flatten (fun acc i2 i1 => cpy3_row src dst i2 acc i1) ne2 ne1 t.data
  simp only [ggml_cpy_3d, ggml_cpy, e2, f1]
  congr 1
  rw [hp]
  refine hflat.trans ?_
  apply foldl_congr_mem
  intro acc r _
  simp only [cpy3_row, cpy_row, e0, f0]
  apply foldl_congr_mem
  intro acc2 i0 _
  have hr : r * s1 = r / ne1 * (ne1 * s1) + r % ne1 * s1 := by
    conv_lhs => rw [← Nat.div_add_mod' r ne1]
    ring
  simp only [cpy3_elem, cpy_elem, hs, hd, hs2, hd2]
  have a1 : b + r / ne1 * (ne1 * s1) + r % ne1 * s1 + i0 = r * s1 + b + i0 := by omega
  have a2 : r / ne1 * (ne1 * s1) + r % ne1 * s1 + i0 = r * s1 + i0 := by omega
  rw [a1, a2]

/-! ## Lemmas on the shift block of `GLMSelfAttention::forward` -/

/-- With a descriptor `{shift, total}`, `0 < shift < total`, both copies are made
and the descriptor is cleared. -/
theorem GLMSelfAttention.forward_shift_pending {α : Type} (a : GLMSelfAttention α)
    (head_size shift total : Nat)
    (hsp : a.shift_pending = { shift := shift, total := total })
    (hshift : 0 < shift) (hremain : shift < total) :
    a.forward_shift head_size =
      { a with
        k_cache := ggml_cpy_3d a.k_cache
          (ggml_view_3d a.k_cache head_size (total - shift) a.num_attention_heads
            a.k_nb1 a.k_nb2 (shift * head_size * a.k_cache.elsize))
          (ggml_view_3d a.k_cache head_size (total - shift) a.num_attention_heads
            a.k_nb1 a.k_nb2 0)
        v_cache := ggml_cpy_3d a.v_cache
          (ggml_view_3d a.v_cache (total - shift) head_size a.num_attention_heads
            a.v_nb1 a.v_nb2 (shift * a.v_cache.elsize))
          (ggml_view_3d a.v_cache (total - shift) head_size a.num_attention_heads
            a.v_nb1 a.v_nb2 0)
        shift_pending := ShiftPending.clear { shift := shift, total := total } } := by
  have h1 : ((shift : Int) > 0) := by omega
  have h2 : ((total : Int) - (shift : Int) > 0) := by omega
  have h3 : ((total : Int) - (shift : Int)).toNat = total - shift := by omega
  have h4 : ((shift : Int)).toNat = shift := by omega
  simp only [GLMSelfAttention.forward_shift, hsp, h1, h2, h3, h4, if_true]

/-- Compaction of K in the GLM layer: the entry now at `K[h][i][d]`,
`i < total - shift`, is the entry that was at `K[h][i + shift][d]`, and that
entry exists. -/
theorem GLMSelfAttention.forward_shift_k_entry {α : Type} (a : GLMSelfAttention α)
    (head_size n_ctx shift total : Nat) (hwf : a.wf head_size n_ctx)
    (hsp : a.shift_pending = { shift := shift, total := total })
    (hshift : 0 < shift) (hremain : shift < total) (htotal : total ≤ n_ctx)
    (h i d : Nat) (hh : h < a.num_attention_heads) (hi : i < total - shift)
    (hd : d < head_size) :
    (a.forward_shift head_size).k_entry h i d = a.k_entry h (i + shift) d ∧
    ∃ x, a.k_entry h (i + shift) d = some x := by
  obtain ⟨hes, _, hk1, hk2, _, _, hklen, _⟩ := hwf
  have hcell : ∀ p, (h * a.k_nb2 + p * a.k_nb1 + d * a.k_cache.elsize) / a.k_cache.elsize
      = h * (n_ctx * head_size) + p * head_size + d := by
    intro p
    have e : h * a.k_nb2 + p * a.k_nb1 + d * a.k_cache.elsize
        = a.k_cache.elsize * (h * (n_ctx * head_size) + p * head_size + d) := by
      rw [hk1, hk2]; ring
    rw [e]
    exact Nat.mul_div_cancel_left _ hes
  have e1 : shift * head_size + (total - shift) * head_size = total * head_size := by
    rw [← Nat.add_mul]; congr 1; omega
  have e2 : total * head_size ≤ n_ctx * head_size := Nat.mul_le_mul_right _ htotal
  have e3 : (i + 1) * head_size ≤ (total - shift) * head_size := Nat.mul_le_mul_right _ hi
  have e4 : (i + 1) * head_size = i * head_size + head_size := Nat.succ_mul _ _
  have e5 : (i + shift) * head_size = i * head_size + shift * head_size := Nat.add_mul _ _ _
  have e6 : (h + 1) * (n_ctx * head_size) ≤ a.num_attention_heads * (n_ctx * head_size) :=
    Nat.mul_le_mul_right _ hh
  have e7 : (h + 1) * (n_ctx * head_size) = h * (n_ctx * head_size) + n_ctx * head_size :=
    Nat.succ_mul _ _
  obtain ⟨_, hcopy, _⟩ := ggml_cpy_2d_spec a.k_cache ((total - shift) * head_size)
    a.num_attention_heads (n_ctx * head_size) (shift * head_size) hes (by omega) (by omega)
  constructor
  · rw [GLMSelfAttention.forward_shift_pending a head_size shift total hsp hshift hremain]
    show (ggml_cpy_3d a.k_cache _ _).data[_]? = a.k_cache.data[_]?
    rw [hk1, hk2, ggml_cpy_3d_contiguous_rows a.k_cache head_size (total - shift)
      a.num_attention_heads (n_ctx * head_size) (shift * head_size) hes]
    have hc := hcell i
    rw [hk1, hk2] at hc
    have hc2 := hcell (i + shift)
    rw [hk1, hk2] at hc2
    have hl : (ggml_cpy a.k_cache
        (ggml_view_2d a.k_cache ((total - shift) * head_size) a.num_attention_heads
          (n_ctx * head_size * a.k_cache.elsize) (shift * head_size * a.k_cache.elsize))
        (ggml_view_2d a.k_cache ((total - shift) * head_size) a.num_attention_heads
          (n_ctx * head_size * a.k_cache.elsize) 0)).elsize = a.k_cache.elsize := rfl
    rw [hl, hc, hc2, Nat.add_assoc, hcopy h (i * head_size + d) hh (by omega)]
    congr 1; omega
  · have hlt : h * (n_ctx * head_size) + (i + shift) * head_size + d
        < a.k_cache.data.length := by omega
    refine ⟨a.k_cache.data[h * (n_ctx * head_size) + (i + shift) * head_size + d], ?_⟩
    unfold GLMSelfAttention.k_entry
    rw [hcell (i + shift)]
    exact List.getElem?_eq_getElem hlt

/-- Compaction of V in the GLM layer: the entry now at `V[h][d][i]`,
`i < total - shift`, is the entry that was at `V[h][d][i + shift]`, and that
entry exists. -/
theorem GLMSelfAttention.forward_shift_v_entry {α : Type} (a : GLMSelfAttention α)
    (head_size n_ctx shift total : Nat) (hwf : a.wf head_size n_ctx)
    (hsp : a.shift_pending = { shift := shift, total := total })
    (hshift : 0 < shift) (hremain : shift < total) (htotal : total ≤ n_ctx)
    (h d i : Nat) (hh : h < a.num_attention_heads) (hd : d < head_size)
    (hi : i < total - shift) :
    (a.forward_shift head_size).v_entry h d i = a.v_entry h d (i + shift) ∧
    ∃ x, a.v_entry h d (i + shift) = some x := by
  obtain ⟨_, hes, _, _, hv1, hv2, _, hvlen⟩ := hwf
  have hcell : ∀ p, (h * a.v_nb2 + d * a.v_nb1 + p * a.v_cache.elsize) / a.v_cache.elsize
      = (h * head_size + d) * n_ctx + p := by
    intro p
    have e : h * a.v_nb2 + d * a.v_nb1 + p * a.v_cache.elsize
        = a.v_cache.elsize * ((h * head_size + d) * n_ctx + p) := by
      rw [hv1, hv2]; ring
    rw [e]
    exact Nat.mul_div_cancel_left _ hes
  have e1 : (h + 1) * head_size ≤ a.num_attention_heads * head_size :=
    Nat.mul_le_mul_right _ hh
  have e2 : (h + 1) * head_size = h * head_size + head_size := Nat.succ_mul _ _
  have hrow : h * head_size + d < a.num_attention_heads * head_size := by omega
  have e3 : (h * head_size + d + 1) * n_ctx ≤ a.num_attention_heads * head_size * n_ctx :=
    Nat.mul_le_mul_right _ hrow
  have e4 : (h * head_size + d + 1) * n_ctx = (h * head_size + d) * n_ctx + n_ctx :=
    Nat.succ_mul _ _
  obtain ⟨_, hcopy, _⟩ := ggml_cpy_2d_spec a.v_cache (total - shift)
    (a.num_attention_heads * head_size) n_ctx shift hes (by omega) (by omega)
  constructor
  · rw [GLMSelfAttention.forward_shift_pending a head_size shift total hsp hshift hremain]
    show (ggml_cpy_3d a.v_cache _ _).data[_]? = a.v_cache.data[_]?
    rw [hv1, hv2, ggml_cpy_3d_contiguous_planes a.v_cache (total - shift) head_size
      a.num_attention_heads n_ctx shift hes]
    have hc := hcell i
    rw [hv1, hv2] at hc
    have hc2 := hcell (i + shift)
    rw [hv1, hv2] at hc2
    have hl : (ggml_cpy a.v_cache
        (ggml_view_2d a.v_cache (total - shift) (a.num_attention_heads * head_size)
          (n_ctx * a.v_cache.elsize) (shift * a.v_cache.elsize))
        (ggml_view_2d a.v_cache (total - shift) (a.num_attention_heads * head_size)
          (n_ctx * a.v_cache.elsize) 0)).elsize = a.v_cache.elsize := rfl
    rw [hl, hc, hc2, hcopy (h * head_size + d) i hrow hi]
    congr 1; omega
  · have hlt : (h * head_size + d) * n_ctx + (i + shift) < a.v_cache.data.length := by omega
    refine ⟨a.v_cache.data[(h * head_size + d) * n_ctx + (i + shift)], ?_⟩
    unfold GLMSelfAttention.v_entry
    rw [hcell (i + shift)]
    exact List.getElem?_eq_getElem hlt

/-- The store of the new keys and values leaves the descriptor as it is. -/
theorem GLMSelfAttention.forward_store_shift_pending {α β : Type} (cvt : β → α)
    (a : GLMSelfAttention α) (head_size n_past qlen : Nat)
    (key_layer value_layer : Nat → Nat → Nat → Option β) :
    (a.forward_store cvt head_size n_past qlen key_layer value_layer).shift_pending
      = a.shift_pending := rfl

/-! ## Lemmas on the mask of the GLM prefill -/

/-- A loop whose every step `i` writes `v` into the cells `Q i` and leaves the
other cells alone writes `v` into the cells of all steps and leaves the others
alone. -/
theorem fill_fold {α : Type} (v : α) (L : Nat) (S : List α → Nat → List α)
    (Q : Nat → Nat → Prop)
    (hS : ∀ b i, b.length = L → (S b i).length = L ∧
      ∀ k, (Q i k → k < L → (S b i)[k]? = some v) ∧ (¬ Q i k → (S b i)[k]? = b[k]?)) :
    ∀ n b, b.length = L →
      ((List.range n).foldl S b).length = L ∧
      ∀ k, ((∃ i, i < n ∧ Q i k) → k < L → ((List.range n).foldl S b)[k]? = some v) ∧
        ((¬ ∃ i, i < n ∧ Q i k) → ((List.range n).foldl S b)[k]? = b[k]?) := by
  intro n
  induction n with
  | zero =>
    intro b hb
    refine ⟨hb, fun k => ⟨?_, fun _ => rfl⟩⟩
    rintro ⟨i, hi, _⟩
    omega
  | succ n ih =>
    intro b hb
    obtain ⟨hl, hk⟩ := ih b hb
    rw [List.range_succ, List.foldl_append, List.foldl_cons, List.foldl_nil]
    obtain ⟨hl2, hk2⟩ := hS ((List.range n).foldl S b) n hl
    refine ⟨hl2, fun k => ⟨?_, ?_⟩⟩
    · rintro ⟨i, hi, hq⟩ hkL
      by_cases hn : Q n k
      · exact (hk2 k).1 hn hkL
      · rw [(hk2 k).2 hn]
        have hin : i < n := by
          rcases Nat.lt_succ_iff_lt_or_eq.mp hi with h | h
          · exact h
          · subst h; exact absurd hq hn
        exact (hk k).1 ⟨i, hin, hq⟩ hkL
    · intro hne
      have hn : ¬ Q n k := fun hq => hne ⟨n, Nat.lt_succ_self n, hq⟩
      rw [(hk2 k).2 hn]
      exact (hk k).2 (fun ⟨i, hi, hq⟩ => hne ⟨i, Nat.lt_succ_of_lt hi, hq⟩)

/-- Copying a tensor whose every element is `v` into a three-dimensional view
writes `v` into the cells of the view and leaves every other cell unchanged. -/
theorem ggml_cpy_3d_from_const {α : Type} (v : α) (t : Tensor α) (dst : View3) :
    (ggml_cpy_3d_from (fun (x : α) => x) (fun _ _ _ => some v) t dst).data.length
      = t.data.length ∧
    ∀ k,
      ((∃ i2, i2 < dst.ne2 ∧ ∃ i1, i1 < dst.ne1 ∧ ∃ i0, i0 < dst.ne0 ∧ k = dst.cell i0 i1 i2) →
        k < t.data.length →
        (ggml_cpy_3d_from (fun (x : α) => x) (fun _ _ _ => some v) t dst).data[k]? = some v) ∧
      ((¬ ∃ i2, i2 < dst.ne2 ∧ ∃ i1, i1 < dst.ne1 ∧ ∃ i0, i0 < dst.ne0 ∧
          k = dst.cell i0 i1 i2) →
        (ggml_cpy_3d_from (fun (x : α) => x) (fun _ _ _ => some v) t dst).data[k]?
          = t.data[k]?) := by
  have helem : ∀ i2 i1 (b : List α) i0, b.length = t.data.length →
      (cpy3_from_elem (fun (x : α) => x) (fun _ _ _ => some v) dst i2 i1 b i0).length
        = t.data.length ∧
      ∀ k, (k = dst.cell i0 i1 i2 → k < t.data.length →
          (cpy3_from_elem (fun (x : α) => x) (fun _ _ _ => some v) dst i2 i1 b i0)[k]?
            = some v) ∧
        (¬ k = dst.cell i0 i1 i2 →
          (cpy3_from_elem (fun (x : α) => x) (fun _ _ _ => some v) dst i2 i1 b i0)[k]?
            = b[k]?) := by
    intro i2 i1 b i0 hb
    simp only [cpy3_from_elem]
    refine ⟨by rw [List.length_set]; exact hb, fun k => ⟨?_, ?_⟩⟩
    · intro hk hkL
      rw [List.getElem?_set, if_pos hk.symm, if_pos (by omega)]
    · intro hk
      rw [List.getElem?_set, if_neg (fun h => hk h.symm)]
  have hrow : ∀ i2 (b : List α) i1, b.length = t.data.length →
      ((List.range dst.ne0).foldl
          (cpy3_from_elem (fun (x : α) => x) (fun _ _ _ => some v) dst i2 i1) b).length
        = t.data.length ∧
      ∀ k, ((∃ i0, i0 < dst.ne0 ∧ k = dst.cell i0 i1 i2) → k < t.data.length →
          ((List.range dst.ne0).foldl
            (cpy3_from_elem (fun (x : α) => x) (fun _ _ _ => some v) dst i2 i1) b)[k]?
            = some v) ∧
        ((¬ ∃ i0, i0 < dst.ne0 ∧ k = dst.cell i0 i1 i2) →
          ((List.range dst.ne0).foldl
            (cpy3_from_elem (fun (x : α) => x) (fun _ _ _ => some v) dst i2 i1) b)[k]?
            = b[k]?) := by
    intro i2 b i1 hb
    exact fill_fold v t.data.length _ (fun i0 k => k = dst.cell i0 i1 i2)
      (fun b i0 hb => helem i2 i1 b i0 hb) dst.ne0 b hb
  have hplane : ∀ (b : List α) i2, b.length = t.data.length →
      ((List.range dst.ne1).foldl (fun buf1 i1 =>
          (List.range dst.ne0).foldl
            (cpy3_from_elem (fun (x : α) => x) (fun _ _ _ => some v) dst i2 i1) buf1) b).length
        = t.data.length ∧
      ∀ k, ((∃ i1, i1 < dst.ne1 ∧ ∃ i0, i0 < dst.ne0 ∧ k = dst.cell i0 i1 i2) →
          k < t.data.length →
          ((List.range dst.ne1).foldl (fun buf1 i1 =>
            (List.range dst.ne0).foldl
              (cpy3_from_elem (fun (x : α) => x) (fun _ _ _ => some v) dst i2 i1) buf1) b)[k]?
            = some v) ∧
        ((¬ ∃ i1, i1 < dst.ne1 ∧ ∃ i0, i0 < dst.ne0 ∧ k = dst.cell i0 i1 i2) →
          ((List.range dst.ne1).foldl (fun buf1 i1 =>
            (List.range dst.ne0).foldl
              (cpy3_from_elem (fun (x : α) => x) (fun _ _ _ => some v) dst i2 i1) buf1) b)[k]?
            = b[k]?) := by
    intro b i2 hb
    exact fill_fold v t.data.length _
      (fun i1 k => ∃ i0, i0 < dst.ne0 ∧ k = dst.cell i0 i1 i2)
      (fun b i1 hb => hrow i2 b i1 hb) dst.ne1 b hb
  exact fill_fold v t.data.length _
    (fun i2 k => ∃ i1, i1 < dst.ne1 ∧ ∃ i0, i0 < dst.ne0 ∧ k = dst.cell i0 i1 i2)
    (fun b i2 hb => hplane b i2 hb) dst.ne2 t.data rfl

/-- The flat offset `c + r * q + h * (q * q)` determines `c` and `r` when both are
below `q`. -/
theorem offset_unique (q c r h c2 r2 h2 : Nat) (hc : c < q) (hr : r < q) (hc2 : c2 < q)
    (hr2 : r2 < q) (he : c + r * q + h * (q * q) = c2 + r2 * q + h2 * (q * q)) :
    c = c2 ∧ r = r2 := by
  have hq : 0 < q := by omega
  have e1 : c + r * q + h * (q * q) = c + (r + h * q) * q := by ring
  have e2 : c2 + r2 * q + h2 * (q * q) = c2 + (r2 + h2 * q) * q := by ring
  rw [e1, e2] at he
  have hm := congrArg (fun x => x % q) he
  simp only [Nat.add_mul_mod_self_right, Nat.mod_eq_of_lt hc, Nat.mod_eq_of_lt hc2] at hm
  have hd := congrArg (fun x => x / q) he
  simp only [Nat.add_mul_div_right _ _ hq, Nat.div_eq_of_lt hc, Nat.div_eq_of_lt hc2,
    Nat.zero_add] at hd
  have hm2 := congrArg (fun x => x % q) hd
  simp only [Nat.add_mul_mod_self_right, Nat.mod_eq_of_lt hr, Nat.mod_eq_of_lt hr2] at hm2
  exact ⟨hm, hm2⟩

/-- C25: the mask of the GLM prefill.  With `n_past = 0` and `qlen >= 1`, on the
scores tensor `[heads, qlen, qlen]` the mask block of `forward` sets the score
at (head `h`, query row `r`, key column `c`) to `-inf` when `c = qlen - 1` and
`r < qlen - 1`, and leaves every other score as computed; the masked cells are
the flat offsets `(qlen - 1) + r * qlen + h * qlen * qlen`, all inside the
tensor.  With `n_past > 0` nothing is masked. -/
theorem glm_prefill_mask {α : Type} (neg_inf : α) (heads qlen : Nat) (scores : Tensor α)
    (hes : 0 < scores.elsize) (hq : 1 ≤ qlen)
    (hlen : scores.data.length = heads * qlen * qlen) :
    (∀ h r c, h < heads → r < qlen → c < qlen →
      (GLMSelfAttention.mask_scores neg_inf heads 0 qlen scores).data[
          c + r * qlen + h * (qlen * qlen)]?
        = if c = qlen - 1 ∧ r < qlen - 1 then some neg_inf
          else scores.data[c + r * qlen + h * (qlen * qlen)]?) ∧
    (∀ h r, h < heads → r < qlen - 1 →
      (ggml_view_3d scores 1 (qlen - 1) heads (qlen * scores.elsize)
          (qlen * qlen * scores.elsize) ((qlen - 1) * scores.elsize)).cell 0 r h
        = (qlen - 1) + r * qlen + h * qlen * qlen ∧
      (qlen - 1) + r * qlen + h * qlen * qlen < scores.data.length) ∧
    (∀ n_past : Int, 0 < n_past →
      GLMSelfAttention.mask_scores neg_inf heads n_past qlen scores = scores) := by
  have hcell : ∀ i0 i1 i2,
      (ggml_view_3d scores 1 (qlen - 1) heads (qlen * scores.elsize)
          (qlen * qlen * scores.elsize) ((qlen - 1) * scores.elsize)).cell i0 i1 i2
        = (qlen - 1) + i2 * (qlen * qlen) + i1 * qlen + i0 := fun i0 i1 i2 =>
    ggml_view_3d_cell scores 1 (qlen - 1) heads qlen (qlen * qlen) (qlen - 1) i0 i1 i2 hes
  have hbound : ∀ h r c, h < heads → r < qlen → c < qlen →
      c + r * qlen + h * (qlen * qlen) < scores.data.length := by
    intro h r c hh hr hc
    have b1 : (r + 1) * qlen ≤ qlen * qlen := Nat.mul_le_mul_right _ hr
    have b2 : (r + 1) * qlen = r * qlen + qlen := Nat.succ_mul _ _
    have b3 : (h + 1) * (qlen * qlen) ≤ heads * (qlen * qlen) := Nat.mul_le_mul_right _ hh
    have b4 : (h + 1) * (qlen * qlen) = h * (qlen * qlen) + qlen * qlen := Nat.succ_mul _ _
    have b5 : heads * qlen * qlen = heads * (qlen * qlen) := Nat.mul_assoc _ _ _
    omega
  refine ⟨?_, ?_, ?_⟩
  · intro h r c hh hr hc
    have hmask : GLMSelfAttention.mask_scores neg_inf heads 0 qlen scores
        = ggml_cpy_3d_from (fun (x : α) => x) (fun _ _ _ => some neg_inf) scores
            (ggml_view_3d scores 1 (qlen - 1) heads (qlen * scores.elsize)
              (qlen * qlen * scores.elsize) ((qlen - 1) * scores.elsize)) := by
      simp only [GLMSelfAttention.mask_scores, if_true]
    rw [hmask]
    obtain ⟨_, hfill⟩ := ggml_cpy_3d_from_const neg_inf scores
      (ggml_view_3d scores 1 (qlen - 1) heads (qlen * scores.elsize)
        (qlen * qlen * scores.elsize) ((qlen - 1) * scores.elsize))
    by_cases hm : c = qlen - 1 ∧ r < qlen - 1
    · rw [if_pos hm]
      refine (hfill _).1 ⟨h, hh, r, hm.2, 0, Nat.zero_lt_one, ?_⟩ (hbound h r c hh hr hc)
      rw [hcell, hm.1]
      omega
    · rw [if_neg hm]
      refine (hfill _).2 ?_
      rintro ⟨i2, _, i1, hi1, i0, hi0, he⟩
      have hi1q : i1 < qlen - 1 := hi1
      have hi00 : i0 = 0 := by
        have : i0 < 1 := hi0
        omega
      rw [hcell, hi00] at he
      have he2 : c + r * qlen + h * (qlen * qlen)
          = (qlen - 1) + i1 * qlen + i2 * (qlen * qlen) := by omega
      obtain ⟨u1, u2⟩ := offset_unique qlen c r h (qlen - 1) i1 i2 hc hr (by omega) (by omega)
        he2
      exact hm ⟨u1, by omega⟩
  · intro h r hh hr
    have hb := hbound h r (qlen - 1) hh (by omega) (by omega)
    have b5 : h * qlen * qlen = h * (qlen * qlen) := Nat.mul_assoc _ _ _
    rw [hcell]
    constructor
    · omega
    · omega
  · intro n_past hn
    have hne : ¬ n_past = 0 := by omega
    simp only [GLMSelfAttention.mask_scores, if_neg hne]

/-- Witness for C25: two heads, `qlen = 3`, scores `0 .. 17`. -/
theorem glm_prefill_mask_witness :
    (0 < (4 : Nat) ∧ 1 ≤ 3 ∧ (List.range 18).length = 2 * 3 * 3) ∧
    (GLMSelfAttention.mask_scores 99 2 0 3 { data := List.range 18, elsize := 4 }).data
      = [0, 1, 99, 3, 4, 99, 6, 7, 8, 9, 10, 99, 12, 13, 99, 15, 16, 17] ∧
    (∀ h r c, h < 2 → r < 3 → c < 3 →
      (GLMSelfAttention.mask_scores 99 2 0 3 { data := List.range 18, elsize := 4 }).data[
          c + r * 3 + h * (3 * 3)]?
        = if c = 3 - 1 ∧ r < 3 - 1 then some 99
          else (List.range 18)[c + r * 3 + h * (3 * 3)]?) :=
  ⟨by decide, by decide,
   (glm_prefill_mask 99 2 3 { data := List.range 18, elsize := 4 } (by decide) (by decide)
     (by decide)).1⟩

/-! ## Lemmas on the store of `GLMSelfAttention::forward` -/

/-- A loop of `N` steps whose step `i` writes the value `g k` into each cell `k`
of `Q i` and leaves the other cells alone writes `g` into the cells of all steps
and leaves the others alone. -/
theorem write_fold {α : Type} (g : Nat → Option α) (L N : Nat) (S : List α → Nat → List α)
    (Q : Nat → Nat → Prop)
    (hS : ∀ b i, i < N → b.length = L → (S b i).length = L ∧
      ∀ k, (Q i k → k < L → (S b i)[k]? = g k) ∧ (¬ Q i k → (S b i)[k]? = b[k]?)) :
    ∀ n b, n ≤ N → b.length = L →
      ((List.range n).foldl S b).length = L ∧
      ∀ k, ((∃ i, i < n ∧ Q i k) → k < L → ((List.range n).foldl S b)[k]? = g k) ∧
        ((¬ ∃ i, i < n ∧ Q i k) → ((List.range n).foldl S b)[k]? = b[k]?) := by
  intro n
  induction n with
  | zero =>
    intro b _ hb
    refine ⟨hb, fun k => ⟨?_, fun _ => rfl⟩⟩
    rintro ⟨i, hi, _⟩
    omega
  | succ n ih =>
    intro b hn hb
    obtain ⟨hl, hk⟩ := ih b (by omega) hb
    rw [List.range_succ, List.foldl_append, List.foldl_cons, List.foldl_nil]
    obtain ⟨hl2, hk2⟩ := hS ((List.range n).foldl S b) n (by omega) hl
    refine ⟨hl2, fun k => ⟨?_, ?_⟩⟩
    · rintro ⟨i, hi, hq⟩ hkL
      by_cases hn : Q n k
      · exact (hk2 k).1 hn hkL
      · rw [(hk2 k).2 hn]
        have hin : i < n := by
          rcases Nat.lt_succ_iff_lt_or_eq.mp hi with h | h
          · exact h
          · subst h; exact absurd hq hn
        exact (hk k).1 ⟨i, hin, hq⟩ hkL
    · intro hne
      have hn : ¬ Q n k := fun hq => hne ⟨n, Nat.lt_succ_self n, hq⟩
      rw [(hk2 k).2 hn]
      exact (hk k).2 (fun ⟨i, hi, hq⟩ => hne ⟨i, Nat.lt_succ_of_lt hi, hq⟩)

/-- The copy of another tensor into a three-dimensional view: when `g` gives, at
the cell behind each element of the view, the converted element of the source,
the copy writes `g` into the cells of the view and leaves every other cell
unchanged. -/
theorem ggml_cpy_3d_from_spec {α β : Type} (cvt : β → α) (src : Nat → Nat → Nat → Option β)
    (t : Tensor α) (dst : View3) (g : Nat → Option α)
    (hg : ∀ i2 i1 i0, i2 < dst.ne2 → i1 < dst.ne1 → i0 < dst.ne0 →
      ∃ x, src i0 i1 i2 = some x ∧ g (dst.cell i0 i1 i2) = some (cvt x)) :
    (ggml_cpy_3d_from cvt src t dst).data.length = t.data.length ∧
    ∀ k,
      ((∃ i2, i2 < dst.ne2 ∧ ∃ i1, i1 < dst.ne1 ∧ ∃ i0, i0 < dst.ne0 ∧ k = dst.cell i0 i1 i2) →
        k < t.data.length → (ggml_cpy_3d_from cvt src t dst).data[k]? = g k) ∧
      ((¬ ∃ i2, i2 < dst.ne2 ∧ ∃ i1, i1 < dst.ne1 ∧ ∃ i0, i0 < dst.ne0 ∧
          k = dst.cell i0 i1 i2) →
        (ggml_cpy_3d_from cvt src t dst).data[k]? = t.data[k]?) := by
  have helem : ∀ i2 i1, i2 < dst.ne2 → i1 < dst.ne1 →
      ∀ (b : List α) i0, i0 < dst.ne0 → b.length = t.data.length →
      (cpy3_from_elem cvt src dst i2 i1 b i0).length = t.data.length ∧
      ∀ k, (k = dst.cell i0 i1 i2 → k < t.data.length →
          (cpy3_from_elem cvt src dst i2 i1 b i0)[k]? = g k) ∧
        (¬ k = dst.cell i0 i1 i2 → (cpy3_from_elem cvt src dst i2 i1 b i0)[k]? = b[k]?) := by
    intro i2 i1 h2 h1 b i0 h0 hb
    obtain ⟨x, hx, hgx⟩ := hg i2 i1 i0 h2 h1 h0
    have hstep : cpy3_from_elem cvt src dst i2 i1 b i0 = b.set (dst.cell i0 i1 i2) (cvt x) := by
      unfold cpy3_from_elem
      rw [hx]
    rw [hstep]
    refine ⟨by rw [List.length_set]; exact hb, fun k => ⟨?_, ?_⟩⟩
    · intro hk hkL
      rw [List.getElem?_set, if_pos hk.symm, if_pos (by omega), hk, hgx]
    · intro hk
      rw [List.getElem?_set, if_neg (fun h => hk h.symm)]
  have hrow : ∀ i2, i2 < dst.ne2 → ∀ (b : List α) i1, i1 < dst.ne1 →
      b.length = t.data.length →
      ((List.range dst.ne0).foldl (cpy3_from_elem cvt src dst i2 i1) b).length
        = t.data.length ∧
      ∀ k, ((∃ i0, i0 < dst.ne0 ∧ k = dst.cell i0 i1 i2) → k < t.data.length →
          ((List.range dst.ne0).foldl (cpy3_from_elem cvt src dst i2 i1) b)[k]? = g k) ∧
        ((¬ ∃ i0, i0 < dst.ne0 ∧ k = dst.cell i0 i1 i2) →
          ((List.range dst.ne0).foldl (cpy3_from_elem cvt src dst i2 i1) b)[k]? = b[k]?) := by
    intro i2 h2 b i1 h1 hb
    exact write_fold g t.data.length dst.ne0 _ (fun i0 k => k = dst.cell i0 i1 i2)
      (fun b i0 h0 hb => helem i2 i1 h2 h1 b i0 h0 hb) dst.ne0 b (Nat.le_refl _) hb
  have hplane : ∀ (b : List α) i2, i2 < dst.ne2 → b.length = t.data.length →
      ((List.range dst.ne1).foldl (fun buf1 i1 =>
          (List.range dst.ne0).foldl (cpy3_from_elem cvt src dst i2 i1) buf1) b).length
        = t.data.length ∧
      ∀ k, ((∃ i1, i1 < dst.ne1 ∧ ∃ i0, i0 < dst.ne0 ∧ k = dst.cell i0 i1 i2) →
          k < t.data.length →
          ((List.range dst.ne1).foldl (fun buf1 i1 =>
            (List.range dst.ne0).foldl (cpy3_from_elem cvt src dst i2 i1) buf1) b)[k]? = g k) ∧
        ((¬ ∃ i1, i1 < dst.ne1 ∧ ∃ i0, i0 < dst.ne0 ∧ k = dst.cell i0 i1 i2) →
          ((List.range dst.ne1).foldl (fun buf1 i1 =>
            (List.range dst.ne0).foldl (cpy3_from_elem cvt src dst i2 i1) buf1) b)[k]?
            = b[k]?) := by
    intro b i2 h2 hb
    exact write_fold g t.data.length dst.ne1 _
      (fun i1 k => ∃ i0, i0 < dst.ne0 ∧ k = dst.cell i0 i1 i2)
      (fun b i1 h1 hb => hrow i2 h2 b i1 h1 hb) dst.ne1 b (Nat.le_refl _) hb
  exact write_fold g t.data.length dst.ne2 _
    (fun i2 k => ∃ i1, i1 < dst.ne1 ∧ ∃ i0, i0 < dst.ne0 ∧ k = dst.cell i0 i1 i2)
    (fun b i2 h2 hb => hplane b i2 h2 hb) dst.ne2 t.data (Nat.le_refl _) rfl

/-- A number `b + a * m` with `b < m` determines `a` and `b`. -/
theorem radix_decode (m a b : Nat) (hb : b < m) :
    (b + a * m) / m = a ∧ (b + a * m) % m = b := by
  have hm : 0 < m := by omega
  constructor
  · rw [Nat.add_mul_div_right _ _ hm, Nat.div_eq_of_lt hb, Nat.zero_add]
  · rw [Nat.add_mul_mod_self_right, Nat.mod_eq_of_lt hb]

/-- The store of the keys: `K[h][i][d]` receives the converted key of token
`i - n_past` when `n_past <= i < n_past + qlen` and keeps its value otherwise;
the buffer keeps its length. -/
theorem GLMSelfAttention.forward_store_k_entry {α β : Type} (cvt : β → α)
    (a : GLMSelfAttention α) (head_size n_ctx n_past qlen : Nat)
    (key_layer value_layer : Nat → Nat → Nat → Option β) (hwf : a.wf head_size n_ctx)
    (hcap : n_past + qlen ≤ n_ctx)
    (hkey : ∀ h t d, h < a.num_attention_heads → t < qlen → d < head_size →
      ∃ x, key_layer d t h = some x) :
    (a.forward_store cvt head_size n_past qlen key_layer value_layer).k_cache.data.length
      = a.k_cache.data.length ∧
    ∀ h i d, h < a.num_attention_heads → i < n_ctx → d < head_size →
      (a.forward_store cvt head_size n_past qlen key_layer value_layer).k_entry h i d
        = if n_past ≤ i ∧ i < n_past + qlen then (key_layer d (i - n_past) h).map cvt
          else a.k_entry h i d := by
  obtain ⟨hes, _, hk1, hk2, _, _, hklen, _⟩ := hwf
  have hcell : ∀ i0 i1 i2,
      (ggml_view_3d a.k_cache head_size qlen a.num_attention_heads a.k_nb1 a.k_nb2
          (n_past * head_size * a.k_cache.elsize)).cell i0 i1 i2
        = (i1 + n_past) * head_size + i0 + i2 * (n_ctx * head_size) := by
    intro i0 i1 i2
    rw [hk1, hk2, ggml_view_3d_cell a.k_cache head_size qlen a.num_attention_heads head_size
      (n_ctx * head_size) (n_past * head_size) i0 i1 i2 hes, Nat.add_mul]
    omega
  have hrow : ∀ p d, p < n_ctx → d < head_size → p * head_size + d < n_ctx * head_size := by
    intro p d hp hd
    have e1 : (p + 1) * head_size ≤ n_ctx * head_size := Nat.mul_le_mul_right _ hp
    have e2 : (p + 1) * head_size = p * head_size + head_size := Nat.succ_mul _ _
    omega
  have hentry : ∀ (data : List α) h i d,
      data[(h * a.k_nb2 + i * a.k_nb1 + d * a.k_cache.elsize) / a.k_cache.elsize]?
        = data[i * head_size + d + h * (n_ctx * head_size)]? := by
    intro data h i d
    have e : h * a.k_nb2 + i * a.k_nb1 + d * a.k_cache.elsize
        = a.k_cache.elsize * (i * head_size + d + h * (n_ctx * head_size)) := by
      rw [hk1, hk2]; ring
    rw [e, Nat.mul_div_cancel_left _ hes]
  obtain ⟨hlen, hspec⟩ := ggml_cpy_3d_from_spec cvt key_layer a.k_cache
    (ggml_view_3d a.k_cache head_size qlen a.num_attention_heads a.k_nb1 a.k_nb2
      (n_past * head_size * a.k_cache.elsize))
    (fun k => (key_layer (k % head_size)
      (k % (n_ctx * head_size) / head_size - n_past) (k / (n_ctx * head_size))).map cvt)
    (by
      intro i2 i1 i0 h2 h1 h0
      have h2h : i2 < a.num_attention_heads := h2
      have h1q : i1 < qlen := h1
      have h0d : i0 < head_size := h0
      obtain ⟨x, hx⟩ := hkey i2 i1 i0 h2h h1q h0d
      refine ⟨x, hx, ?_⟩
      rw [hcell]
      have hr := hrow (i1 + n_past) i0 (by omega) h0d
      obtain ⟨q1, q2⟩ := radix_decode (n_ctx * head_size) i2 ((i1 + n_past) * head_size + i0) hr
      obtain ⟨q3, q4⟩ := radix_decode head_size (i1 + n_past) i0 h0d
      have q5 : ((i1 + n_past) * head_size + i0 + i2 * (n_ctx * head_size)) % head_size = i0 := by
        have e : (i1 + n_past) * head_size + i0 + i2 * (n_ctx * head_size)
            = i0 + (i1 + n_past + i2 * n_ctx) * head_size := by ring
        rw [e]
        exact (radix_decode head_size _ i0 h0d).2
      have q6 : (i1 + n_past) * head_size + i0 = i0 + (i1 + n_past) * head_size := by omega
      simp only []
      rw [q5, q1, q2, q6, q3, Nat.add_sub_cancel, hx]
      rfl)
  refine ⟨hlen, ?_⟩
  intro h i d hh hi hd
  have hb1 : (h + 1) * (n_ctx * head_size) ≤ a.num_attention_heads * (n_ctx * head_size) :=
    Nat.mul_le_mul_right _ hh
  have hb2 : (h + 1) * (n_ctx * head_size) = h * (n_ctx * head_size) + n_ctx * head_size :=
    Nat.succ_mul _ _
  have hr := hrow i d hi hd
  have hkL : i * head_size + d + h * (n_ctx * head_size) < a.k_cache.data.length := by omega
  have hnew : (a.forward_store cvt head_size n_past qlen key_layer value_layer).k_entry h i d
      = (ggml_cpy_3d_from cvt key_layer a.k_cache
          (ggml_view_3d a.k_cache head_size qlen a.num_attention_heads a.k_nb1 a.k_nb2
            (n_past * head_size * a.k_cache.elsize))).data[
          i * head_size + d + h * (n_ctx * head_size)]? := hentry _ h i d
  have hold : a.k_entry h i d = a.k_cache.data[i * head_size + d + h * (n_ctx * head_size)]? :=
    hentry _ h i d
  rw [hnew, hold]
  by_cases hin : n_past ≤ i ∧ i < n_past + qlen
  · rw [if_pos hin]
    have hmem : ∃ i2, i2 < a.num_attention_heads ∧ ∃ i1, i1 < qlen ∧ ∃ i0, i0 < head_size ∧
        i * head_size + d + h * (n_ctx * head_size)
          = (ggml_view_3d a.k_cache head_size qlen a.num_attention_heads a.k_nb1 a.k_nb2
              (n_past * head_size * a.k_cache.elsize)).cell i0 i1 i2 := by
      refine ⟨h, hh, i - n_past, by omega, d, hd, ?_⟩
      rw [hcell]
      have : i - n_past + n_past = i := by omega
      rw [this]
    rw [(hspec _).1 hmem hkL]
    obtain ⟨q1, q2⟩ := radix_decode (n_ctx * head_size) h (i * head_size + d) hr
    obtain ⟨q3, q4⟩ := radix_decode head_size i d hd
    have q5 : (i * head_size + d + h * (n_ctx * head_size)) % head_size = d := by
      have e : i * head_size + d + h * (n_ctx * head_size)
          = d + (i + h * n_ctx) * head_size := by ring
      rw [e]
      exact (radix_decode head_size _ d hd).2
    have q6 : i * head_size + d = d + i * head_size := by omega
    rw [q5, q1, q2, q6, q3]
  · rw [if_neg hin]
    refine (hspec _).2 ?_
    rintro ⟨i2, h2, i1, h1, i0, h0, he⟩
    have h1q : i1 < qlen := h1
    have h0d : i0 < head_size := h0
    rw [hcell] at he
    have hr2 := hrow (i1 + n_past) i0 (by omega) h0d
    have e1 := (radix_decode (n_ctx * head_size) h (i * head_size + d) hr).2
    have e2 := (radix_decode (n_ctx * head_size) i2 ((i1 + n_past) * head_size + i0) hr2).2
    rw [he, e2] at e1
    have e3 := (radix_decode head_size i d hd).1
    have e4 := (radix_decode head_size (i1 + n_past) i0 h0d).1
    have e5 : i * head_size + d = d + i * head_size := by omega
    have e6 : (i1 + n_past) * head_size + i0 = i0 + (i1 + n_past) * head_size := by omega
    rw [e5] at e1
    rw [e6] at e1
    rw [← e1, e4] at e3
    omega

/-- The store of the values: `V[h][d][i]` receives the converted value of token
`i - n_past` when `n_past <= i < n_past + qlen` and keeps its value otherwise;
the buffer keeps its length. -/
theorem GLMSelfAttention.forward_store_v_entry {α β : Type} (cvt : β → α)
    (a : GLMSelfAttention α) (head_size n_ctx n_past qlen : Nat)
    (key_layer value_layer : Nat → Nat → Nat → Option β) (hwf : a.wf head_size n_ctx)
    (hcap : n_past + qlen ≤ n_ctx)
    (hval : ∀ h d t, h < a.num_attention_heads → d < head_size → t < qlen →
      ∃ x, value_layer t d h = some x) :
    (a.forward_store cvt head_size n_past qlen key_layer value_layer).v_cache.data.length
      = a.v_cache.data.length ∧
    ∀ h d i, h < a.num_attention_heads → d < head_size → i < n_ctx →
      (a.forward_store cvt head_size n_past qlen key_layer value_layer).v_entry h d i
        = if n_past ≤ i ∧ i < n_past + qlen then (value_layer (i - n_past) d h).map cvt
          else a.v_entry h d i := by
  obtain ⟨_, hes, _, _, hv1, hv2, _, hvlen⟩ := hwf
  have hcell : ∀ i0 i1 i2,
      (ggml_view_3d a.v_cache qlen head_size a.num_attention_heads a.v_nb1 a.v_nb2
          (n_past * a.v_cache.elsize)).cell i0 i1 i2
        = i0 + n_past + (i1 + i2 * head_size) * n_ctx := by
    intro i0 i1 i2
    rw [hv1, hv2, ggml_view_3d_cell a.v_cache qlen head_size a.num_attention_heads n_ctx
      (head_size * n_ctx) n_past i0 i1 i2 hes, Nat.add_mul, Nat.mul_assoc]
    omega
  have hentry : ∀ (data : List α) h d i,
      data[(h * a.v_nb2 + d * a.v_nb1 + i * a.v_cache.elsize) / a.v_cache.elsize]?
        = data[i + (d + h * head_size) * n_ctx]? := by
    intro data h d i
    have e : h * a.v_nb2 + d * a.v_nb1 + i * a.v_cache.elsize
        = a.v_cache.elsize * (i + (d + h * head_size) * n_ctx) := by
      rw [hv1, hv2]; ring
    rw [e, Nat.mul_div_cancel_left _ hes]
  have hdec : ∀ h d i, d < head_size → i < n_ctx →
      (i + (d + h * head_size) * n_ctx) % n_ctx = i ∧
      (i + (d + h * head_size) * n_ctx) / n_ctx % head_size = d ∧
      (i + (d + h * head_size) * n_ctx) / n_ctx / head_size = h := by
    intro h d i hd hi
    obtain ⟨q1, q2⟩ := radix_decode n_ctx (d + h * head_size) i hi
    obtain ⟨q3, q4⟩ := radix_decode head_size h d hd
    rw [q1, q2, q3, q4]
    exact ⟨rfl, rfl, rfl⟩
  obtain ⟨hlen, hspec⟩ := ggml_cpy_3d_from_spec cvt value_layer a.v_cache
    (ggml_view_3d a.v_cache qlen head_size a.num_attention_heads a.v_nb1 a.v_nb2
      (n_past * a.v_cache.elsize))
    (fun k => (value_layer (k % n_ctx - n_past) (k / n_ctx % head_size)
      (k / n_ctx / head_size)).map cvt)
    (by
      intro i2 i1 i0 h2 h1 h0
      have h2h : i2 < a.num_attention_heads := h2
      have h1d : i1 < head_size := h1
      have h0q : i0 < qlen := h0
      obtain ⟨x, hx⟩ := hval i2 i1 i0 h2h h1d h0q
      refine ⟨x, hx, ?_⟩
      rw [hcell]
      obtain ⟨q1, q2, q3⟩ := hdec i2 i1 (i0 + n_past) h1d (by omega)
      simp only []
      rw [q1, q2, q3, Nat.add_sub_cancel, hx]
      rfl)
  refine ⟨hlen, ?_⟩
  intro h d i hh hd hi
  have hb1 : (h + 1) * head_size ≤ a.num_attention_heads * head_size :=
    Nat.mul_le_mul_right _ hh
  have hb2 : (h + 1) * head_size = h * head_size + head_size := Nat.succ_mul _ _
  have hrow : d + h * head_size < a.num_attention_heads * head_size := by omega
  have hb3 : (d + h * head_size + 1) * n_ctx ≤ a.num_attention_heads * head_size * n_ctx :=
    Nat.mul_le_mul_right _ hrow
  have hb4 : (d + h * head_size + 1) * n_ctx = (d + h * head_size) * n_ctx + n_ctx :=
    Nat.succ_mul _ _
  have hkL : i + (d + h * head_size) * n_ctx < a.v_cache.data.length := by omega
  have hnew : (a.forward_store cvt head_size n_past qlen key_layer value_layer).v_entry h d i
      = (ggml_cpy_3d_from cvt value_layer a.v_cache
          (ggml_view_3d a.v_cache qlen head_size a.num_attention_heads a.v_nb1 a.v_nb2
            (n_past * a.v_cache.elsize))).data[i + (d + h * head_size) * n_ctx]? :=
    hentry _ h d i
  have hold : a.v_entry h d i = a.v_cache.data[i + (d + h * head_size) * n_ctx]? :=
    hentry _ h d i
  rw [hnew, hold]
  by_cases hin : n_past ≤ i ∧ i < n_past + qlen
  · rw [if_pos hin]
    have hmem : ∃ i2, i2 < a.num_attention_heads ∧ ∃ i1, i1 < head_size ∧ ∃ i0, i0 < qlen ∧
        i + (d + h * head_size) * n_ctx
          = (ggml_view_3d a.v_cache qlen head_size a.num_attention_heads a.v_nb1 a.v_nb2
              (n_past * a.v_cache.elsize)).cell i0 i1 i2 := by
      refine ⟨h, hh, d, hd, i - n_past, by omega, ?_⟩
      rw [hcell]
      have : i - n_past + n_past = i := by omega
      rw [this]
    rw [(hspec _).1 hmem hkL]
    obtain ⟨q1, q2, q3⟩ := hdec h d i hd hi
    rw [q1, q2, q3]
  · rw [if_neg hin]
    refine (hspec _).2 ?_
    rintro ⟨i2, h2, i1, h1, i0, h0, he⟩
    have h1d : i1 < head_size := h1
    have h0q : i0 < qlen := h0
    rw [hcell] at he
    have e1 := (hdec h d i hd hi).1
    have e2 := (hdec i2 i1 (i0 + n_past) h1d (by omega)).1
    rw [he, e2] at e1
    omega

/-- The shift block keeps the layout of the caches. -/
theorem GLMSelfAttention.forward_shift_wf {α : Type} (a : GLMSelfAttention α)
    (head_size n_ctx shift total : Nat) (hwf : a.wf head_size n_ctx)
    (hsp : a.shift_pending = { shift := shift, total := total })
    (hshift : 0 < shift) (hremain : shift < total) (htotal : total ≤ n_ctx) :
    (a.forward_shift head_size).wf head_size n_ctx := by
  obtain ⟨hes, hes2, hk1, hk2, hv1, hv2, hklen, hvlen⟩ := hwf
  have e1 : shift * head_size + (total - shift) * head_size = total * head_size := by
    rw [← Nat.add_mul]; congr 1; omega
  have e2 : total * head_size ≤ n_ctx * head_size := Nat.mul_le_mul_right _ htotal
  obtain ⟨hkl, _, _⟩ := ggml_cpy_2d_spec a.k_cache ((total - shift) * head_size)
    a.num_attention_heads (n_ctx * head_size) (shift * head_size) hes (by omega) (by omega)
  obtain ⟨hvl, _, _⟩ := ggml_cpy_2d_spec a.v_cache (total - shift)
    (a.num_attention_heads * head_size) n_ctx shift hes2 (by omega) (by omega)
  rw [← ggml_cpy_3d_contiguous_rows a.k_cache head_size (total - shift)
    a.num_attention_heads (n_ctx * head_size) (shift * head_size) hes, ← hk1, ← hk2] at hkl
  rw [← ggml_cpy_3d_contiguous_planes a.v_cache (total - shift) head_size
    a.num_attention_heads n_ctx shift hes2, ← hv1, ← hv2] at hvl
  rw [GLMSelfAttention.forward_shift_pending a head_size shift total hsp hshift hremain]
  exact ⟨hes, hes2, hk1, hk2, hv1, hv2, hkl.trans hklen, hvl.trans hvlen⟩

/-- C22: compaction in `GLMSelfAttention`.  With the per-head layout K
`[heads][n_ctx][head_size]`, V `[heads][head_size][n_ctx]` and a pending
`ShiftPending = {shift, total}`, `shift > 0`, `remain = total - shift > 0`
(`total <= n_ctx`), the shift block of `forward` leaves, for every head `h`,
position `i < remain` and channel `d < head_size`, `K[h][i][d]` equal to the old
`K[h][i + shift][d]` and `V[h][d][i]` equal to the old `V[h][d][i + shift]`; the
descriptor is no longer pending after the block, and `forward` writes the new
K/V at `n_past` into that compacted, cleared state: when `forward` returns (for
`n_past + qlen <= n_ctx`), position `n_past + t` holds the key and the value of
the new token `t`, every retained position outside `[n_past, n_past + qlen)`
holds its compacted entry, and the descriptor is not pending. -/
theorem glm_cache_compaction {α : Type} (a : GLMSelfAttention α)
    (head_size n_ctx shift total : Nat) (hwf : a.wf head_size n_ctx)
    (hsp : a.shift_pending = { shift := shift, total := total })
    (hshift : 0 < shift) (hremain : 0 < total - shift) (htotal : total ≤ n_ctx) :
    (∀ h i d, h < a.num_attention_heads → i < total - shift → d < head_size →
      ∃ x, (a.forward_shift head_size).k_entry h i d = some x ∧
        a.k_entry h (i + shift) d = some x) ∧
    (∀ h d i, h < a.num_attention_heads → d < head_size → i < total - shift →
      ∃ x, (a.forward_shift head_size).v_entry h d i = some x ∧
        a.v_entry h d (i + shift) = some x) ∧
    ¬ (a.forward_shift head_size).shift_pending.shift > 0 ∧
    (∀ (β : Type) (cvt : β → α) (hidden_size n_past qlen : Nat)
        (key_layer value_layer : Nat → Nat → Nat → Option β),
      hidden_size / a.num_attention_heads = head_size →
      a.forward cvt hidden_size n_past qlen key_layer value_layer
          = (GLMSelfAttention.forward_shift
              { a with pos := fill_pos_vector (n_past : Int) (qlen : Int) }
              head_size).forward_store cvt head_size n_past qlen key_layer value_layer ∧
        (GLMSelfAttention.forward_shift
            { a with pos := fill_pos_vector (n_past : Int) (qlen : Int) } head_size).k_cache
          = (a.forward_shift head_size).k_cache ∧
        (GLMSelfAttention.forward_shift
            { a with pos := fill_pos_vector (n_past : Int) (qlen : Int) } head_size).v_cache
          = (a.forward_shift head_size).v_cache ∧
        ¬ (a.forward cvt hidden_size n_past qlen key_layer value_layer).shift_pending.shift
            > 0) ∧
    (∀ (β : Type) (cvt : β → α) (hidden_size n_past qlen : Nat)
        (key_layer value_layer : Nat → Nat → Nat → Option β),
      hidden_size / a.num_attention_heads = head_size →
      n_past + qlen ≤ n_ctx →
      (∀ h t d, h < a.num_attention_heads → t < qlen → d < head_size →
        ∃ x, key_layer d t h = some x) →
      (∀ h d t, h < a.num_attention_heads → d < head_size → t < qlen →
        ∃ x, value_layer t d h = some x) →
      (∀ h t d, h < a.num_attention_heads → t < qlen → d < head_size →
        ∃ x, key_layer d t h = some x ∧
          (a.forward cvt hidden_size n_past qlen key_layer value_layer).k_entry h (n_past + t) d
            = some (cvt x)) ∧
      (∀ h d t, h < a.num_attention_heads → d < head_size → t < qlen →
        ∃ x, value_layer t d h = some x ∧
          (a.forward cvt hidden_size n_past qlen key_layer value_layer).v_entry h d (n_past + t)
            = some (cvt x)) ∧
      (∀ h i d, h < a.num_attention_heads → i < total - shift → d < head_size →
        (i < n_past ∨ n_past + qlen ≤ i) →
        ∃ x, (a.forward cvt hidden_size n_past qlen key_layer value_layer).k_entry h i d
            = some x ∧
          a.k_entry h (i + shift) d = some x) ∧
      (∀ h d i, h < a.num_attention_heads → d < head_size → i < total - shift →
        (i < n_past ∨ n_past + qlen ≤ i) →
        ∃ x, (a.forward cvt hidden_size n_past qlen key_layer value_layer).v_entry h d i
            = some x ∧
          a.v_entry h d (i + shift) = some x) ∧
      (a.forward cvt hidden_size n_past qlen key_layer value_layer).pos
        = fill_pos_vector (n_past : Int) (qlen : Int)) := by
  have hrem : shift < total := by omega
  have hpend := GLMSelfAttention.forward_shift_pending a head_size shift total hsp hshift hrem
  have hkc : ∀ h i d, h < a.num_attention_heads → i < total - shift → d < head_size →
      ∃ x, (a.forward_shift head_size).k_entry h i d = some x ∧
        a.k_entry h (i + shift) d = some x := by
    intro h i d hh hi hd
    obtain ⟨h1, x, hx⟩ := GLMSelfAttention.forward_shift_k_entry a head_size n_ctx shift total
      hwf hsp hshift hrem htotal h i d hh hi hd
    exact ⟨x, by rw [h1, hx], hx⟩
  have hvc : ∀ h d i, h < a.num_attention_heads → d < head_size → i < total - shift →
      ∃ x, (a.forward_shift head_size).v_entry h d i = some x ∧
        a.v_entry h d (i + shift) = some x := by
    intro h d i hh hd hi
    obtain ⟨h1, x, hx⟩ := GLMSelfAttention.forward_shift_v_entry a head_size n_ctx shift total
      hwf hsp hshift hrem htotal h d i hh hd hi
    exact ⟨x, by rw [h1, hx], hx⟩
  refine ⟨hkc, hvc, ?_, ?_, ?_⟩
  · rw [hpend]
    show ¬ ((0 : Int) > 0)
    omega
  · intro β cvt hidden_size n_past qlen key_layer value_layer hhs
    have hpos := GLMSelfAttention.forward_shift_pending
      { a with pos := fill_pos_vector (n_past : Int) (qlen : Int) } head_size shift total hsp
      hshift hrem
    refine ⟨?_, ?_, ?_, ?_⟩
    · simp only [GLMSelfAttention.forward, hhs]
    · rw [hpos, hpend]
    · rw [hpos, hpend]
    · simp only [GLMSelfAttention.forward, hhs]
      rw [GLMSelfAttention.forward_store_shift_pending, hpos]
      show ¬ ((0 : Int) > 0)
      omega
  · intro β cvt hidden_size n_past qlen key_layer value_layer hhs hcap hkey hval
    generalize hb : ({ a with pos := fill_pos_vector (n_past : Int) (qlen : Int) }
      : GLMSelfAttention α) = b
    have hfw : a.forward cvt hidden_size n_past qlen key_layer value_layer
        = (b.forward_shift head_size).forward_store cvt head_size n_past qlen key_layer
            value_layer := by
      rw [← hb]
      simp only [GLMSelfAttention.forward, hhs]
    have hbwf : b.wf head_size n_ctx := by rw [← hb]; exact hwf
    have hbsp : b.shift_pending = { shift := shift, total := total } := by rw [← hb]; exact hsp
    have hbh : b.num_attention_heads = a.num_attention_heads := by rw [← hb]
    have hbk : ∀ h i d, b.k_entry h i d = a.k_entry h i d := by
      intro h i d; rw [← hb]; rfl
    have hbv : ∀ h d i, b.v_entry h d i = a.v_entry h d i := by
      intro h d i; rw [← hb]; rfl
    have hswf := GLMSelfAttention.forward_shift_wf b head_size n_ctx shift total hbwf hbsp
      hshift hrem htotal
    have hsh : (b.forward_shift head_size).num_attention_heads = a.num_attention_heads := by
      rw [GLMSelfAttention.forward_shift_pending b head_size shift total hbsp hshift hrem]
      exact hbh
    have hspos : (b.forward_shift head_size).pos = fill_pos_vector (n_past : Int) (qlen : Int) := by
      rw [GLMSelfAttention.forward_shift_pending b head_size shift total hbsp hshift hrem,
        ← hb]
    obtain ⟨_, hks⟩ := GLMSelfAttention.forward_store_k_entry cvt (b.forward_shift head_size)
      head_size n_ctx n_past qlen key_layer value_layer hswf hcap
      (by rw [hsh]; exact hkey)
    obtain ⟨_, hvs⟩ := GLMSelfAttention.forward_store_v_entry cvt (b.forward_shift head_size)
      head_size n_ctx n_past qlen key_layer value_layer hswf hcap
      (by rw [hsh]; exact hval)
    rw [hsh] at hks hvs
    rw [hfw]
    refine ⟨?_, ?_, ?_, ?_, ?_⟩
    · intro h t d hh ht hd
      obtain ⟨x, hx⟩ := hkey h t d hh ht hd
      refine ⟨x, hx, ?_⟩
      rw [hks h (n_past + t) d hh (by omega) hd, if_pos (by omega), Nat.add_sub_cancel_left, hx]
      rfl
    · intro h d t hh hd ht
      obtain ⟨x, hx⟩ := hval h d t hh hd ht
      refine ⟨x, hx, ?_⟩
      rw [hvs h d (n_past + t) hh hd (by omega), if_pos (by omega), Nat.add_sub_cancel_left, hx]
      rfl
    · intro h i d hh hi hd hout
      obtain ⟨h1, x, hx⟩ := GLMSelfAttention.forward_shift_k_entry b head_size n_ctx shift
        total hbwf hbsp hshift hrem htotal h i d (by rw [hbh]; exact hh) hi hd
      rw [hbk] at h1 hx
      refine ⟨x, ?_, hx⟩
      rw [hks h i d hh (by omega) hd, if_neg (by omega), h1, hx]
    · intro h d i hh hd hi hout
      obtain ⟨h1, x, hx⟩ := GLMSelfAttention.forward_shift_v_entry b head_size n_ctx shift
        total hbwf hbsp hshift hrem htotal h d i (by rw [hbh]; exact hh) hd hi
      rw [hbv] at h1 hx
      refine ⟨x, ?_, hx⟩
      rw [hvs h d i hh hd (by omega), if_neg (by omega), h1, hx]
    · exact hspos

/-- Witness for C22: `ShiftPending = {1, 3}` on the two-head, three-position GLM
cache, then one new token written at `n_past = 2`. -/
theorem glm_cache_compaction_witness :
    (demoGLM { shift := 1, total := 3 }).wf 2 3 ∧
    (∀ h i d, h < 2 → i < 3 - 1 → d < 2 →
      ∃ x, ((demoGLM { shift := 1, total := 3 }).forward_shift 2).k_entry h i d = some x ∧
        (demoGLM { shift := 1, total := 3 }).k_entry h (i + 1) d = some x) ∧
    ((demoGLM { shift := 1, total := 3 }).forward (fun (x : Nat) => x) 4 2 1
        (fun d _ h => some (900 + 10 * h + d)) (fun _ d h => some (800 + 10 * h + d))).k_cache.data
      = [10, 11, 20, 21, 900, 901, 110, 111, 120, 121, 910, 911] ∧
    ((demoGLM { shift := 1, total := 3 }).forward (fun (x : Nat) => x) 4 2 1
        (fun d _ h => some (900 + 10 * h + d)) (fun _ d h => some (800 + 10 * h + d))).v_cache.data
      = [10, 20, 800, 11, 21, 801, 110, 120, 810, 111, 121, 811] :=
  ⟨by decide,
   (glm_cache_compaction (demoGLM { shift := 1, total := 3 }) 2 3 1 3 (by decide) rfl
     (by decide) (by decide) (by decide)).1,
   by decide, by decide⟩

end chatllm
